import Mathlib

/-!
# A shallow embedding of `big_integer` (src/big_integer.cpp, src/big_integer.h)

The C++ value type `big_integer` is a little-endian `std::vector<uint32_t>` of limbs
together with a sign flag.  Limbs are modelled as natural numbers; every place where the
C++ arithmetic is carried out in a fixed-width unsigned type is reduced modulo the width
explicitly (`% 4294967296` for `uint32_t`, `% 18446744073709551616` for `uint64_t`).

Conventions of the embedding:
* `std::vector::operator[]` is `List.getD _ _ 0` for reads and `List.set` for writes;
* a `for`/`while` loop is a recursive function whose first argument counts the iterations
  that are still allowed;
* a C++ member function mutating `*this` is a function returning the new receiver;
* the one division whose denominator can be zero on well-formed operands (the
  normalisation factor of `division`) makes the function return `none`;
* a `std::string` is the list of its characters, taken to be ASCII.
-/

namespace BigInteger

/-! ## Data model -/

/-- The limb radix `big_integer::RADIX`, that is 2^32. -/
def RADIX : Nat := 4294967296

/-- The largest limb, `UINT32_MAX`. -/
def UINT32_MAX : Nat := 4294967295

/-- The decimal group radix `big_integer::STRING_RADIX`. -/
def STRING_RADIX : Nat := 1000000000

/-- The radix of one decimal character, `big_integer::CHAR_RADIX`. -/
def CHAR_RADIX : Nat := 10

/-- The two data members of `struct big_integer`. -/
structure big_integer where
  value : List Nat
  is_negative : Bool
deriving DecidableEq, Repr

/-- The natural number denoted by a little-endian limb sequence. -/
def limbs_value : List Nat → Nat
  | [] => 0
  | x :: xs => x + 4294967296 * limbs_value xs

/-- The integer denoted by a bignum (sign-magnitude interpretation). -/
def to_int (a : big_integer) : Int :=
  if a.is_negative then -(limbs_value a.value : Int) else (limbs_value a.value : Int)

/-- Every limb fits in 32 bits. -/
def limbs_bounded (v : List Nat) : Prop := ∀ x ∈ v, x < 4294967296

/-- No superfluous most significant zero limb: the magnitude is empty, the single limb 0,
or ends in a non-zero limb. -/
def normalized (v : List Nat) : Prop := v = [] ∨ v = [0] ∨ v.getLast? ≠ some 0

/-- The data-model invariant: limbs are 32-bit, the magnitude is normalized, and zero is
never negative. -/
def well_formed (a : big_integer) : Prop :=
  limbs_bounded a.value ∧ normalized a.value ∧ (limbs_value a.value = 0 → a.is_negative = false)

instance (v : List Nat) : Decidable (limbs_bounded v) :=
  inferInstanceAs (Decidable (∀ x ∈ v, x < 4294967296))

instance (v : List Nat) : Decidable (normalized v) :=
  inferInstanceAs (Decidable (_ ∨ _ ∨ _))

instance (a : big_integer) : Decidable (well_formed a) :=
  inferInstanceAs (Decidable (_ ∧ _ ∧ _))

/-- The effect of `std::vector::resize(n, fill)`. -/
def resize (v : List Nat) (n : Nat) (fill : Nat) : List Nat :=
  v.take n ++ List.replicate (n - v.length) fill

/-! ## Normalisation and construction -/

/-- The loop of `skip_leading_zeros`, on the limbs listed from the most significant one:
pop while more than one limb is left and the last one is zero. -/
def skip_leading_zeros_rev : List Nat → List Nat
  | [] => []
  | [x] => [x]
  | x :: y :: rest => if x = 0 then skip_leading_zeros_rev (y :: rest) else x :: y :: rest

/-- The C++ member `big_integer::skip_leading_zeros`. -/
def skip_leading_zeros (a : big_integer) : big_integer :=
  { a with value := (skip_leading_zeros_rev a.value.reverse).reverse }

/-- The do-while loop of `big_integer(unsigned long long)`: push the low 32 bits, shift,
repeat while the rest is positive. -/
def push_limbs : Nat → Nat → List Nat
  | 0, _ => []
  | fuel + 1, a =>
    (a % 4294967296) :: (if a / 4294967296 > 0 then push_limbs fuel (a / 4294967296) else [])

/-- The C++ constructor `big_integer::big_integer(unsigned long long a)`, for `a < 2^64`
(two rounds of the loop exhaust a 64-bit argument). -/
def of_uint64 (a : Nat) : big_integer :=
  skip_leading_zeros ⟨push_limbs 2 a, false⟩

/-- The C++ constructor `big_integer::big_integer(long long a)`. -/
def of_int64 (a : Int) : big_integer :=
  { of_uint64 (if a = -9223372036854775808 then 9223372036854775807 + 1 else a.natAbs) with
    is_negative := decide (a < 0) }

/-- The C++ constructor `big_integer::big_integer(int a)`. -/
def of_int (a : Int) : big_integer := of_int64 a

/-- The C++ constructor `big_integer::big_integer(unsigned int a)`. -/
def of_uint32 (a : Nat) : big_integer := of_uint64 a

/-! ## Comparison -/

/-- The C++ `operator==(const big_integer&, const int&)`. -/
def op_eq_int (a : big_integer) (b : Int) : Bool :=
  if a.value.isEmpty then decide (b = 0)
  else
    a.value.length == 1 && (decide (b < 0) == a.is_negative) &&
      (b.natAbs % 4294967296 == a.value.getD 0 0)

/-- The limb loop of `operator==` (both operands have the same number of limbs). -/
def limbs_all_equal : List Nat → List Nat → Bool
  | x :: xs, y :: ys => if x != y then false else limbs_all_equal xs ys
  | _, _ => true

/-- The C++ `operator==(const big_integer&, const big_integer&)`. -/
def op_eq (a b : big_integer) : Bool :=
  if op_eq_int a 0 then op_eq_int b 0
  else if a.is_negative != b.is_negative || a.value.length != b.value.length then false
  else limbs_all_equal a.value b.value

/-- The C++ `operator!=`. -/
def op_ne (a b : big_integer) : Bool := !(op_eq a b)

/-- The limb loop of `operator<`, on the limbs listed from the most significant one. -/
def lt_loop (neg : Bool) : List Nat → List Nat → Bool
  | x :: xs, y :: ys => if x != y then (decide (x < y) != neg) else lt_loop neg xs ys
  | _, _ => false

/-- The C++ `operator<`. -/
def op_lt (a b : big_integer) : Bool :=
  if a.is_negative != b.is_negative then a.is_negative
  else if a.value.length != b.value.length then
    (decide (a.value.length < b.value.length) != a.is_negative)
  else lt_loop a.is_negative a.value.reverse b.value.reverse

/-- The C++ `operator>`. -/
def op_gt (a b : big_integer) : Bool := op_lt b a

/-- The C++ `operator<=`. -/
def op_le (a b : big_integer) : Bool := !(op_gt a b)

/-- The C++ `operator>=`. -/
def op_ge (a b : big_integer) : Bool := !(op_lt a b)

/-- The C++ `big_integer::operator=`: the receiver is replaced unless it already compares
equal. -/
def op_assign (this other : big_integer) : big_integer :=
  if op_ne this other then other else this

/-! ## Long addition and subtraction -/

/-- The limb loop of `operator+=` (lines 101-115): `k` iterations are left, `i` is the loop
index; the result is the buffer and the final carry. -/
def add_loop (left_size : Nat) (rhs : List Nat) : Nat → Nat → Bool → List Nat → List Nat × Bool
  | 0, _, carry, value => (value, carry)
  | k + 1, i, carry, value =>
    let digit := ((if carry then 1 else 0)
      + (if i < left_size then value.getD i 0 else 0)
      + (if i < rhs.length then rhs.getD i 0 else 0)) % 18446744073709551616
    let carry := decide (digit > UINT32_MAX)
    let digit := if carry then digit - UINT32_MAX - 1 else digit
    add_loop left_size rhs k (i + 1) carry (value.set i (digit % 4294967296))

/-- The equal-sign part of `operator+=` (lines 97-121). -/
def add_same_sign (this rhs : big_integer) : big_integer :=
  let left_size := this.value.length
  let right_size := rhs.value.length
  let value := resize this.value (max left_size right_size + 1) 0
  let (value, carry) := add_loop left_size rhs.value (value.length - 1) 0 false value
  if carry then { this with value := value.set (value.length - 1) 1 }
  else { this with value := value.dropLast }

/-- The limb loop of `operator-=` (lines 220-230); `digit` is the `int64_t` of the source. -/
def sub_loop (is_abs_left_greater : Bool) (rhs : List Nat) :
    Nat → Nat → Bool → List Nat → List Nat
  | 0, _, _, value => value
  | k + 1, i, borrow, value =>
    let digit : Int := if is_abs_left_greater then (value.getD i 0 : Int) else (rhs.getD i 0 : Int)
    let digit : Int :=
      if i < rhs.length then
        digit - (if is_abs_left_greater then (rhs.getD i 0 : Int) else (value.getD i 0 : Int))
      else digit
    let digit : Int := if borrow then digit - 1 else digit
    sub_loop is_abs_left_greater rhs k (i + 1) (decide (digit < 0))
      (value.set i (digit % 4294967296).toNat)

/-- The equal-sign part of `operator-=` (lines 215-233). -/
def sub_same_sign (this rhs : big_integer) : big_integer :=
  let this :=
    if rhs.value.length > this.value.length then
      { this with value := resize this.value rhs.value.length 0 }
    else this
  let is_abs_left_greater := op_gt this rhs != this.is_negative
  let value := sub_loop is_abs_left_greater rhs.value this.value.length 0 false this.value
  skip_leading_zeros ⟨value, this.is_negative == is_abs_left_greater⟩

mutual
/-- The C++ `operator+=`; the first argument bounds the depth of the calls between `+=` and `-=`. -/
def op_add_assign_aux : Nat → big_integer → big_integer → big_integer
  | 0, this, _ => this
  | d + 1, this, rhs =>
    if this.is_negative != rhs.is_negative then
      let this := op_sub_assign_aux d { this with is_negative := !this.is_negative } rhs
      if op_ne this (of_int 0) then { this with is_negative := !this.is_negative } else this
    else add_same_sign this rhs
/-- The C++ `operator-=`; the first argument bounds the depth of the calls between `-=` and `+=`. -/
def op_sub_assign_aux : Nat → big_integer → big_integer → big_integer
  | 0, this, _ => this
  | d + 1, this, rhs =>
    if op_eq this rhs then op_assign this (of_int 0)
    else if this.is_negative != rhs.is_negative then
      let this := op_add_assign_aux d { this with is_negative := !this.is_negative } rhs
      if op_ne this (of_int 0) then { this with is_negative := !this.is_negative } else this
    else sub_same_sign this rhs
end

/-- The C++ `big_integer::operator+=`: a nested call always finds equal signs, so depth 2 is never
exhausted. -/
def op_add_assign (this rhs : big_integer) : big_integer := op_add_assign_aux 2 this rhs

/-- The C++ `big_integer::operator-=`. -/
def op_sub_assign (this rhs : big_integer) : big_integer := op_sub_assign_aux 2 this rhs

/-- The C++ `operator+(const big_integer&, const big_integer&)`. -/
def op_add (a b : big_integer) : big_integer := op_add_assign a b

/-- The C++ `operator-(const big_integer&, const big_integer&)`. -/
def op_sub (a b : big_integer) : big_integer := op_sub_assign a b

/-! ## Short primitives -/

/-- The borrow loop of `sub_to_short` (lines 182-189), from index `i`. -/
def sub_borrow_loop : Nat → Nat → List Nat → List Nat
  | 0, _, value => value
  | k + 1, i, value =>
    if value.getD i 0 = 0 then sub_borrow_loop k (i + 1) (value.set i UINT32_MAX)
    else value.set i ((value.getD i 0 - 1) % 4294967296)

/-- The C++ member `big_integer::sub_to_short`. -/
def sub_to_short (this : big_integer) (rhs : Nat) : big_integer :=
  if this.is_negative then
    let this := op_add_assign { this with is_negative := false } (of_uint32 rhs)
    if op_ne this (of_int 0) then { this with is_negative := true } else this
  else if this.value.isEmpty then ⟨resize this.value 1 rhs, true⟩
  else
    let first_digit : Int := (this.value.getD 0 0 : Int) - (rhs : Int)
    if first_digit < 0 then
      if this.value.length = 1 then
        ⟨this.value.set 0 (first_digit.natAbs % 4294967296), true⟩
      else
        let first_digit := first_digit + UINT32_MAX + 1
        let value := sub_borrow_loop (this.value.length - 1) 1 this.value
        let this := skip_leading_zeros { this with value := value }
        { this with value := this.value.set 0 (first_digit % 4294967296).toNat }
    else { this with value := this.value.set 0 (first_digit % 4294967296).toNat }

/-- The carry loop of `add_to_short` (lines 142-150), from index `i`; the result is the
buffer and whether the carry is still pending. -/
def add_carry_loop : Nat → Nat → List Nat → List Nat × Bool
  | 0, _, value => (value, true)
  | k + 1, i, value =>
    if value.getD i 0 = UINT32_MAX then add_carry_loop k (i + 1) (value.set i 0)
    else (value.set i ((value.getD i 0 + 1) % 4294967296), false)

/-- The C++ member `big_integer::add_to_short`. -/
def add_to_short (this : big_integer) (rhs : Nat) : big_integer :=
  if this.is_negative then
    let this := sub_to_short { this with is_negative := false } rhs
    if op_ne this (of_int 0) then { this with is_negative := true } else this
  else if this.value.isEmpty then { this with value := resize this.value 1 rhs }
  else
    let first_digit := (this.value.getD 0 0 + rhs) % 18446744073709551616
    if first_digit > UINT32_MAX then
      let first_digit := first_digit - UINT32_MAX - 1
      let (value, carry) := add_carry_loop (this.value.length - 1) 1 this.value
      let value := if carry then value ++ [1] else value
      { this with value := value.set 0 (first_digit % 4294967296) }
    else { this with value := this.value.set 0 (first_digit % 4294967296) }

/-- The limb loop of `mul_to_short` (lines 269-273): the limbs still to visit, with the
incoming carry; the result is the new limbs followed by the final carry if non-zero. -/
def mul_short_loop (rhs : Nat) : List Nat → Nat → List Nat
  | [], carry => if carry != 0 then [carry] else []
  | x :: xs, carry =>
    let cur := (x * rhs + carry) % 18446744073709551616
    (cur % 4294967296) :: mul_short_loop rhs xs ((cur / 4294967296) % 4294967296)

/-- The C++ member `big_integer::mul_to_short(uint32_t)`. -/
def mul_to_short (this : big_integer) (rhs : Nat) : big_integer :=
  if op_eq_int this 0 || rhs == 0 then op_assign this (of_int 0)
  else { this with value := mul_short_loop rhs this.value 0 }

/-- The limb loop shared by `div_to_short` and `mod_to_short`, on the limbs listed from the
most significant one: the quotient limbs (in the same order) and the final carry. -/
def div_short_loop (rhs : Nat) : List Nat → Nat → List Nat × Nat
  | [], carry => ([], carry)
  | x :: xs, carry =>
    let temp := (carry * 4294967296 + x) % 18446744073709551616
    let (q, r) := div_short_loop rhs xs ((temp % rhs) % 4294967296)
    (((temp / rhs) % 4294967296) :: q, r)

/-- The C++ member `big_integer::div_to_short` (`rhs` is non-zero in every call). -/
def div_to_short (this : big_integer) (rhs : Nat) : big_integer :=
  if op_eq_int this 0 then this
  else
    let this := skip_leading_zeros
      { this with value := (div_short_loop rhs this.value.reverse 0).1.reverse }
    if this.value.length = 1 ∧ this.value.getD 0 0 = 0 then { this with is_negative := false }
    else this

/-- The C++ member `big_integer::mod_to_short` (`rhs` is non-zero in every call). -/
def mod_to_short (this : big_integer) (rhs : Nat) : big_integer :=
  if op_eq_int this 0 then this
  else
    let carry := (div_short_loop rhs this.value.reverse 0).2
    if carry = 0 then ⟨[carry], false⟩ else ⟨[carry], this.is_negative⟩

/-! ## Long multiplication and shifts -/

/-- The inner loop of `operator*=` (lines 247-257), `for (j; j < right_size || carry > 0; ++j)`,
for the outer index `i` and the saved limb `cur_digit`. -/
def mul_inner_loop (i cur_digit : Nat) (rhs : List Nat) : Nat → Nat → Nat → List Nat → List Nat
  | 0, _, _, value => value
  | k + 1, j, carry, value =>
    if j < rhs.length ∨ carry > 0 then
      let cur := carry
      let cur :=
        if j < rhs.length then (cur + cur_digit * rhs.getD j 0 % 18446744073709551616)
          % 18446744073709551616
        else cur
      let cur := if j > 0 then (cur + value.getD (i + j - 1) 0) % 18446744073709551616 else cur
      mul_inner_loop i cur_digit rhs k (j + 1) ((cur / 4294967296) % 4294967296)
        (value.set (i + j - 1) (cur % 4294967296))
    else value

/-- The outer loop of `operator*=` (lines 244-258), `for (i = left_size; i > 0; --i)`.
The inner loop gets one round per limb of the buffer and one for its exit test. -/
def mul_outer_loop (rhs : List Nat) : Nat → List Nat → List Nat
  | 0, value => value
  | i + 1, value =>
    mul_outer_loop rhs i
      (mul_inner_loop (i + 1) (value.getD i 0) rhs (value.length + 1) 0 0 value)

/-- The C++ `big_integer::operator*=`. -/
def op_mul_assign (this rhs : big_integer) : big_integer :=
  if op_eq_int this 0 || op_eq_int rhs 0 then op_assign this (of_int 0)
  else
    let left_size := this.value.length
    let right_size := rhs.value.length
    let value := resize this.value (left_size + right_size + 1) 0
    let value := mul_outer_loop rhs.value left_size value
    skip_leading_zeros ⟨value, this.is_negative != rhs.is_negative⟩

/-- The C++ `operator*(const big_integer&, const big_integer&)`. -/
def op_mul (a b : big_integer) : big_integer := op_mul_assign a b

/-- The limb loop of `operator<<=` (lines 483-487): the limbs still to visit with the
incoming carry; the final carry is appended if positive. -/
def shl_loop (shift : Nat) : List Nat → Nat → List Nat
  | [], carry => if carry > 0 then [carry % 4294967296] else []
  | x :: xs, carry =>
    let temp := (x * 2 ^ shift + carry) % 18446744073709551616
    (temp % 4294967296) :: shl_loop shift xs (temp / 4294967296)

/-- The C++ `big_integer::operator<<=`, for a shift count `rhs ≥ 0`. -/
def op_shl_assign (this : big_integer) (rhs : Nat) : big_integer :=
  if rhs = 0 ∨ op_eq_int this 0 then this
  else
    let digits_shift := (rhs / 32) % 4294967296
    let shift := (rhs % 32) % 4294967296
    let value := if digits_shift > 0 then List.replicate digits_shift 0 ++ this.value
      else this.value
    if shift > 0 then
      { this with value := value.take digits_shift ++ shl_loop shift (value.drop digits_shift) 0 }
    else { this with value := value }

/-- The C++ `operator<<(const big_integer&, int)`. -/
def op_shl (a : big_integer) (b : Nat) : big_integer := op_shl_assign a b

/-- The limb loop of `operator>>=` (lines 509-513), on the limbs listed from the most
significant one, with the incoming carry. -/
def shr_loop (shift : Nat) : List Nat → Nat → List Nat
  | [], _ => []
  | x :: xs, carry =>
    let new_carry := (x * 2 ^ (32 - shift)) % 4294967296
    ((x / 2 ^ shift + carry) % 4294967296) :: shr_loop shift xs new_carry

/-- The C++ `big_integer::operator>>=`, for a shift count `rhs ≥ 0`. -/
def op_shr_assign (this : big_integer) (rhs : Nat) : big_integer :=
  if rhs = 0 ∨ op_eq_int this 0 then this
  else
    let digits_shift := (rhs / 32) % 4294967296
    let shift := (rhs % 32) % 4294967296
    if digits_shift > 0 ∧ digits_shift ≥ this.value.length then op_assign this (of_int 0)
    else
      let value := if digits_shift > 0 then this.value.drop digits_shift else this.value
      let value := if shift > 0 then (shr_loop shift value.reverse 0).reverse else value
      let this := skip_leading_zeros { this with value := value }
      if this.is_negative then sub_to_short this 1 else this

/-- The C++ `operator>>(const big_integer&, int)`. -/
def op_shr (a : big_integer) (b : Nat) : big_integer := op_shr_assign a b

/-! ## Unary operators -/

/-- The C++ `big_integer::operator-() const`. -/
def op_neg (this : big_integer) : big_integer :=
  if op_ne this (of_int 0) then { this with is_negative := !this.is_negative } else this

/-- The C++ `big_integer::operator~() const`. -/
def op_not (this : big_integer) : big_integer :=
  let result := add_to_short this 1
  if !(op_eq_int result 0) then { result with is_negative := !result.is_negative } else result

/-- The C++ `big_integer::operator++()`. -/
def op_inc (this : big_integer) : big_integer := add_to_short this 1

/-- The C++ `big_integer::operator--()`. -/
def op_dec (this : big_integer) : big_integer := sub_to_short this 1

/-! ## Division -/

/-- The static `big_integer::mul_to_short(const big_integer&, uint32_t)`. -/
def mul_to_short_copy (a : big_integer) (rhs : Nat) : big_integer := mul_to_short a rhs

/-- The main loop of `division` (lines 298-315), `for (i = result_size; i > 0; --i)`;
`m` is `b.value.size()`; the state is the remainder `r` and the quotient limbs. -/
def division_loop (d : big_integer) (m : Nat) : Nat → big_integer → List Nat →
    big_integer × List Nat
  | 0, r, result => (r, result)
  | i + 1, r, result =>
    let r3 : Nat := 0
    let r3 :=
      if (i + 1) + m - 1 < r.value.length then
        (r3 + (r.value.getD ((i + 1) + m - 1) 0 * 4294967296) % 18446744073709551616)
          % 18446744073709551616
      else r3
    let r3 :=
      if (i + 1) + m - 1 ≤ r.value.length then
        (r3 + r.value.getD ((i + 1) + m - 2) 0) % 18446744073709551616
      else r3
    let d2 := d.value.getD (m - 1) 0
    let trial := (min (r3 / d2) UINT32_MAX) % 4294967296
    let dq := op_shl (mul_to_short_copy d trial) (32 * ((i + 1) - 1))
    let trial := if op_lt r dq then (trial + 4294967295) % 4294967296 else trial
    let dq := if op_lt r dq then op_shl (mul_to_short_copy d trial) (32 * ((i + 1) - 1)) else dq
    division_loop d m i (op_sub_assign r dq) (result.set ((i + 1) - 1) trial)

/-- The C++ member `big_integer::division`; `none` when the denominator `b.value.back() + 1`, computed in
32-bit unsigned arithmetic, is zero. -/
def division (a b : big_integer) : Option (big_integer × big_integer) :=
  let den := (b.value.getLastD 0 + 1) % 4294967296
  if den = 0 then none
  else
    let f := (RADIX / den) % 4294967296
    let r := op_mul a (of_uint32 f)
    let d := op_mul b (of_uint32 f)
    let r := { r with is_negative := false }
    let d := { d with is_negative := false }
    let result_size := r.value.length - d.value.length
    let result := List.replicate (result_size + 1) 0
    let top := op_ge r (op_shl d (32 * result_size))
    let result := if top then result.set result_size 1 else result
    let r := if top then op_sub_assign r (op_shl d (32 * result_size)) else r
    let (r, result) := division_loop d b.value.length result_size r result
    let r := div_to_short r f
    let r := skip_leading_zeros { r with is_negative := a.is_negative }
    let result := skip_leading_zeros ⟨result, false⟩
    some ({ result with is_negative := a.is_negative != b.is_negative }, r)

/-- The C++ `big_integer::operator/=` (the divisor is non-zero). -/
def op_div_assign (this rhs : big_integer) : Option big_integer :=
  if rhs.value.length = 1 then
    let this := div_to_short this (rhs.value.getD 0 0)
    if op_ne this (of_int 0) && rhs.is_negative then
      some { this with is_negative := !this.is_negative }
    else some this
  else if this.value.length < rhs.value.length then some (op_assign this (of_int 0))
  else if op_eq_int this 0 then some (op_assign this (of_int 0))
  else (division this rhs).map (fun p => op_assign this p.1)

/-- The C++ `big_integer::operator%=` (the divisor is non-zero). -/
def op_mod_assign (this rhs : big_integer) : Option big_integer :=
  if rhs.value.length = 1 then some (mod_to_short this (rhs.value.getD 0 0))
  else if this.value.length < rhs.value.length then some this
  else if op_eq_int this 0 then some (op_assign this (of_int 0))
  else (division this rhs).map (fun p => op_assign this p.2)

/-- The C++ `operator/(const big_integer&, const big_integer&)`. -/
def op_div (a b : big_integer) : Option big_integer := op_div_assign a b

/-- The C++ `operator%(const big_integer&, const big_integer&)`. -/
def op_mod (a b : big_integer) : Option big_integer := op_mod_assign a b

/-! ## Bitwise operations -/

/-- The bitwise complement `~digit` of a 32-bit limb. -/
def limb_not (digit : Nat) : Nat := (UINT32_MAX - digit % 4294967296) % 4294967296

/-- Apply `g i value[i]` to every limb, `i` counting from `start`. -/
def map_limbs (g : Nat → Nat → Nat) : Nat → List Nat → List Nat
  | _, [] => []
  | start, x :: xs => g start x :: map_limbs g (start + 1) xs

/-- The scan `while (left_border < rhs.value.size() && rhs.value[left_border] == 0)`. -/
def left_border : List Nat → Nat
  | [] => 0
  | x :: xs => if x = 0 then left_border xs + 1 else 0

/-- The new `value[i]` written by lines 404-430 of `commutative_bitwise_operation`: the
old limb `x` combined with the limb of the right operand in two's complement. -/
def bitwise_limb (binary_function : Nat → Nat → Nat) (rhs : big_integer) (i x : Nat) : Nat :=
  if rhs.is_negative then
    if i < left_border rhs.value then binary_function x 0 % 4294967296
    else if i = left_border rhs.value then
      if left_border rhs.value < rhs.value.length then
        binary_function x (limb_not ((rhs.value.getD i 0 + 4294967295) % 4294967296))
          % 4294967296
      else x
    else if i < rhs.value.length then binary_function x (limb_not (rhs.value.getD i 0)) % 4294967296
    else binary_function x UINT32_MAX % 4294967296
  else if i < rhs.value.length then binary_function x (rhs.value.getD i 0) % 4294967296
  else binary_function x 0 % 4294967296

/-- The conversion of a sign flag to the `uint32_t` argument of `binary_function`. -/
def bool_to_uint (b : Bool) : Nat := if b then 1 else 0

/-- The C++ member `big_integer::commutative_bitwise_operation`; `binary_function` acts on 32-bit limbs. -/
def commutative_bitwise_operation (this rhs : big_integer)
    (binary_function : Nat → Nat → Nat) : big_integer :=
  let this :=
    if this.is_negative then
      let this := op_inc this
      { this with value := this.value.map limb_not }
    else this
  let this :=
    if rhs.value.length > this.value.length then
      let fill := if this.is_negative then UINT32_MAX else 0
      { this with value := resize this.value rhs.value.length fill }
    else this
  let value := map_limbs (bitwise_limb binary_function rhs) 0 this.value
  let is_negative :=
    decide (binary_function (bool_to_uint this.is_negative) (bool_to_uint rhs.is_negative)
      % 4294967296 ≠ 0)
  let this : big_integer := ⟨value, is_negative⟩
  let this :=
    if this.is_negative then op_dec { this with value := this.value.map limb_not } else this
  skip_leading_zeros this

/-- The C++ `big_integer::operator&=`. -/
def op_and_assign (this rhs : big_integer) : big_integer :=
  if op_eq_int rhs 0 || op_eq_int this 0 then op_assign this (of_int 0)
  else commutative_bitwise_operation this rhs (fun a b => a &&& b)

/-- The C++ `big_integer::operator|=`. -/
def op_or_assign (this rhs : big_integer) : big_integer :=
  if op_eq_int rhs 0 then this
  else if op_eq_int this 0 then op_assign this rhs
  else commutative_bitwise_operation this rhs (fun a b => a ||| b)

/-- The C++ `big_integer::operator^=`. -/
def op_xor_assign (this rhs : big_integer) : big_integer :=
  if op_eq_int rhs 0 then this
  else if op_eq_int this 0 then op_assign this rhs
  else commutative_bitwise_operation this rhs (fun a b => a ^^^ b)

/-- The C++ `operator&(const big_integer&, const big_integer&)`. -/
def op_and (a b : big_integer) : big_integer := op_and_assign a b

/-- The C++ `operator|(const big_integer&, const big_integer&)`. -/
def op_or (a b : big_integer) : big_integer := op_or_assign a b

/-- The C++ `operator^(const big_integer&, const big_integer&)`. -/
def op_xor (a b : big_integer) : big_integer := op_xor_assign a b

/-! ## Decimal conversion -/

/-- The three `throw std::invalid_argument(...)` sites of the string constructor. -/
inductive invalid_argument where
  | not_a_number
  | empty
  | only_sign
deriving DecidableEq, Repr

/-- The test `str[i] < '0' || str[i] > '9'`. -/
def not_digit (c : Char) : Bool := c.toNat < 48 || c.toNat > 57

/-- The digit loop of the string constructor (lines 55-64) over the characters still to
read; the state is `cur_digit`, `cur_radix` and the bignum built so far. -/
def parse_loop : List Char → Nat → Nat → big_integer → Nat × Nat × big_integer
  | [], cur_digit, cur_radix, this => (cur_digit, cur_radix, this)
  | c :: cs, cur_digit, cur_radix, this =>
    let cur_digit :=
      (((cur_digit * CHAR_RADIX % 4294967296 : Nat) : Int) + ((c.toNat : Int) - 48)) % 4294967296
    let cur_digit := cur_digit.toNat
    let cur_radix := cur_radix * CHAR_RADIX % 4294967296
    if cur_radix = STRING_RADIX then
      parse_loop cs 0 1 (add_to_short (mul_to_short this STRING_RADIX) cur_digit)
    else parse_loop cs cur_digit cur_radix this

/-- The C++ constructor `big_integer::big_integer(const std::string&)`; the string is its list of characters. -/
def of_string (str : List Char) : Except invalid_argument big_integer :=
  if (str.drop 1).any not_digit then Except.error invalid_argument.not_a_number
  else if str.isEmpty then Except.error invalid_argument.empty
  else
    let signed := decide (str.head? = some '+' ∨ str.head? = some '-')
    if signed ∧ str.length = 1 then Except.error invalid_argument.only_sign
    else
      let (cur_digit, cur_radix, this) :=
        parse_loop (str.drop (if signed then 1 else 0)) 0 1 ⟨[], false⟩
      let this :=
        if cur_radix ≠ 1 then add_to_short (mul_to_short this cur_radix) cur_digit else this
      if op_ne this (of_int 0) then
        Except.ok { this with is_negative := decide (str.head? = some '-') }
      else Except.ok this

/-- Whether a run of the string constructor ended in a `throw`. -/
def throws (r : Except invalid_argument big_integer) : Bool :=
  match r with
  | Except.error _ => true
  | Except.ok _ => false

/-- The characters of `std::to_string(n)` for a limb, already reversed (least significant
digit first). -/
def uint_digits_rev : Nat → Nat → List Char
  | 0, _ => []
  | fuel + 1, n =>
    Char.ofNat (48 + n % 10) :: (if n / 10 = 0 then [] else uint_digits_rev fuel (n / 10))

/-- The effect of `std::string::resize(n, fill)`. -/
def resize_chars (s : List Char) (n : Nat) (fill : Char) : List Char :=
  s.take n ++ List.replicate (n - s.length) fill

/-- The group loop of `to_string` (lines 665-671), `while (cur > 0)`. -/
def render_loop : Nat → big_integer → List Char → List Char
  | 0, _, result => result
  | fuel + 1, cur, result =>
    if op_gt cur (of_int 0) then
      let temp := uint_digits_rev 10 ((mod_to_short cur STRING_RADIX).value.getD 0 0)
      let temp := resize_chars temp 9 '0'
      render_loop fuel (div_to_short cur STRING_RADIX) (result ++ temp)
    else result

/-- The loop `while (result.size() > 1 && result.back() == '0')`, on the reversed string. -/
def pop_zero_chars_rev : List Char → List Char
  | [] => []
  | [c] => [c]
  | c :: d :: rest => if c = '0' then pop_zero_chars_rev (d :: rest) else c :: d :: rest

/-- The function `to_string(const big_integer&)`; each round of the group loop removes
more than one limb in two rounds, so `2 * size + 1` rounds are enough. -/
def to_string (a : big_integer) : List Char :=
  if op_eq_int a 0 then ['0']
  else
    let cur := { a with is_negative := false }
    let result := render_loop (2 * a.value.length + 1) cur []
    let result := (pop_zero_chars_rev result.reverse).reverse
    let result := if a.is_negative then result ++ ['-'] else result
    result.reverse

/-! ## The schoolbook product in a fresh buffer (spec §4.4)

The specification allows an implementation to "allocate a fresh destination": a zeroed
buffer of `|a| + |b| + 1` limbs into which, for the limbs of `a` in reverse, the row
`a.limb[i] * b` is accumulated at position `i` with carry.  These definitions follow that
description; they are compared with the in-place `operator*=` above. -/

/-- One row: accumulate `ai * b` plus the carry into the limbs `prod` of the buffer from the
position of `ai` upwards. -/
def spec_mul_row (ai : Nat) : List Nat → List Nat → Nat → List Nat
  | _, [], _ => []
  | [], p :: ps, carry =>
    ((p + carry) % 4294967296) :: spec_mul_row ai [] ps ((p + carry) / 4294967296)
  | bj :: bs, p :: ps, carry =>
    ((p + ai * bj + carry) % 4294967296)
      :: spec_mul_row ai bs ps ((p + ai * bj + carry) / 4294967296)

/-- The buffer after the rows of all limbs of `a`, the most significant limb first. -/
def spec_mul_limbs : List Nat → List Nat → List Nat
  | [], b => List.replicate (b.length + 1) 0
  | ai :: as, b => spec_mul_row ai b (0 :: spec_mul_limbs as b) 0

/-- Multiplication as the specification words it: zero if either operand is zero, else the
fresh-buffer schoolbook product with the XOR of the signs, leading zeros stripped. -/
def spec_mul (a b : big_integer) : big_integer :=
  if to_int a = 0 ∨ to_int b = 0 then ⟨[0], false⟩
  else skip_leading_zeros ⟨spec_mul_limbs a.value b.value, a.is_negative != b.is_negative⟩

/-- The specification's `parse`: the string constructor applied to the characters. -/
def parse (s : String) : Except invalid_argument big_integer := of_string s.toList

/-- The specification's `render`: `to_string` as a string. -/
def render (a : big_integer) : String := String.mk (to_string a)

/-- The base-10 value of a string of decimal digits, most significant digit first. -/
def decimal_value (ds : List Char) : Nat := ds.foldl (fun n c => 10 * n + (c.toNat - 48)) 0

/-- The C++ default constructor `big_integer::big_integer()`: no limbs, and the in-class
initialiser `is_negative = false`. -/
def of_default : big_integer := ⟨[], false⟩

/-! ## Long multiplication with checked accesses -/

/-- The inner loop of `operator*=` (lines 247-257) with its run-time hazards made explicit:
`cur` is the exact sum the 64-bit accumulator is asked to hold, and the result is `none` when
the index `i + j - 1` is outside the buffer, when `cur` does not fit in 64 bits, or when the
loop is still running after the given number of rounds. -/
def mul_inner_loop_checked (i cur_digit : Nat) (rhs : List Nat) :
    Nat → Nat → Nat → List Nat → Option (List Nat)
  | 0, j, carry, value => if j < rhs.length ∨ carry > 0 then none else some value
  | k + 1, j, carry, value =>
    if j < rhs.length ∨ carry > 0 then
      let cur := carry
      let cur := if j < rhs.length then cur + cur_digit * rhs.getD j 0 else cur
      let cur := if j > 0 then cur + value.getD (i + j - 1) 0 else cur
      if 1 ≤ i + j ∧ i + j - 1 < value.length ∧ cur < 18446744073709551616 then
        mul_inner_loop_checked i cur_digit rhs k (j + 1) ((cur / 4294967296) % 4294967296)
          (value.set (i + j - 1) (cur % 4294967296))
      else none
    else some value

/-- The outer loop of `operator*=` (lines 244-258) over the checked inner loop; the read of
`value[i - 1]` is checked as well. An inner loop that stays inside the buffer runs at most
`value.size()` rounds, so the round limit `value.size() + 1` never cuts a safe run short. -/
def mul_outer_loop_checked (rhs : List Nat) : Nat → List Nat → Option (List Nat)
  | 0, value => some value
  | i + 1, value =>
    if i < value.length then
      match mul_inner_loop_checked (i + 1) (value.getD i 0) rhs (value.length + 1) 0 0 value with
      | some value => mul_outer_loop_checked rhs i value
      | none => none
    else none

/-- The C++ `big_integer::operator*=` over the checked loops: `none` when a run would leave
the buffer, overflow an accumulator or fail to finish. -/
def op_mul_assign_checked (this rhs : big_integer) : Option big_integer :=
  if op_eq_int this 0 || op_eq_int rhs 0 then some (op_assign this (of_int 0))
  else
    let left_size := this.value.length
    let right_size := rhs.value.length
    let value := resize this.value (left_size + right_size + 1) 0
    match mul_outer_loop_checked rhs.value left_size value with
    | some value => some (skip_leading_zeros ⟨value, this.is_negative != rhs.is_negative⟩)
    | none => none

/-! # Theorems

## Values of limb sequences -/

theorem lv_nil : limbs_value [] = 0 := rfl

theorem lv_cons (x : Nat) (xs : List Nat) :
    limbs_value (x :: xs) = x + 4294967296 * limbs_value xs := rfl

theorem lv_append (l1 l2 : List Nat) :
    limbs_value (l1 ++ l2) = limbs_value l1 + 4294967296 ^ l1.length * limbs_value l2 := by
  induction l1 with
  | nil => simp [limbs_value]
  | cons x xs ih =>
    rw [List.cons_append, lv_cons, lv_cons, ih, List.length_cons, pow_succ]; ring

theorem lv_replicate_zero (n : Nat) : limbs_value (List.replicate n 0) = 0 := by
  induction n with
  | zero => rfl
  | succ n ih => simp [List.replicate_succ, limbs_value, ih]

theorem lv_lt (l : List Nat) (h : ∀ x ∈ l, x < 4294967296) :
    limbs_value l < 4294967296 ^ l.length := by
  induction l with
  | nil => simp [limbs_value]
  | cons x xs ih =>
    have hx := h x (List.mem_cons_self _ _)
    have := ih (fun y hy => h y (List.mem_cons_of_mem _ hy))
    simp only [limbs_value, List.length_cons, pow_succ]
    nlinarith

theorem lv_set (l : List Nat) (i x : Nat) (h : i < l.length) :
    limbs_value (l.set i x) + l.getD i 0 * 4294967296 ^ i = limbs_value l + x * 4294967296 ^ i := by
  induction l generalizing i with
  | nil => simp at h
  | cons y ys ih =>
    cases i with
    | zero => simp only [List.set_cons_zero, limbs_value, List.getD_cons_zero, pow_zero]; ring
    | succ i =>
      have := ih i (by simpa using h)
      simp only [List.set_cons_succ, limbs_value, List.getD_cons_succ, pow_succ]
      nlinarith

theorem lv_take_succ (l : List Nat) (i : Nat) :
    limbs_value (l.take (i + 1)) = limbs_value (l.take i) + l.getD i 0 * 4294967296 ^ i := by
  induction l generalizing i with
  | nil => simp [limbs_value]
  | cons y ys ih =>
    cases i with
    | zero => simp [limbs_value]
    | succ i =>
      simp only [List.take_succ_cons, limbs_value, List.getD_cons_succ, ih i, pow_succ]
      ring

/-! ## Normalisation -/

theorem skip_rev_value (l : List Nat) :
    limbs_value (skip_leading_zeros_rev l).reverse = limbs_value l.reverse := by
  induction l using skip_leading_zeros_rev.induct with
  | case1 => rfl
  | case2 x => rfl
  | case3 y rest ih =>
    rw [skip_leading_zeros_rev, if_pos rfl, ih]
    rw [List.reverse_cons (a := 0), lv_append]
    simp [limbs_value]
  | case4 x y rest hx =>
    rw [skip_leading_zeros_rev, if_neg hx]

theorem skip_rev_mem (l : List Nat) : ∀ z ∈ skip_leading_zeros_rev l, z ∈ l := by
  induction l using skip_leading_zeros_rev.induct with
  | case1 => intro z hz; exact hz
  | case2 x => intro z hz; exact hz
  | case3 y rest ih =>
    intro z hz
    rw [skip_leading_zeros_rev, if_pos rfl] at hz
    exact List.mem_cons_of_mem _ (ih z hz)
  | case4 x y rest hx =>
    intro z hz
    rw [skip_leading_zeros_rev, if_neg hx] at hz
    exact hz

theorem skip_rev_shape (l : List Nat) :
    skip_leading_zeros_rev l = [] ∨ skip_leading_zeros_rev l = [0] ∨
      (skip_leading_zeros_rev l).head? ≠ some 0 := by
  induction l using skip_leading_zeros_rev.induct with
  | case1 => left; rfl
  | case2 x =>
    by_cases hx : x = 0
    · right; left; rw [hx]; rfl
    · right; right; simpa [skip_leading_zeros_rev] using hx
  | case3 y rest ih => rw [skip_leading_zeros_rev, if_pos rfl]; exact ih
  | case4 x y rest hx =>
    rw [skip_leading_zeros_rev, if_neg hx]
    right; right; simpa using hx

theorem skip_rev_length (l : List Nat) :
    (skip_leading_zeros_rev l).length ≤ l.length ∧
      (l ≠ [] → skip_leading_zeros_rev l ≠ []) := by
  induction l using skip_leading_zeros_rev.induct with
  | case1 => simp [skip_leading_zeros_rev]
  | case2 x => simp [skip_leading_zeros_rev]
  | case3 y rest ih =>
    rw [skip_leading_zeros_rev, if_pos rfl]
    exact ⟨Nat.le_succ_of_le ih.1, fun _ => ih.2 (by simp)⟩
  | case4 x y rest hx =>
    rw [skip_leading_zeros_rev, if_neg hx]
    simp

theorem skip_value (a : big_integer) :
    limbs_value (skip_leading_zeros a).value = limbs_value a.value := by
  simp only [skip_leading_zeros]
  rw [skip_rev_value, List.reverse_reverse]

theorem skip_sign (a : big_integer) : (skip_leading_zeros a).is_negative = a.is_negative := rfl

theorem skip_to_int (a : big_integer) : to_int (skip_leading_zeros a) = to_int a := by
  simp only [to_int, skip_value, skip_sign]

theorem skip_bounded (a : big_integer) (h : limbs_bounded a.value) :
    limbs_bounded (skip_leading_zeros a).value := by
  intro z hz
  simp only [skip_leading_zeros, List.mem_reverse] at hz
  exact h z (by simpa using skip_rev_mem _ z hz)

theorem skip_normalized (a : big_integer) : normalized (skip_leading_zeros a).value := by
  simp only [skip_leading_zeros, normalized]
  rcases skip_rev_shape a.value.reverse with h | h | h
  · left; rw [h]; rfl
  · right; left; rw [h]; rfl
  · right; right; rw [List.getLast?_reverse]; exact h

theorem skip_nonempty (a : big_integer) (h : a.value ≠ []) :
    (skip_leading_zeros a).value ≠ [] := by
  simp only [skip_leading_zeros]
  intro hc
  have := (skip_rev_length a.value.reverse).2 (by simpa using h)
  exact this (by simpa using hc)

theorem skip_of_normalized (a : big_integer) (h : normalized a.value) :
    skip_leading_zeros a = a := by
  have key : ∀ l : List Nat, (l = [] ∨ l = [0] ∨ l.head? ≠ some 0) →
      skip_leading_zeros_rev l = l := by
    intro l hl
    match l, hl with
    | [], _ => rfl
    | [x], _ => rfl
    | x :: y :: rest, hl =>
      rcases hl with hl | hl | hl
      · simp at hl
      · simp at hl
      · rw [skip_leading_zeros_rev, if_neg (by simpa using hl)]
  cases a with
  | mk v n =>
    simp only [skip_leading_zeros]
    congr
    rw [key, List.reverse_reverse]
    rcases h with h | h | h
    · left; simpa using h
    · right; left; simp only at h; rw [h]; rfl
    · right; right; rw [List.head?_reverse]; exact h

/-! ## Zero tests and assignment -/

theorem of_int_zero : of_int 0 = ⟨[0], false⟩ := by decide

theorem op_eq_int_zero_iff (a : big_integer) :
    op_eq_int a 0 = true ↔ a.value = [] ∨ (a.value = [0] ∧ a.is_negative = false) := by
  cases a with
  | mk v n =>
    match v with
    | [] => simp [op_eq_int]
    | [x] =>
      cases n <;> simp [op_eq_int]
      omega
    | x :: y :: rest => simp [op_eq_int]

theorem op_eq_int_zero_value (a : big_integer) (h : op_eq_int a 0 = true) :
    limbs_value a.value = 0 := by
  cases a with
  | mk v n =>
    match v with
    | [] => rfl
    | [x] =>
      simp [op_eq_int] at h
      simp [limbs_value, ← h.2]
    | x :: y :: rest => simp [op_eq_int] at h

theorem op_eq_int_zero_to_int (a : big_integer) (h : op_eq_int a 0 = true) : to_int a = 0 := by
  simp [to_int, op_eq_int_zero_value a h]

theorem op_eq_zero (a : big_integer) : op_eq a (of_int 0) = op_eq_int a 0 := by
  rw [of_int_zero]
  cases a with
  | mk v n =>
    match v with
    | [] => simp [op_eq, op_eq_int]
    | [x] =>
      have hx0 : (0 = x) ↔ (x = 0) := eq_comm
      cases n <;> by_cases hx : x = 0 <;> simp [op_eq, op_eq_int, limbs_all_equal, hx, hx0]
    | x :: y :: rest => simp [op_eq, op_eq_int]

theorem op_ne_zero (a : big_integer) : op_ne a (of_int 0) = !(op_eq_int a 0) := by
  rw [op_ne, op_eq_zero]

theorem op_assign_zero (a : big_integer) :
    op_assign a (of_int 0) = if op_eq_int a 0 then a else ⟨[0], false⟩ := by
  rw [op_assign, op_ne_zero, of_int_zero]
  cases op_eq_int a 0 <;> simp

theorem op_assign_zero_to_int (a : big_integer) : to_int (op_assign a (of_int 0)) = 0 := by
  rw [op_assign_zero]
  by_cases h : op_eq_int a 0 = true
  · rw [if_pos h]; exact op_eq_int_zero_to_int a h
  · rw [if_neg h]; rfl

theorem value_zero_of_normalized (v : List Nat) (hn : normalized v) (h0 : limbs_value v = 0) :
    v = [] ∨ v = [0] := by
  rcases hn with h | h | h
  · left; exact h
  · right; exact h
  · by_cases hv : v = []
    · left; exact hv
    · exfalso
      apply h
      clear h
      induction v with
      | nil => exact absurd rfl hv
      | cons x xs ih =>
        rw [lv_cons] at h0
        have hx : x = 0 := by omega
        have hxs : limbs_value xs = 0 := by omega
        match xs, ih, hxs with
        | [], _, _ => simp [hx]
        | y :: ys, ih, hxs =>
          rw [List.getLast?_cons_cons]
          exact ih hxs (by simp)

theorem op_eq_int_zero_of_wf (a : big_integer) (h : well_formed a) :
    op_eq_int a 0 = true ↔ to_int a = 0 := by
  constructor
  · exact op_eq_int_zero_to_int a
  · intro h0
    have hv : limbs_value a.value = 0 := by
      simp only [to_int] at h0
      split at h0 <;> omega
    rw [op_eq_int_zero_iff a]
    rcases value_zero_of_normalized a.value h.2.1 hv with h1 | h1
    · left; exact h1
    · right; exact ⟨h1, h.2.2 hv⟩

theorem to_int_flip (a : big_integer) :
    to_int { a with is_negative := !a.is_negative } = -to_int a := by
  cases a with
  | mk v n => cases n <;> simp [to_int]

/-- After a call whose result `t` is sign-flipped unless `t != 0` fails, the value is negated. -/
theorem to_int_flip_unless_zero (t : big_integer) :
    to_int (if op_ne t (of_int 0) then { t with is_negative := !t.is_negative } else t)
      = -to_int t := by
  rw [op_ne_zero]
  by_cases h : op_eq_int t 0 = true
  · simp [h, op_eq_int_zero_to_int t h]
  · simp [h, to_int_flip]

/-! ## Long addition -/

theorem getD_lt (v : List Nat) (h : limbs_bounded v) (i : Nat) : v.getD i 0 < 4294967296 := by
  by_cases hi : i < v.length
  · rw [List.getD_eq_getElem v 0 hi]
    exact h _ (List.getElem_mem hi)
  · rw [List.getD_eq_default v 0 (by omega)]
    decide

theorem set_bounded (v : List Nat) (h : limbs_bounded v) (i x : Nat) (hx : x < 4294967296) :
    limbs_bounded (v.set i x) := by
  intro z hz
  rcases List.mem_or_eq_of_mem_set hz with h1 | h1
  · exact h z h1
  · rw [h1]; exact hx

theorem getD_set_ne (v : List Nat) (i j x : Nat) (h : i ≠ j) :
    (v.set i x).getD j 0 = v.getD j 0 := by
  simp only [List.getD_eq_getElem?_getD, List.getElem?_set_ne h]

theorem getD_set_self (v : List Nat) (i x : Nat) (h : i < v.length) :
    (v.set i x).getD i 0 = x := by
  simp only [List.getD_eq_getElem?_getD, List.getElem?_set_self h, Option.getD_some]

theorem lv_take_all (v : List Nat) (n : Nat) (h : v.length ≤ n) :
    limbs_value (v.take n) = limbs_value v := by
  rw [List.take_of_length_le h]

theorem add_loop_spec (ls : Nat) (rhs : List Nat) (hr : limbs_bounded rhs) :
    ∀ (k i : Nat) (carry : Bool) (value : List Nat),
      i + k ≤ value.length → limbs_bounded value →
      (∀ j, i ≤ j → ls ≤ j → value.getD j 0 = 0) →
      (add_loop ls rhs k i carry value).1.length = value.length ∧
      limbs_bounded (add_loop ls rhs k i carry value).1 ∧
      (∀ j, i + k ≤ j →
        (add_loop ls rhs k i carry value).1.getD j 0 = value.getD j 0) ∧
      limbs_value (add_loop ls rhs k i carry value).1
          + (if (add_loop ls rhs k i carry value).2 then 1 else 0) * 4294967296 ^ (i + k)
          + limbs_value (rhs.take i)
        = limbs_value value + (if carry then 1 else 0) * 4294967296 ^ i
          + limbs_value (rhs.take (i + k)) := by
  intro k
  induction k with
  | zero =>
    intro i carry value _ hb _
    refine ⟨rfl, hb, fun _ _ => rfl, ?_⟩
    simp only [add_loop, Nat.add_zero]
  | succ k ih =>
    intro i carry value hlen hb hz
    have hv := getD_lt value hb i
    have hri := getD_lt rhs hr i
    have hmask : (if i < ls then value.getD i 0 else 0) = value.getD i 0 := by
      split
      · rfl
      · exact (hz i (le_refl _) (by omega)).symm
    have hmask2 : (if i < rhs.length then rhs.getD i 0 else 0) = rhs.getD i 0 := by
      split
      · rfl
      · exact (List.getD_eq_default rhs 0 (by omega)).symm
    obtain ⟨c, hc, hc1⟩ : ∃ c : Nat, c = (if carry then 1 else 0) ∧ c ≤ 1 := by
      cases carry <;> simp
    simp only [add_loop, hmask, hmask2, UINT32_MAX, ← hc]
    generalize hs : c + value.getD i 0 + rhs.getD i 0 = s
    have hs64 : s % 18446744073709551616 = s := by omega
    rw [hs64]
    generalize hd : (if decide (s > 4294967295) = true then s - 4294967295 - 1 else s)
      % 4294967296 = d
    have hdlt : d < 4294967296 := by omega
    have hstep : d + (if decide (s > 4294967295) = true then 1 else 0) * 4294967296 = s := by
      by_cases h : s > 4294967295
      · have ht : decide (s > 4294967295) = true := decide_eq_true h
        rw [ht] at hd ⊢
        rw [if_pos rfl] at hd ⊢
        omega
      · have hf : decide (s > 4294967295) = false := decide_eq_false h
        rw [hf] at hd ⊢
        rw [if_neg (by decide)] at hd ⊢
        omega
    generalize hc2 : decide (s > 4294967295) = carry2 at hstep
    have hi : i < value.length := by omega
    obtain ⟨h1, h2, h3, h4⟩ := ih (i + 1) carry2 (value.set i d)
      (by rw [List.length_set]; omega) (set_bounded value hb i d hdlt)
      (fun j hj hjl => by rw [getD_set_ne value i j d (by omega)]; exact hz j (by omega) hjl)
    refine ⟨by rw [h1, List.length_set], h2, ?_, ?_⟩
    · intro j hj
      rw [h3 j (by omega), getD_set_ne value i j d (by omega)]
    · have e1 := lv_set value i d hi
      have e2 := lv_take_succ rhs i
      have e3 : i + 1 + k = i + (k + 1) := by omega
      rw [e3] at h4
      have e4 : d * 4294967296 ^ i + (if carry2 = true then 1 else 0) * 4294967296 ^ (i + 1)
          = (c + value.getD i 0 + rhs.getD i 0) * 4294967296 ^ i := by
        rw [hs, ← hstep, pow_succ]; ring
      linarith

theorem resize_length (v : List Nat) (n fill : Nat) : (resize v n fill).length = n := by
  simp only [resize, List.length_append, List.length_take, List.length_replicate]
  omega

theorem resize_value (v : List Nat) (n : Nat) (h : v.length ≤ n) :
    limbs_value (resize v n 0) = limbs_value v := by
  rw [resize, List.take_of_length_le h, lv_append, lv_replicate_zero]
  simp

theorem resize_bounded (v : List Nat) (n fill : Nat) (h : limbs_bounded v)
    (hf : fill < 4294967296) : limbs_bounded (resize v n fill) := by
  intro z hz
  simp only [resize, List.mem_append, List.mem_replicate] at hz
  rcases hz with h1 | h1
  · exact h z (List.mem_of_mem_take h1)
  · rw [h1.2]; exact hf

theorem resize_getD_zero (v : List Nat) (n j : Nat) (hj : v.length ≤ j) :
    (resize v n 0).getD j 0 = 0 := by
  by_cases hjn : j < (resize v n 0).length
  · rw [List.getD_eq_getElem _ 0 hjn]
    simp only [resize]
    rw [List.getElem_append_right (by simp; omega)]
    simp
  · exact List.getD_eq_default _ 0 (by omega)

theorem lv_dropLast (v : List Nat) (h : v.getD (v.length - 1) 0 = 0) :
    limbs_value v.dropLast = limbs_value v := by
  induction v with
  | nil => rfl
  | cons x xs ih =>
    match xs, ih with
    | [], _ =>
      simp only [List.length_singleton, Nat.sub_self, List.getD_cons_zero] at h
      simp [limbs_value, h]
    | y :: ys, ih =>
      rw [List.dropLast_cons₂, lv_cons, lv_cons, ih]
      simpa using h

theorem add_same_sign_spec (this rhs : big_integer) (h1 : limbs_bounded this.value)
    (h2 : limbs_bounded rhs.value) :
    limbs_value (add_same_sign this rhs).value = limbs_value this.value + limbs_value rhs.value ∧
    (add_same_sign this rhs).is_negative = this.is_negative ∧
    limbs_bounded (add_same_sign this rhs).value := by
  simp only [add_same_sign]
  generalize hn : max this.value.length rhs.value.length = n
  have hlen := resize_length this.value (n + 1) 0
  obtain ⟨e1, e2, e3, e4⟩ := add_loop_spec this.value.length rhs.value h2 n 0 false
    (resize this.value (n + 1) 0) (by omega) (resize_bounded _ _ _ h1 (by decide))
    (fun j _ hj => resize_getD_zero _ _ _ hj)
  rw [hlen, Nat.add_sub_cancel]
  generalize add_loop this.value.length rhs.value n 0 false (resize this.value (n + 1) 0) = res
    at e1 e2 e3 e4
  obtain ⟨v, c⟩ := res
  simp only at e1 e2 e3 e4 ⊢
  have hlast : v.getD n 0 = 0 := by
    rw [e3 n (by omega)]; exact resize_getD_zero _ _ _ (by omega)
  rw [resize_value _ _ (by omega), lv_take_all rhs.value (0 + n) (by omega)] at e4
  simp only [List.take_zero, lv_nil, pow_zero, Bool.false_eq_true, if_false, zero_mul,
    Nat.add_zero, Nat.zero_add] at e4
  rw [e1, hlen, Nat.add_sub_cancel]
  cases c with
  | true =>
    simp only [if_true]
    refine ⟨?_, trivial, set_bounded v e2 n 1 (by decide)⟩
    have := lv_set v n 1 (by omega)
    rw [hlast] at this
    simp only [if_true, one_mul] at e4
    omega
  | false =>
    simp only [Bool.false_eq_true, if_false]
    refine ⟨?_, trivial, fun z hz => e2 z (List.mem_of_mem_dropLast hz)⟩
    rw [lv_dropLast v (by rw [e1, hlen, Nat.add_sub_cancel]; exact hlast)]
    simp only [Bool.false_eq_true, if_false, zero_mul, Nat.add_zero] at e4
    exact e4

/-! ## Ordering of magnitudes -/

theorem lt_loop_spec (neg : Bool) : ∀ (xs ys : List Nat), xs.length = ys.length →
    limbs_bounded xs → limbs_bounded ys →
    lt_loop neg xs ys =
      if limbs_value xs.reverse = limbs_value ys.reverse then false
      else (decide (limbs_value xs.reverse < limbs_value ys.reverse) != neg) := by
  intro xs
  induction xs with
  | nil =>
    intro ys hl _ _
    cases ys with
    | nil => simp [lt_loop]
    | cons y ys => simp at hl
  | cons x xs ih =>
    intro ys hl hx hy
    cases ys with
    | nil => simp at hl
    | cons y ys =>
      have hl2 : xs.length = ys.length := by simpa using hl
      have hxs : limbs_bounded xs := fun z hz => hx z (List.mem_cons_of_mem _ hz)
      have hys : limbs_bounded ys := fun z hz => hy z (List.mem_cons_of_mem _ hz)
      have b1 := lv_lt xs.reverse (fun z hz => hxs z (by simpa using hz))
      have b2 := lv_lt ys.reverse (fun z hz => hys z (by simpa using hz))
      rw [List.length_reverse] at b1 b2
      rw [← hl2] at b2
      simp only [lt_loop, List.reverse_cons, lv_append, lv_cons, lv_nil, List.length_reverse,
        Nat.mul_zero, Nat.add_zero]
      rw [← hl2]
      generalize 4294967296 ^ xs.length = P at b1 b2 ⊢
      generalize limbs_value xs.reverse = a at b1 ih ⊢
      by_cases hxy : x = y
      · subst hxy
        have hne : (x != x) = false := by simp
        rw [hne, ih ys hl2 hxs hys]
        simp only [Bool.false_eq_true, if_false, Nat.add_right_cancel_iff, Nat.add_lt_add_iff_right]
      · have hne : (x != y) = true := by simpa using hxy
        rw [hne, if_pos rfl]
        generalize limbs_value ys.reverse = b at b2 ⊢
        rcases Nat.lt_or_gt_of_ne hxy with hlt | hgt
        · have h1 : P * x + P ≤ P * y := by
            have : P * (x + 1) ≤ P * y := Nat.mul_le_mul_left P hlt
            linarith
          have h2 : a + P * x < b + P * y := by omega
          rw [if_neg (by omega)]
          simp [hlt, h2]
        · have h1 : P * y + P ≤ P * x := by
            have : P * (y + 1) ≤ P * x := Nat.mul_le_mul_left P hgt
            linarith
          have h2 : ¬ (a + P * x < b + P * y) := by omega
          have h3 : ¬ (x < y) := by omega
          rw [if_neg (by omega)]
          simp [h2, h3]

theorem lv_ge_of_last (v : List Nat) (hne : v ≠ []) (h : v.getLast? ≠ some 0) :
    4294967296 ^ (v.length - 1) ≤ limbs_value v := by
  induction v with
  | nil => exact absurd rfl hne
  | cons x xs ih =>
    match xs, ih with
    | [], _ =>
      simp only [List.getLast?_singleton, ne_eq, Option.some.injEq] at h
      simp only [List.length_singleton, Nat.sub_self, pow_zero, lv_cons, lv_nil]
      omega
    | y :: ys, ih =>
      rw [List.getLast?_cons_cons] at h
      have := ih (by simp) h
      simp only [List.length_cons, Nat.add_sub_cancel] at this ⊢
      rw [lv_cons, pow_succ]
      omega

theorem lv_le_of_shorter (v w : List Nat) (hn : normalized v) (hw : limbs_bounded w)
    (hl : w.length < v.length) : limbs_value w ≤ limbs_value v := by
  have hwlt := lv_lt w hw
  rcases hn with h | h | h
  · rw [h] at hl; simp at hl
  · rw [h] at hl
    have : w = [] := List.eq_nil_of_length_eq_zero (by simpa using hl)
    rw [this, h]; decide
  · have hne : v ≠ [] := by intro hc; rw [hc] at hl; simp at hl
    have h1 := lv_ge_of_last v hne h
    have h2 : 4294967296 ^ w.length ≤ 4294967296 ^ (v.length - 1) :=
      Nat.pow_le_pow_right (by decide) (by omega)
    omega

/-! ## Long subtraction -/

theorem take_set_self (v : List Nat) (i x : Nat) : (v.set i x).take i = v.take i := by
  induction v generalizing i with
  | nil => rfl
  | cons y ys ih =>
    cases i with
    | zero => rfl
    | succ i => simp only [List.set_cons_succ, List.take_succ_cons, ih]

theorem lv_take_set_succ (v : List Nat) (i x : Nat) (h : i < v.length) :
    limbs_value ((v.set i x).take (i + 1)) = limbs_value (v.take i) + x * 4294967296 ^ i := by
  rw [lv_take_succ, getD_set_self v i x h, take_set_self]

theorem sub_loop_spec (alg : Bool) (rhs orig : List Nat) (hr : limbs_bounded rhs)
    (ho : limbs_bounded orig) (hlen : alg = false → orig.length ≤ rhs.length) :
    ∀ (k i : Nat) (borrow : Bool) (value : List Nat),
      i + k ≤ value.length → value.length = orig.length →
      (∀ j, i ≤ j → value.getD j 0 = orig.getD j 0) → limbs_bounded value →
      (sub_loop alg rhs k i borrow value).length = value.length ∧
      limbs_bounded (sub_loop alg rhs k i borrow value) ∧
      ∃ bo_end : Nat, bo_end ≤ 1 ∧
        limbs_value ((sub_loop alg rhs k i borrow value).take (i + k))
            + limbs_value ((if alg then rhs else orig).take (i + k))
            + limbs_value ((if alg then orig else rhs).take i)
            + (if borrow then 1 else 0) * 4294967296 ^ i
          = limbs_value (value.take i)
            + limbs_value ((if alg then rhs else orig).take i)
            + limbs_value ((if alg then orig else rhs).take (i + k))
            + bo_end * 4294967296 ^ (i + k) := by
  intro k
  induction k with
  | zero =>
    intro i borrow value _ _ _ hb
    refine ⟨rfl, hb, (if borrow then 1 else 0), by split <;> omega, ?_⟩
    simp only [sub_loop, Nat.add_zero]
  | succ k ih =>
    intro i borrow value hik hvl hsuf hb
    have hi : i < value.length := by omega
    have hvi : value.getD i 0 = orig.getD i 0 := hsuf i (le_refl _)
    have hoi := getD_lt orig ho i
    have hri := getD_lt rhs hr i
    obtain ⟨c, hc, hc1⟩ : ∃ c : Nat, c = (if borrow then 1 else 0) ∧ c ≤ 1 := by
      cases borrow <;> simp
    -- the limbs of the minuend and of the subtrahend at index `i`
    obtain ⟨big, hbig⟩ : ∃ big : Nat, big = (if alg then orig else rhs).getD i 0 := ⟨_, rfl⟩
    obtain ⟨small, hsmall⟩ : ∃ small : Nat, small = (if alg then rhs else orig).getD i 0 :=
      ⟨_, rfl⟩
    have hbiglt : big < 4294967296 := by
      rw [hbig]; cases alg
      · exact hri
      · exact hoi
    have hsmalllt : small < 4294967296 := by
      rw [hsmall]; cases alg
      · exact hoi
      · exact hri
    have hdigit : (if borrow then
          (if i < rhs.length then
            (if alg then (value.getD i 0 : Int) else (rhs.getD i 0 : Int))
              - (if alg then (rhs.getD i 0 : Int) else (value.getD i 0 : Int))
           else (if alg then (value.getD i 0 : Int) else (rhs.getD i 0 : Int))) - 1
        else
          (if i < rhs.length then
            (if alg then (value.getD i 0 : Int) else (rhs.getD i 0 : Int))
              - (if alg then (rhs.getD i 0 : Int) else (value.getD i 0 : Int))
           else (if alg then (value.getD i 0 : Int) else (rhs.getD i 0 : Int))))
        = (big : Int) - (small : Int) - (c : Int) := by
      have hin : alg = false → i < rhs.length := fun h => by have := hlen h; omega
      have hout : ¬ i < rhs.length → rhs.getD i 0 = 0 := fun h =>
        List.getD_eq_default rhs 0 (by omega)
      rw [hvi, hbig, hsmall, hc]
      cases alg with
      | true =>
        by_cases hir : i < rhs.length
        · cases borrow <;> simp [hir]
        · have h0 := hout hir
          simp only [List.getD_eq_getElem?_getD] at h0
          cases borrow <;> simp [hir, h0]
      | false =>
        have := hin rfl
        cases borrow <;> simp [this]
    simp only [sub_loop]
    rw [hdigit]
    generalize hd : (big : Int) - (small : Int) - (c : Int) = digit
    obtain ⟨limb, hlimb⟩ : ∃ limb : Nat, limb = (digit % 4294967296).toNat := ⟨_, rfl⟩
    rw [← hlimb]
    have hlimblt : limb < 4294967296 := by omega
    obtain ⟨c2, hc2, hc21⟩ : ∃ c2 : Nat, c2 = (if decide (digit < 0) then 1 else 0) ∧ c2 ≤ 1 := by
      by_cases h : digit < 0 <;> simp [h]
    have hstep : big + c2 * 4294967296 = small + c + limb := by
      by_cases h : digit < 0
      · simp only [h, decide_True, if_true] at hc2; omega
      · simp only [h, decide_False, Bool.false_eq_true, if_false] at hc2; omega
    obtain ⟨h1, h2, bo_end, h3, h4⟩ := ih (i + 1) (decide (digit < 0)) (value.set i limb)
      (by rw [List.length_set]; omega) (by rw [List.length_set]; exact hvl)
      (fun j hj => by rw [getD_set_ne value i j limb (by omega)]; exact hsuf j (by omega))
      (set_bounded value hb i limb hlimblt)
    refine ⟨by rw [h1, List.length_set], h2, bo_end, h3, ?_⟩
    rw [← hc2, lv_take_set_succ value i limb hi, lv_take_succ (if alg then rhs else orig) i,
      lv_take_succ (if alg then orig else rhs) i, ← hbig, ← hsmall] at h4
    have e3 : i + 1 + k = i + (k + 1) := by omega
    rw [e3] at h4
    rw [← hc]
    have e4 : big * 4294967296 ^ i + c2 * 4294967296 ^ (i + 1)
        = (small + c + limb) * 4294967296 ^ i := by
      rw [← hstep, pow_succ]; ring
    linarith

theorem abs_left_greater_spec (t rhs : big_integer) (hs : t.is_negative = rhs.is_negative)
    (hb1 : limbs_bounded t.value) (hb2 : limbs_bounded rhs.value)
    (hlen : rhs.value.length ≤ t.value.length)
    (hn : rhs.value.length < t.value.length → normalized t.value) :
    ((op_gt t rhs != t.is_negative) = true → limbs_value rhs.value ≤ limbs_value t.value) ∧
    ((op_gt t rhs != t.is_negative) = false →
      limbs_value t.value ≤ limbs_value rhs.value ∧ t.value.length ≤ rhs.value.length) := by
  simp only [op_gt, op_lt, hs, bne_self_eq_false, Bool.false_eq_true, if_false]
  by_cases hl : rhs.value.length = t.value.length
  · have hl' : (rhs.value.length != t.value.length) = false := by simp [hl]
    rw [hl', if_neg (by decide)]
    rw [lt_loop_spec rhs.is_negative rhs.value.reverse t.value.reverse (by simp [hl])
      (fun z hz => hb2 z (by simpa using hz)) (fun z hz => hb1 z (by simpa using hz))]
    simp only [List.reverse_reverse]
    by_cases he : limbs_value rhs.value = limbs_value t.value
    · rw [if_pos he]
      exact ⟨fun _ => by omega, fun _ => ⟨by omega, by omega⟩⟩
    · rw [if_neg he]
      by_cases hlt : limbs_value rhs.value < limbs_value t.value
      · cases rhs.is_negative <;> simp [hlt] <;> omega
      · cases rhs.is_negative <;> simp [hlt] <;> omega
  · have hl' : (rhs.value.length != t.value.length) = true := by simp [hl]
    have hlt : rhs.value.length < t.value.length := by omega
    rw [hl', if_pos rfl]
    have := lv_le_of_shorter t.value rhs.value (hn hlt) hb2 hlt
    cases rhs.is_negative <;> simp [hlt, this]

theorem sub_same_sign_spec (this rhs : big_integer) (h1 : limbs_bounded this.value)
    (h2 : limbs_bounded rhs.value) (hn : normalized this.value)
    (hs : this.is_negative = rhs.is_negative) :
    to_int (sub_same_sign this rhs) = to_int this - to_int rhs ∧
    limbs_bounded (sub_same_sign this rhs).value ∧
    normalized (sub_same_sign this rhs).value := by
  obtain ⟨t, ht⟩ : ∃ t : big_integer, t =
      (if rhs.value.length > this.value.length then
        { this with value := resize this.value rhs.value.length 0 } else this) := ⟨_, rfl⟩
  have htn : t.is_negative = this.is_negative := by rw [ht]; split <;> rfl
  have htv : limbs_value t.value = limbs_value this.value := by
    rw [ht]; split
    · exact resize_value _ _ (by omega)
    · rfl
  have htb : limbs_bounded t.value := by
    rw [ht]; split
    · exact resize_bounded _ _ _ h1 (by decide)
    · exact h1
  have htl : rhs.value.length ≤ t.value.length := by
    rw [ht]; split
    · simp only [resize_length]; omega
    · omega
  have htnorm : rhs.value.length < t.value.length → normalized t.value := by
    rw [ht]; split
    · simp only [resize_length]; omega
    · exact fun _ => hn
  simp only [sub_same_sign, ← ht]
  obtain ⟨ha1, ha2⟩ := abs_left_greater_spec t rhs (by rw [htn, hs]) htb h2 htl htnorm
  generalize (op_gt t rhs != t.is_negative) = alg at ha1 ha2 ⊢
  obtain ⟨e1, e2, bo, e3, e4⟩ := sub_loop_spec alg rhs.value t.value h2 htb
    (fun h => (ha2 h).2) t.value.length 0 false t.value (by omega) rfl (fun _ _ => rfl) htb
  generalize sub_loop alg rhs.value t.value.length 0 false t.value = res at e1 e2 e4 ⊢
  refine ⟨?_, skip_bounded _ e2, skip_normalized _⟩
  rw [skip_to_int]
  have hres := lv_lt res e2
  rw [e1] at hres
  simp only [Nat.zero_add, List.take_zero, lv_nil, pow_zero, Bool.false_eq_true, if_false,
    Nat.zero_mul, Nat.add_zero] at e4
  rw [lv_take_all res _ (by omega)] at e4
  simp only [to_int, htn]
  rw [← hs, ← htv]
  generalize 4294967296 ^ t.value.length = P at hres e4
  cases alg with
  | true =>
    have hle := ha1 rfl
    simp only [if_true] at e4
    rw [lv_take_all rhs.value _ htl, lv_take_all t.value _ (le_refl _)] at e4
    have hbo : bo = 0 := by
      rcases Nat.le_one_iff_eq_zero_or_eq_one.mp e3 with h | h
      · exact h
      · rw [h] at e4; omega
    rw [hbo] at e4
    have hval : (limbs_value res : Int) = limbs_value t.value - limbs_value rhs.value := by
      omega
    cases this.is_negative
    · simp [hval]
    · simp [hval]; ring
  | false =>
    obtain ⟨hle, hl⟩ := ha2 rfl
    simp only [Bool.false_eq_true, if_false] at e4
    rw [lv_take_all rhs.value _ (by omega), lv_take_all t.value _ (le_refl _)] at e4
    have hbo : bo = 0 := by
      rcases Nat.le_one_iff_eq_zero_or_eq_one.mp e3 with h | h
      · exact h
      · rw [h] at e4; omega
    rw [hbo] at e4
    have hval : (limbs_value res : Int) = limbs_value rhs.value - limbs_value t.value := by
      omega
    cases this.is_negative
    · simp [hval]
    · simp [hval]; ring

/-! ## The operators `+=` and `-=` -/

theorem limbs_all_equal_spec : ∀ (xs ys : List Nat), xs.length = ys.length →
    limbs_all_equal xs ys = true → xs = ys := by
  intro xs
  induction xs with
  | nil =>
    intro ys hl _
    cases ys with
    | nil => rfl
    | cons y ys => simp at hl
  | cons x xs ih =>
    intro ys hl h
    cases ys with
    | nil => simp at hl
    | cons y ys =>
      simp only [limbs_all_equal] at h
      by_cases hxy : x = y
      · subst hxy
        simp only [bne_self_eq_false, Bool.false_eq_true, if_false] at h
        rw [ih ys (by simpa using hl) h]
      · have hne : (x != y) = true := by simpa using hxy
        rw [hne, if_pos rfl] at h
        exact absurd h (by decide)

theorem op_eq_to_int (a b : big_integer) (h : op_eq a b = true) : to_int a = to_int b := by
  simp only [op_eq] at h
  by_cases h0 : op_eq_int a 0 = true
  · rw [if_pos h0] at h
    rw [op_eq_int_zero_to_int a h0, op_eq_int_zero_to_int b h]
  · rw [if_neg h0] at h
    by_cases hc : (a.is_negative != b.is_negative || a.value.length != b.value.length) = true
    · rw [if_pos hc] at h; exact absurd h (by decide)
    · rw [if_neg hc] at h
      simp only [Bool.or_eq_true, bne_iff_ne, ne_eq, not_or, not_not] at hc
      have := limbs_all_equal_spec a.value b.value hc.2 h
      simp only [to_int, hc.1, this]

theorem add_aux_same_sign (d : Nat) (this rhs : big_integer)
    (hs : this.is_negative = rhs.is_negative) :
    op_add_assign_aux (d + 1) this rhs = add_same_sign this rhs := by
  rw [op_add_assign_aux]
  simp [hs]

theorem sub_aux_same_sign (d : Nat) (this rhs : big_integer)
    (hs : this.is_negative = rhs.is_negative) (hne : op_eq this rhs = false) :
    op_sub_assign_aux (d + 1) this rhs = sub_same_sign this rhs := by
  rw [op_sub_assign_aux]
  simp [hs, hne]

theorem flip_sign_eq (this rhs : big_integer) (h : (this.is_negative != rhs.is_negative) = true) :
    ({ this with is_negative := !this.is_negative } : big_integer).is_negative
      = rhs.is_negative := by
  revert h
  cases this.is_negative <;> cases rhs.is_negative <;> simp

theorem op_sub_assign_to_int (this rhs : big_integer) (h1 : limbs_bounded this.value)
    (h2 : limbs_bounded rhs.value) (hn : normalized this.value) :
    to_int (op_sub_assign this rhs) = to_int this - to_int rhs := by
  rw [op_sub_assign, op_sub_assign_aux]
  by_cases he : op_eq this rhs = true
  · rw [if_pos he, op_assign_zero_to_int, op_eq_to_int this rhs he]; ring
  · rw [if_neg he]
    by_cases hs : (this.is_negative != rhs.is_negative) = true
    · rw [if_pos hs]
      simp only
      rw [to_int_flip_unless_zero, add_aux_same_sign 0 _ rhs (flip_sign_eq this rhs hs)]
      have hsp := (add_same_sign_spec { this with is_negative := !this.is_negative } rhs h1 h2)
      have hr : rhs.is_negative = !this.is_negative := (flip_sign_eq this rhs hs).symm
      simp only [to_int, hsp.1, hsp.2.1, hr]
      cases this.is_negative <;> simp
      ring
    · rw [if_neg hs]
      exact (sub_same_sign_spec this rhs h1 h2 hn (by simpa using hs)).1

theorem op_add_assign_to_int (this rhs : big_integer) (h1 : limbs_bounded this.value)
    (h2 : limbs_bounded rhs.value) (hn : normalized this.value) :
    to_int (op_add_assign this rhs) = to_int this + to_int rhs := by
  rw [op_add_assign, op_add_assign_aux]
  by_cases hs : (this.is_negative != rhs.is_negative) = true
  · rw [if_pos hs]
    simp only
    rw [to_int_flip_unless_zero, op_sub_assign_aux]
    by_cases he : op_eq { this with is_negative := !this.is_negative } rhs = true
    · rw [if_pos he, op_assign_zero_to_int]
      have := op_eq_to_int _ _ he
      rw [to_int_flip] at this
      omega
    · rw [if_neg he, if_neg (by rw [flip_sign_eq this rhs hs]; simp)]
      rw [(sub_same_sign_spec { this with is_negative := !this.is_negative } rhs h1 h2 hn
        (flip_sign_eq this rhs hs)).1, to_int_flip]
      ring
  · rw [if_neg hs]
    have hsp := add_same_sign_spec this rhs h1 h2
    have hr : this.is_negative = rhs.is_negative := by simpa using hs
    simp only [to_int, hsp.1, hsp.2.1, ← hr]
    cases this.is_negative <;> simp
    ring

/-! ## Long multiplication -/

theorem lv_drop_succ (b : List Nat) (j : Nat) :
    limbs_value (b.drop j) = b.getD j 0 + 4294967296 * limbs_value (b.drop (j + 1)) := by
  induction b generalizing j with
  | nil => simp [limbs_value]
  | cons x xs ih =>
    cases j with
    | zero => simp [limbs_value]
    | succ j =>
      simp only [List.drop_succ_cons, List.getD_cons_succ]
      exact ih j

theorem mul_inner_spec (p cd : Nat) (b : List Nat) (hb : limbs_bounded b)
    (hcd : cd < 4294967296) :
    ∀ (k j c : Nat) (V : List Nat), 1 ≤ j → c < 4294967296 → limbs_bounded V →
      p + b.length < V.length → V.length + 1 ≤ k + p + j →
      limbs_value V + c * 4294967296 ^ (p + j)
          + cd * limbs_value (b.drop j) * 4294967296 ^ (p + j) < 4294967296 ^ (V.length - 1) →
      (mul_inner_loop (p + 1) cd b k j c V).length = V.length ∧
      limbs_bounded (mul_inner_loop (p + 1) cd b k j c V) ∧
      (∀ idx, idx < p + j → (mul_inner_loop (p + 1) cd b k j c V).getD idx 0 = V.getD idx 0) ∧
      limbs_value (mul_inner_loop (p + 1) cd b k j c V)
        = limbs_value V + c * 4294967296 ^ (p + j)
          + cd * limbs_value (b.drop j) * 4294967296 ^ (p + j) := by
  intro k
  induction k with
  | zero =>
    intro j c V hj _ hV hpl hk hT
    have hj2 : b.length ≤ j := by omega
    have hc0 : c = 0 := by
      by_contra hne
      have h1 : 4294967296 ^ (V.length - 1) ≤ 4294967296 ^ (p + j) :=
        Nat.pow_le_pow_right (by decide) (by omega)
      have h2 : 4294967296 ^ (p + j) ≤ c * 4294967296 ^ (p + j) :=
        Nat.le_mul_of_pos_left _ (by omega)
      omega
    refine ⟨rfl, hV, fun _ _ => rfl, ?_⟩
    rw [hc0, List.drop_of_length_le hj2]
    simp [limbs_value, mul_inner_loop]
  | succ k ih =>
    intro j c V hj hc hV hpl hk hT
    have hidx : p + 1 + j - 1 = p + j := by omega
    simp only [mul_inner_loop, hidx]
    by_cases hcond : j < b.length ∨ c > 0
    · rw [if_pos hcond]
      have hq : p + j < V.length := by
        rcases hcond with h | h
        · omega
        · by_contra hge
          have h1 : 4294967296 ^ (V.length - 1) ≤ 4294967296 ^ (p + j) :=
            Nat.pow_le_pow_right (by decide) (by omega)
          have h2 : 4294967296 ^ (p + j) ≤ c * 4294967296 ^ (p + j) :=
            Nat.le_mul_of_pos_left _ h
          omega
      have hvq := getD_lt V hV (p + j)
      have hbj := getD_lt b hb j
      have hpr : cd * b.getD j 0 ≤ 4294967295 * 4294967295 :=
        Nat.mul_le_mul (by omega) (by omega)
      have hmask : (if j < b.length then
          (c + cd * b.getD j 0 % 18446744073709551616) % 18446744073709551616 else c)
          = c + cd * b.getD j 0 := by
        split
        · omega
        · rw [List.getD_eq_default b 0 (by omega)]; simp
      rw [hmask, if_pos (by omega : j > 0)]
      generalize hcur : (c + cd * b.getD j 0 + V.getD (p + j) 0) % 18446744073709551616 = cur
      have hcur' : cur = c + cd * b.getD j 0 + V.getD (p + j) 0 := by omega
      obtain ⟨limb, hlimb⟩ : ∃ limb : Nat, limb = cur % 4294967296 := ⟨_, rfl⟩
      obtain ⟨c2, hc2⟩ : ∃ c2 : Nat, c2 = cur / 4294967296 % 4294967296 := ⟨_, rfl⟩
      rw [← hlimb, ← hc2]
      have hlimblt : limb < 4294967296 := by omega
      have hc2lt : c2 < 4294967296 := by omega
      have hstep : limb + c2 * 4294967296 = c + cd * b.getD j 0 + V.getD (p + j) 0 := by omega
      have e1 := lv_set V (p + j) limb hq
      have e2 := lv_drop_succ b j
      have e3 : limb * 4294967296 ^ (p + j) + c2 * 4294967296 ^ (p + (j + 1))
          = (c + cd * b.getD j 0 + V.getD (p + j) 0) * 4294967296 ^ (p + j) := by
        rw [← hstep, ← Nat.add_assoc, pow_succ]; ring
      have hT' : limbs_value (V.set (p + j) limb) + c2 * 4294967296 ^ (p + (j + 1))
          + cd * limbs_value (b.drop (j + 1)) * 4294967296 ^ (p + (j + 1))
          = limbs_value V + c * 4294967296 ^ (p + j)
            + cd * limbs_value (b.drop j) * 4294967296 ^ (p + j) := by
        rw [e2]
        have e4 : 4294967296 ^ (p + (j + 1)) = 4294967296 ^ (p + j) * 4294967296 := by
          rw [← Nat.add_assoc, pow_succ]
        rw [e4] at e3 ⊢
        generalize 4294967296 ^ (p + j) = X at e1 e3 ⊢
        generalize limbs_value (b.drop (j + 1)) = D
        generalize limbs_value (V.set (p + j) limb) = W at e1 ⊢
        have e5 : cd * (b.getD j 0 + 4294967296 * D) * X
            = cd * b.getD j 0 * X + cd * D * (X * 4294967296) := by ring
        have e6 : (c + cd * b.getD j 0 + V.getD (p + j) 0) * X
            = c * X + cd * b.getD j 0 * X + V.getD (p + j) 0 * X := by ring
        rw [e5]
        rw [e6] at e3
        omega
      obtain ⟨r1, r2, r3, r4⟩ := ih (j + 1) c2 (V.set (p + j) limb) (by omega) hc2lt
        (set_bounded V hV _ _ hlimblt) (by rw [List.length_set]; exact hpl)
        (by rw [List.length_set]; omega) (by rw [List.length_set, hT']; exact hT)
      refine ⟨by rw [r1, List.length_set], r2, ?_, by rw [r4, hT']⟩
      intro idx hidx2
      rw [r3 idx (by omega), getD_set_ne V (p + j) idx limb (by omega)]
    · rw [if_neg hcond]
      have hj2 : b.length ≤ j := by omega
      have hc0 : c = 0 := by omega
      refine ⟨rfl, hV, fun _ _ => rfl, ?_⟩
      rw [hc0, List.drop_of_length_le hj2]
      simp [limbs_value]

theorem mul_outer_spec (a b : List Nat) (ha : limbs_bounded a) (hb : limbs_bounded b)
    (hb1 : 1 ≤ b.length) (hbv : 1 ≤ limbs_value b) :
    ∀ (i : Nat) (V : List Nat), i ≤ a.length → V.length = a.length + b.length + 1 →
      limbs_bounded V → (∀ idx, idx < i → V.getD idx 0 = a.getD idx 0) →
      limbs_value V + limbs_value (a.take i) * limbs_value b
        = limbs_value (a.take i) + limbs_value a * limbs_value b →
      limbs_value (mul_outer_loop b i V) = limbs_value a * limbs_value b ∧
      limbs_bounded (mul_outer_loop b i V) ∧
      (mul_outer_loop b i V).length = a.length + b.length + 1 := by
  intro i
  induction i with
  | zero =>
    intro V _ hL hV _ hinv
    simp only [List.take_zero, lv_nil, Nat.zero_mul, Nat.add_zero, Nat.zero_add] at hinv
    exact ⟨hinv, hV, hL⟩
  | succ p ih =>
    intro V hp hL hV hlow hinv
    have hcd : V.getD p 0 = a.getD p 0 := hlow p (by omega)
    have hap := getD_lt a ha p
    have hb0 := getD_lt b hb 0
    have hpr : a.getD p 0 * b.getD 0 0 ≤ 4294967295 * 4294967295 :=
      Nat.mul_le_mul (by omega) (by omega)
    rw [mul_outer_loop, hcd, mul_inner_loop, if_pos (Or.inl (by omega))]
    simp only [if_pos (show 0 < b.length by omega), lt_self_iff_false, if_false, Nat.zero_add,
      Nat.add_zero, Nat.add_sub_cancel, gt_iff_lt]
    generalize hcur : (a.getD p 0 * b.getD 0 0 % 18446744073709551616) % 18446744073709551616
      = cur
    have hcur' : cur = a.getD p 0 * b.getD 0 0 := by omega
    obtain ⟨limb, hlimb⟩ : ∃ limb : Nat, limb = cur % 4294967296 := ⟨_, rfl⟩
    obtain ⟨c1, hc1⟩ : ∃ c1 : Nat, c1 = cur / 4294967296 % 4294967296 := ⟨_, rfl⟩
    rw [← hlimb, ← hc1]
    have hlimblt : limb < 4294967296 := by omega
    have hc1lt : c1 < 4294967296 := by omega
    have hstep : limb + c1 * 4294967296 = a.getD p 0 * b.getD 0 0 := by omega
    have hpV : p < V.length := by omega
    have e1 := lv_set V p limb hpV
    rw [hcd] at e1
    have e3 : limbs_value b = b.getD 0 0 + 4294967296 * limbs_value (b.drop 1) := by
      have := lv_drop_succ b 0
      simpa using this
    have e4 := lv_take_succ a p
    rw [e4] at hinv
    have hab : limbs_value a * limbs_value b
        < 4294967296 ^ ((V.set p limb).length - 1) := by
      rw [List.length_set, hL, Nat.add_sub_cancel, pow_add]
      exact Nat.mul_lt_mul'' (lv_lt a ha) (lv_lt b hb)
    -- the value the buffer will have after the inner loop
    have hT : limbs_value (V.set p limb) + c1 * 4294967296 ^ (p + 1)
          + a.getD p 0 * limbs_value (b.drop 1) * 4294967296 ^ (p + 1)
          + limbs_value (a.take p) * limbs_value b
        = limbs_value (a.take p) + limbs_value a * limbs_value b := by
      rw [pow_succ]
      generalize 4294967296 ^ p = X at e1 hinv ⊢
      generalize limbs_value (V.set p limb) = W at e1 ⊢
      generalize limbs_value (b.drop 1) = D at e3 ⊢
      generalize limbs_value (a.take p) = A at hinv ⊢
      generalize limbs_value a = va at hinv ⊢
      generalize limbs_value V = VV at e1 hinv
      generalize a.getD p 0 = ap at hstep e1 hinv ⊢
      generalize b.getD 0 0 = b0 at hstep e3
      have h1 : limb * X + c1 * (X * 4294967296) = ap * b0 * X := by rw [← hstep]; ring
      have h2 : (A + ap * X) * limbs_value b = A * limbs_value b + ap * b0 * X
          + ap * D * (X * 4294967296) := by rw [e3]; ring
      rw [h2] at hinv
      omega
    have hle : limbs_value (a.take p) ≤ limbs_value (a.take p) * limbs_value b :=
      Nat.le_mul_of_pos_right _ hbv
    obtain ⟨r1, r2, r3, r4⟩ := mul_inner_spec p (a.getD p 0) b hb hap V.length 1 c1
      (V.set p limb) (le_refl _) hc1lt (set_bounded V hV _ _ hlimblt)
      (by rw [List.length_set]; omega) (by rw [List.length_set]; omega) (by omega)
    rw [List.length_set] at r1
    apply ih _ (by omega) (by rw [r1, hL]) r2
    · intro idx hidx
      rw [r3 idx (by omega), getD_set_ne V p idx limb (by omega)]
      exact hlow idx (by omega)
    · rw [r4]; exact hT

theorem resize_getD_low (v : List Nat) (n fill idx : Nat) (h : idx < v.length) (hn : v.length ≤ n) :
    (resize v n fill).getD idx 0 = v.getD idx 0 := by
  rw [resize, List.take_of_length_le hn]
  simp only [List.getD_eq_getElem?_getD]
  rw [List.getElem?_append_left h]

theorem to_int_eq_zero_iff (a : big_integer) : to_int a = 0 ↔ limbs_value a.value = 0 := by
  simp only [to_int]
  split <;> omega

theorem wf_nonzero (a : big_integer) (h : well_formed a) (h0 : op_eq_int a 0 = false) :
    1 ≤ limbs_value a.value ∧ 1 ≤ a.value.length := by
  have hne : ¬ to_int a = 0 := fun hc => by
    rw [(op_eq_int_zero_of_wf a h).mpr hc] at h0
    exact absurd h0 (by decide)
  rw [to_int_eq_zero_iff] at hne
  refine ⟨by omega, ?_⟩
  cases hv : a.value with
  | nil => rw [hv] at hne; exact absurd rfl hne
  | cons x xs => simp

theorem op_mul_assign_spec (this rhs : big_integer) (h1 : well_formed this)
    (h2 : well_formed rhs) :
    to_int (op_mul_assign this rhs) = to_int this * to_int rhs ∧
    limbs_bounded (op_mul_assign this rhs).value ∧
    normalized (op_mul_assign this rhs).value ∧
    ((op_eq_int this 0 || op_eq_int rhs 0) = false →
      (op_mul_assign this rhs).is_negative = (this.is_negative != rhs.is_negative)) := by
  rw [op_mul_assign]
  by_cases hz : (op_eq_int this 0 || op_eq_int rhs 0) = true
  · rw [if_pos hz, op_assign_zero_to_int]
    refine ⟨?_, ?_, ?_, fun h => by rw [h] at hz; exact absurd hz (by decide)⟩
    · rcases Bool.or_eq_true _ _ ▸ hz with h | h
      · rw [op_eq_int_zero_to_int this h]; ring
      · rw [op_eq_int_zero_to_int rhs h]; ring
    · rw [op_assign_zero]; split
      · exact h1.1
      · decide
    · rw [op_assign_zero]; split
      · exact h1.2.1
      · decide
  · rw [if_neg hz]
    simp only [Bool.or_eq_true, not_or, Bool.not_eq_true] at hz
    obtain ⟨hbv, hbl⟩ := wf_nonzero rhs h2 hz.2
    obtain ⟨r1, r2, r3⟩ := mul_outer_spec this.value rhs.value h1.1 h2.1 hbl hbv
      this.value.length (resize this.value (this.value.length + rhs.value.length + 1) 0)
      (le_refl _) (resize_length _ _ _) (resize_bounded _ _ _ h1.1 (by decide))
      (fun idx hidx => resize_getD_low _ _ _ _ hidx (by omega))
      (by rw [resize_value _ _ (by omega), List.take_of_length_le (le_refl _)])
    simp only
    refine ⟨?_, skip_bounded _ r2, skip_normalized _, fun _ => rfl⟩
    rw [skip_to_int]
    simp only [to_int, r1]
    cases this.is_negative <;> cases rhs.is_negative <;> simp

/-! ## Short division -/

theorem div_short_loop_spec (rhs : Nat) (h0 : 0 < rhs) (hlt : rhs < 4294967296) :
    ∀ (xs : List Nat) (carry : Nat), limbs_bounded xs → carry < rhs →
      (div_short_loop rhs xs carry).1.length = xs.length ∧
      limbs_bounded (div_short_loop rhs xs carry).1 ∧
      (div_short_loop rhs xs carry).2 < rhs ∧
      carry * 4294967296 ^ xs.length + limbs_value xs.reverse
        = limbs_value (div_short_loop rhs xs carry).1.reverse * rhs
          + (div_short_loop rhs xs carry).2 := by
  intro xs
  induction xs with
  | nil =>
    intro carry _ hc
    simp only [div_short_loop, List.length_nil, pow_zero, List.reverse_nil, lv_nil]
    exact ⟨trivial, fun z hz => by simp at hz, hc, by omega⟩
  | cons x xs ih =>
    intro carry hb hc
    have hx : x < 4294967296 := hb x (List.mem_cons_self _ _)
    have hxs : limbs_bounded xs := fun z hz => hb z (List.mem_cons_of_mem _ hz)
    have hcb : carry * 4294967296 + x < rhs * 4294967296 := by
      have : (carry + 1) * 4294967296 ≤ rhs * 4294967296 := Nat.mul_le_mul_right _ hc
      omega
    have hrb : rhs * 4294967296 ≤ 4294967296 * 4294967296 :=
      Nat.mul_le_mul_right _ (Nat.le_of_lt hlt)
    simp only [div_short_loop]
    generalize htemp : (carry * 4294967296 + x) % 18446744073709551616 = temp
    have htemp' : temp = carry * 4294967296 + x := by omega
    have hq : temp / rhs < 4294967296 := by
      apply Nat.div_lt_of_lt_mul
      rw [htemp']; omega
    have hr : temp % rhs < rhs := Nat.mod_lt _ h0
    have hdm : rhs * (temp / rhs) + temp % rhs = temp := Nat.div_add_mod temp rhs
    rw [Nat.mod_eq_of_lt hq, Nat.mod_eq_of_lt (by omega : temp % rhs < 4294967296)]
    obtain ⟨r1, r2, r3, r4⟩ := ih (temp % rhs) hxs hr
    generalize div_short_loop rhs xs (temp % rhs) = res at r1 r2 r3 r4 ⊢
    obtain ⟨q, r⟩ := res
    simp only at r1 r2 r3 r4 ⊢
    refine ⟨by simp [r1], ?_, r3, ?_⟩
    · intro z hz
      rcases List.mem_cons.mp hz with h | h
      · rw [h]; exact hq
      · exact r2 z h
    · simp only [List.reverse_cons, lv_append, lv_cons, lv_nil, List.length_reverse,
        List.length_cons, Nat.mul_zero, Nat.add_zero, r1, pow_succ]
      generalize 4294967296 ^ xs.length = P at r4 ⊢
      generalize limbs_value xs.reverse = vx at r4 ⊢
      generalize limbs_value q.reverse = vq at r4 ⊢
      generalize temp / rhs = q0 at hdm ⊢
      generalize temp % rhs = r0 at hdm r4 ⊢
      rw [htemp'] at hdm
      have e1 : (rhs * q0 + r0) * P = (carry * 4294967296 + x) * P := by rw [hdm]
      have e2 : (rhs * q0 + r0) * P = P * q0 * rhs + r0 * P := by ring
      have e3 : (carry * 4294967296 + x) * P = carry * (P * 4294967296) + P * x := by ring
      have e4 : (vq + P * q0) * rhs = vq * rhs + P * q0 * rhs := by ring
      rw [e4]
      omega

theorem div_short_value (rhs : Nat) (h0 : 0 < rhs) (hlt : rhs < 4294967296) (v : List Nat)
    (hv : limbs_bounded v) :
    limbs_value (div_short_loop rhs v.reverse 0).1.reverse = limbs_value v / rhs ∧
    (div_short_loop rhs v.reverse 0).2 = limbs_value v % rhs ∧
    limbs_bounded (div_short_loop rhs v.reverse 0).1.reverse := by
  obtain ⟨_, r2, r3, r4⟩ := div_short_loop_spec rhs h0 hlt v.reverse 0
    (fun z hz => hv z (by simpa using hz)) h0
  simp only [Nat.zero_mul, Nat.zero_add, List.reverse_reverse] at r4
  generalize div_short_loop rhs v.reverse 0 = res at r2 r3 r4 ⊢
  obtain ⟨q, r⟩ := res
  simp only at r2 r3 r4 ⊢
  refine ⟨?_, ?_, fun z hz => r2 z (by simpa using hz)⟩
  · rw [r4, Nat.add_comm, Nat.add_mul_div_right _ _ h0, Nat.div_eq_of_lt r3, Nat.zero_add]
  · rw [r4, Nat.add_comm, Nat.add_mul_mod_self_right, Nat.mod_eq_of_lt r3]

theorem div_to_short_spec (this : big_integer) (rhs : Nat) (hb : limbs_bounded this.value)
    (h0 : 0 < rhs) (hlt : rhs < 4294967296) :
    to_int (div_to_short this rhs) = Int.tdiv (to_int this) rhs ∧
    limbs_bounded (div_to_short this rhs).value ∧
    (normalized this.value → normalized (div_to_short this rhs).value) := by
  rw [div_to_short]
  by_cases hz : op_eq_int this 0 = true
  · rw [if_pos hz]
    refine ⟨?_, hb, fun h => h⟩
    rw [op_eq_int_zero_to_int this hz]; simp
  · rw [if_neg hz]
    obtain ⟨e1, _, e3⟩ := div_short_value rhs h0 hlt this.value hb
    generalize hq : (div_short_loop rhs this.value.reverse 0).1.reverse = q at e1 e3
    have hval : to_int (skip_leading_zeros { this with value := q })
        = Int.tdiv (to_int this) rhs := by
      rw [skip_to_int]
      simp only [to_int, e1]
      cases this.is_negative
      · simp only [Bool.false_eq_true, if_false]; exact Int.ofNat_tdiv _ _
      · simp only [if_true, Int.neg_tdiv]; congr 1
    simp only
    have hbq : limbs_bounded (skip_leading_zeros { this with value := q }).value :=
      skip_bounded _ e3
    have hnq : normalized (skip_leading_zeros { this with value := q }).value :=
      skip_normalized _
    generalize skip_leading_zeros { this with value := q } = t at hval hbq hnq
    split
    · rename_i hc
      refine ⟨?_, hbq, fun _ => hnq⟩
      rw [← hval]
      have hv0 : limbs_value t.value = 0 := by
        obtain ⟨hl, hg⟩ := hc
        match htv : t.value, hl, hg with
        | [x], _, hg =>
          simp only [List.getD_cons_zero] at hg
          simp [limbs_value, hg]
      simp [to_int, hv0]
    · exact ⟨hval, hbq, fun _ => hnq⟩

theorem neg_tmod_nat (v r : Nat) : Int.tmod (-(v : Int)) r = -((v % r : Nat) : Int) := by
  have h1 := Int.tmod_def (v : Int) r
  have h2 := Int.ofNat_tmod v r
  rw [Int.tmod_def, Int.neg_tdiv, h2, h1]
  ring

theorem mod_to_short_spec (this : big_integer) (rhs : Nat) (hb : limbs_bounded this.value)
    (h0 : 0 < rhs) (hlt : rhs < 4294967296) :
    to_int (mod_to_short this rhs) = Int.tmod (to_int this) rhs ∧
    (to_int (mod_to_short this rhs) = 0 ∨
      (mod_to_short this rhs).is_negative = this.is_negative) ∧
    (well_formed this → well_formed (mod_to_short this rhs)) := by
  rw [mod_to_short]
  by_cases hz : op_eq_int this 0 = true
  · rw [if_pos hz]
    refine ⟨?_, Or.inr rfl, fun h => h⟩
    rw [op_eq_int_zero_to_int this hz]; simp
  · rw [if_neg hz]
    obtain ⟨_, e2, _⟩ := div_short_value rhs h0 hlt this.value hb
    have hr : limbs_value this.value % rhs < rhs := Nat.mod_lt _ h0
    simp only [e2]
    split
    · rename_i hc
      refine ⟨?_, Or.inl (by simp [to_int, limbs_value, hc]), fun _ => by rw [hc]; decide⟩
      simp only [to_int, Bool.false_eq_true, if_false, limbs_value, hc]
      cases this.is_negative
      · simp only [Bool.false_eq_true, if_false]
        rw [← Int.ofNat_tmod, hc]
      · simp only [if_true]
        rw [neg_tmod_nat, hc]; rfl
    · rename_i hc
      refine ⟨?_, Or.inr rfl, ?_⟩
      · simp only [to_int, limbs_value, Nat.mul_zero, Nat.add_zero]
        cases this.is_negative
        · simp only [Bool.false_eq_true, if_false]
          rw [← Int.ofNat_tmod]
        · simp only [if_true]
          rw [neg_tmod_nat]
      · refine fun _ => ⟨?_, ?_, ?_⟩
        · intro z hz2
          simp only [List.mem_singleton] at hz2
          rw [hz2]; omega
        · right; right
          simp only [List.getLast?_singleton, ne_eq, Option.some.injEq]
          exact hc
        · intro hv
          simp only [limbs_value, Nat.mul_zero, Nat.add_zero] at hv
          exact absurd hv hc

theorem single_limb_to_int (b : big_integer) (h1 : b.value.length = 1) :
    b.value = [b.value.getD 0 0] ∧
    to_int b = if b.is_negative then -(b.value.getD 0 0 : Int) else (b.value.getD 0 0 : Int) := by
  cases b with
  | mk v s =>
    match v, h1 with
    | [x], _ => simp [to_int, limbs_value]

theorem op_div_assign_single (a b : big_integer) (ha : limbs_bounded a.value)
    (hb : limbs_bounded b.value) (h1 : b.value.length = 1) (hnz : to_int b ≠ 0) :
    ∃ q, op_div_assign a b = some q ∧ to_int q = Int.tdiv (to_int a) (to_int b) := by
  obtain ⟨hv, hi⟩ := single_limb_to_int b h1
  have hx := getD_lt b.value hb 0
  have hx0 : 0 < b.value.getD 0 0 := by
    rcases Nat.eq_zero_or_pos (b.value.getD 0 0) with h | h
    · rw [h] at hi; simp at hi; exact absurd hi hnz
    · exact h
  obtain ⟨d1, _, _⟩ := div_to_short_spec a (b.value.getD 0 0) ha hx0 hx
  rw [op_div_assign, if_pos h1]
  simp only
  rw [hi]
  generalize div_to_short a (b.value.getD 0 0) = t at d1
  cases hs : b.is_negative
  · simp only [Bool.and_false, Bool.false_eq_true, if_false]
    exact ⟨t, rfl, d1⟩
  · simp only [Bool.and_true, if_true]
    refine ⟨if op_ne t (of_int 0) then { t with is_negative := !t.is_negative } else t,
      by split <;> rfl, ?_⟩
    rw [to_int_flip_unless_zero, d1, Int.tdiv_neg]

theorem op_mod_assign_single (a b : big_integer) (ha : limbs_bounded a.value)
    (hb : limbs_bounded b.value) (h1 : b.value.length = 1) (hnz : to_int b ≠ 0) :
    ∃ r, op_mod_assign a b = some r ∧ to_int r = Int.tmod (to_int a) (to_int b) ∧
      (to_int r = 0 ∨ r.is_negative = a.is_negative) := by
  obtain ⟨hv, hi⟩ := single_limb_to_int b h1
  have hx := getD_lt b.value hb 0
  have hx0 : 0 < b.value.getD 0 0 := by
    rcases Nat.eq_zero_or_pos (b.value.getD 0 0) with h | h
    · rw [h] at hi; simp at hi; exact absurd hi hnz
    · exact h
  obtain ⟨m1, m2, _⟩ := mod_to_short_spec a (b.value.getD 0 0) ha hx0 hx
  rw [op_mod_assign, if_pos h1]
  refine ⟨_, rfl, ?_, m2⟩
  rw [m1, hi]
  cases b.is_negative
  · rfl
  · simp only [if_true, Int.tmod_neg]

/-! ## Left shift -/

theorem shl_loop_spec (shift : Nat) (hs : shift < 32) :
    ∀ (xs : List Nat) (carry : Nat), limbs_bounded xs → carry < 2 ^ shift →
      limbs_value (shl_loop shift xs carry) = limbs_value xs * 2 ^ shift + carry ∧
      limbs_bounded (shl_loop shift xs carry) := by
  have hP : 2 ^ shift ≤ 2147483648 := by
    have : 2 ^ shift ≤ 2 ^ 31 := Nat.pow_le_pow_right (by decide) (by omega)
    simpa using this
  have hP0 : 0 < 2 ^ shift := Nat.two_pow_pos shift
  obtain ⟨P, hPdef⟩ : ∃ P : Nat, P = 2 ^ shift := ⟨_, rfl⟩
  rw [← hPdef] at hP hP0 ⊢
  intro xs
  induction xs with
  | nil =>
    intro carry _ hc
    simp only [shl_loop]
    split
    · refine ⟨by simp only [lv_cons, lv_nil]; omega, fun z hz => ?_⟩
      simp only [List.mem_singleton] at hz
      omega
    · exact ⟨by simp only [lv_nil]; omega, fun z hz => by simp at hz⟩
  | cons x xs ih =>
    intro carry hb hc
    have hx : x < 4294967296 := hb x (List.mem_cons_self _ _)
    have hxs : limbs_bounded xs := fun z hz => hb z (List.mem_cons_of_mem _ hz)
    have hxP : x * P + P ≤ 4294967296 * P := by
      have : (x + 1) * P ≤ 4294967296 * P := Nat.mul_le_mul_right _ hx
      linarith
    have hBP : 4294967296 * P ≤ 4294967296 * 2147483648 := Nat.mul_le_mul_left _ hP
    simp only [shl_loop, ← hPdef]
    generalize htemp : (x * P + carry) % 18446744073709551616 = temp
    have htemp' : temp = x * P + carry := by omega
    have hc2 : temp / 4294967296 < P := by
      apply Nat.div_lt_of_lt_mul
      omega
    obtain ⟨r1, r2⟩ := ih (temp / 4294967296) hxs hc2
    refine ⟨?_, ?_⟩
    · rw [lv_cons, r1, lv_cons]
      have e1 : (x + 4294967296 * limbs_value xs) * P
          = x * P + 4294967296 * (limbs_value xs * P) := by ring
      rw [e1]
      omega
    · intro z hz
      rcases List.mem_cons.mp hz with h | h
      · rw [h]; omega
      · exact r2 z h

theorem radix_pow (n : Nat) : 4294967296 ^ n = 2 ^ (32 * n) := by
  rw [pow_mul]; norm_num

theorem op_shl_assign_spec (this : big_integer) (rhs : Nat) (hb : limbs_bounded this.value)
    (hr : rhs < 2147483648) :
    limbs_value (op_shl_assign this rhs).value = limbs_value this.value * 2 ^ rhs ∧
    (op_shl_assign this rhs).is_negative = this.is_negative ∧
    limbs_bounded (op_shl_assign this rhs).value := by
  rw [op_shl_assign]
  by_cases hz : rhs = 0 ∨ op_eq_int this 0 = true
  · rw [if_pos hz]
    refine ⟨?_, rfl, hb⟩
    rcases hz with h | h
    · rw [h]; simp
    · rw [op_eq_int_zero_value this h]; simp
  · rw [if_neg hz]
    have hds : rhs / 32 % 4294967296 = rhs / 32 := by omega
    have hsh : rhs % 32 % 4294967296 = rhs % 32 := by omega
    simp only [hds, hsh]
    have hval : (if rhs / 32 > 0 then List.replicate (rhs / 32) 0 ++ this.value
        else this.value) = List.replicate (rhs / 32) 0 ++ this.value := by
      split
      · rfl
      · have : rhs / 32 = 0 := by omega
        rw [this]; rfl
    rw [hval]
    have hrep : limbs_bounded (List.replicate (rhs / 32) 0) := by
      intro z hz2
      rw [(List.mem_replicate.mp hz2).2]; decide
    have hpow : 4294967296 ^ (rhs / 32) * 2 ^ (rhs % 32) = 2 ^ rhs := by
      rw [radix_pow, ← pow_add, Nat.div_add_mod]
    split
    · rename_i hpos
      have htake : (List.replicate (rhs / 32) 0 ++ this.value).take (rhs / 32)
          = List.replicate (rhs / 32) 0 := by
        rw [List.take_left' (by simp)]
      have hdrop : (List.replicate (rhs / 32) 0 ++ this.value).drop (rhs / 32)
          = this.value := by
        rw [List.drop_left' (by simp)]
      obtain ⟨r1, r2⟩ := shl_loop_spec (rhs % 32) (Nat.mod_lt _ (by decide)) this.value 0 hb
        (Nat.two_pow_pos _)
      simp only [htake, hdrop]
      refine ⟨?_, trivial, ?_⟩
      · rw [lv_append, lv_replicate_zero, r1, List.length_replicate, ← hpow]; ring
      · intro z hz2
        rcases List.mem_append.mp hz2 with h | h
        · exact hrep z h
        · exact r2 z h
    · rename_i hpos
      have h0 : rhs % 32 = 0 := by omega
      refine ⟨?_, rfl, ?_⟩
      · rw [lv_append, lv_replicate_zero, List.length_replicate, ← hpow, h0]; ring
      · intro z hz2
        rcases List.mem_append.mp hz2 with h | h
        · exact hrep z h
        · exact hb z h

/-! ## Short addition and subtraction -/

theorem skip_rev_suffix (l : List Nat) : ∃ pre, l = pre ++ skip_leading_zeros_rev l := by
  induction l using skip_leading_zeros_rev.induct with
  | case1 => exact ⟨[], rfl⟩
  | case2 x => exact ⟨[], rfl⟩
  | case3 y rest ih =>
    obtain ⟨pre, hpre⟩ := ih
    refine ⟨0 :: pre, ?_⟩
    rw [skip_leading_zeros_rev, if_pos rfl, List.cons_append, ← hpre]
  | case4 x y rest hx =>
    refine ⟨[], ?_⟩
    rw [skip_leading_zeros_rev, if_neg hx]; rfl

theorem skip_getD_zero (a : big_integer) :
    (skip_leading_zeros a).value.getD 0 0 = a.value.getD 0 0 := by
  by_cases hne : a.value = []
  · simp [skip_leading_zeros, hne, skip_leading_zeros_rev]
  · obtain ⟨pre, hpre⟩ := skip_rev_suffix a.value.reverse
    have h1 : a.value = (skip_leading_zeros a).value ++ pre.reverse := by
      have := congrArg List.reverse hpre
      rw [List.reverse_reverse, List.reverse_append] at this
      exact this
    have h2 := skip_nonempty a hne
    have h3 : 0 < (skip_leading_zeros a).value.length := List.length_pos.mpr h2
    conv_rhs => rw [h1]
    simp only [List.getD_eq_getElem?_getD]
    rw [List.getElem?_append_left h3]

theorem sub_borrow_loop_spec : ∀ (k i : Nat) (V : List Nat), limbs_bounded V →
    (∃ j, i ≤ j ∧ j < i + k ∧ j < V.length ∧ V.getD j 0 ≠ 0) →
    limbs_value (sub_borrow_loop k i V) + 4294967296 ^ i = limbs_value V ∧
    limbs_bounded (sub_borrow_loop k i V) ∧
    (sub_borrow_loop k i V).length = V.length ∧
    (∀ idx, idx < i → (sub_borrow_loop k i V).getD idx 0 = V.getD idx 0) := by
  intro k
  induction k with
  | zero =>
    intro i V _ hj
    obtain ⟨j, h1, h2, _⟩ := hj
    omega
  | succ k ih =>
    intro i V hV hj
    obtain ⟨j, h1, h2, h3, h4⟩ := hj
    have hvi := getD_lt V hV i
    rw [sub_borrow_loop]
    by_cases h0 : V.getD i 0 = 0
    · rw [if_pos h0]
      have hji : j ≠ i := fun h => h4 (h ▸ h0)
      have hi : i < V.length := by omega
      obtain ⟨r1, r2, r3, r4⟩ := ih (i + 1) (V.set i UINT32_MAX)
        (set_bounded V hV _ _ (by decide))
        ⟨j, by omega, by omega, by rw [List.length_set]; exact h3,
          by rw [getD_set_ne V i j _ (Ne.symm hji)]; exact h4⟩
      refine ⟨?_, r2, by rw [r3, List.length_set], ?_⟩
      · have e1 := lv_set V i UINT32_MAX hi
        rw [h0] at e1
        rw [pow_succ] at r1
        generalize limbs_value (V.set i UINT32_MAX) = W at e1 r1
        simp only [UINT32_MAX] at e1
        omega
      · intro idx hidx
        rw [r4 idx (by omega), getD_set_ne V i idx _ (by omega)]
    · rw [if_neg h0]
      have hi : i < V.length := by
        by_contra hge
        exact h0 (List.getD_eq_default V 0 (by omega))
      have hm : (V.getD i 0 - 1) % 4294967296 = V.getD i 0 - 1 := by omega
      rw [hm]
      refine ⟨?_, set_bounded V hV _ _ (by omega), by rw [List.length_set], ?_⟩
      · have e1 := lv_set V i (V.getD i 0 - 1) hi
        have e2 : (V.getD i 0 - 1) * 4294967296 ^ i + 4294967296 ^ i
            = V.getD i 0 * 4294967296 ^ i := by
          have : V.getD i 0 - 1 + 1 = V.getD i 0 := by omega
          calc (V.getD i 0 - 1) * 4294967296 ^ i + 4294967296 ^ i
              = (V.getD i 0 - 1 + 1) * 4294967296 ^ i := by ring
            _ = V.getD i 0 * 4294967296 ^ i := by rw [this]
        omega
      · intro idx hidx
        rw [getD_set_ne V i idx _ (by omega)]

theorem add_carry_loop_spec : ∀ (k i : Nat) (V : List Nat), limbs_bounded V →
    i + k ≤ V.length →
    limbs_value (add_carry_loop k i V).1
        + (if (add_carry_loop k i V).2 then 1 else 0) * 4294967296 ^ (i + k)
      = limbs_value V + 4294967296 ^ i ∧
    limbs_bounded (add_carry_loop k i V).1 ∧
    (add_carry_loop k i V).1.length = V.length ∧
    (∀ idx, idx < i → (add_carry_loop k i V).1.getD idx 0 = V.getD idx 0) := by
  intro k
  induction k with
  | zero =>
    intro i V hV _
    simp only [add_carry_loop, if_true, Nat.one_mul, Nat.add_zero]
    exact ⟨trivial, hV, trivial, fun _ _ => trivial⟩
  | succ k ih =>
    intro i V hV hik
    have hvi := getD_lt V hV i
    have hi : i < V.length := by omega
    rw [add_carry_loop]
    by_cases h0 : V.getD i 0 = UINT32_MAX
    · rw [if_pos h0]
      obtain ⟨r1, r2, r3, r4⟩ := ih (i + 1) (V.set i 0) (set_bounded V hV _ _ (by decide))
        (by rw [List.length_set]; omega)
      refine ⟨?_, r2, by rw [r3, List.length_set], ?_⟩
      · have e1 := lv_set V i 0 hi
        rw [h0] at e1
        have e3 : i + 1 + k = i + (k + 1) := by omega
        rw [e3, pow_succ] at r1
        simp only [UINT32_MAX] at e1
        omega
      · intro idx hidx
        rw [r4 idx (by omega), getD_set_ne V i idx _ (by omega)]
    · rw [if_neg h0]
      simp only [UINT32_MAX] at h0
      have hm : (V.getD i 0 + 1) % 4294967296 = V.getD i 0 + 1 := by omega
      simp only [hm, Bool.false_eq_true, if_false, Nat.zero_mul, Nat.add_zero]
      refine ⟨?_, set_bounded V hV _ _ (by omega), by rw [List.length_set], ?_⟩
      · have e1 := lv_set V i (V.getD i 0 + 1) hi
        have e2 : (V.getD i 0 + 1) * 4294967296 ^ i
            = V.getD i 0 * 4294967296 ^ i + 4294967296 ^ i := by ring
        omega
      · intro idx hidx
        rw [getD_set_ne V i idx _ (by omega)]

theorem getD_last_ne_zero (v : List Nat) (hn : normalized v) (hl : 2 ≤ v.length) :
    v.getD (v.length - 1) 0 ≠ 0 := by
  rcases hn with h | h | h
  · rw [h] at hl; simp at hl
  · rw [h] at hl; simp at hl
  · intro hc
    apply h
    rw [List.getLast?_eq_getElem?]
    have hlt : v.length - 1 < v.length := by omega
    rw [List.getD_eq_getElem v 0 hlt] at hc
    rw [List.getElem?_eq_getElem hlt, hc]

theorem lv_set_zero (v : List Nat) (y : Nat) (h : v ≠ []) :
    limbs_value (v.set 0 y) + v.getD 0 0 = limbs_value v + y := by
  have := lv_set v 0 y (List.length_pos.mpr h)
  simpa using this

theorem sub_to_short_nonneg_spec (this : big_integer) (rhs : Nat)
    (hs : this.is_negative = false) (hb : limbs_bounded this.value)
    (hn : normalized this.value) (hr : rhs < 4294967296) :
    to_int (sub_to_short this rhs) = (limbs_value this.value : Int) - rhs ∧
    (1 ≤ limbs_value this.value → rhs ≤ limbs_value this.value →
      (sub_to_short this rhs).is_negative = false) ∧
    limbs_bounded (sub_to_short this rhs).value := by
  rw [sub_to_short, if_neg (by rw [hs]; decide)]
  cases hv : this.value with
  | nil =>
    simp only [List.isEmpty_nil, if_true, resize, List.take_nil, List.length_nil, Nat.sub_zero,
      List.nil_append]
    refine ⟨by simp [to_int, limbs_value], fun h => ?_, fun z hz => ?_⟩
    · simp [limbs_value] at h
    · simp only [List.replicate, List.mem_singleton] at hz
      omega
  | cons v0 rest =>
    have hv0 : v0 < 4294967296 := hb v0 (by rw [hv]; exact List.mem_cons_self _ _)
    simp only [List.isEmpty_cons, Bool.false_eq_true, if_false, List.getD_cons_zero,
      List.length_cons, List.set_cons_zero]
    by_cases hneg : (v0 : Int) - (rhs : Int) < 0
    · rw [if_pos hneg]
      by_cases hlen : rest.length + 1 = 1
      · rw [if_pos hlen]
        have hrest : rest = [] := List.eq_nil_of_length_eq_zero (by omega)
        subst hrest
        refine ⟨?_, fun _ h => ?_, fun z hz => ?_⟩
        · simp only [to_int, if_true, limbs_value, Nat.mul_zero, Nat.add_zero]
          omega
        · simp only [limbs_value, Nat.mul_zero, Nat.add_zero] at h
          omega
        · simp only [List.mem_singleton] at hz
          omega
      · rw [if_neg hlen]
        have hl2 : 2 ≤ this.value.length := by rw [hv]; simp only [List.length_cons]; omega
        have hlast := getD_last_ne_zero this.value hn hl2
        rw [hv] at hlast hb
        simp only [List.length_cons, Nat.add_sub_cancel] at hlast ⊢
        obtain ⟨r1, r2, r3, r4⟩ := sub_borrow_loop_spec rest.length 1 (v0 :: rest) hb
          ⟨rest.length, by omega, by omega, by simp, hlast⟩
        generalize hR : sub_borrow_loop rest.length 1 (v0 :: rest) = R at r1 r2 r3 r4
        have hR0 : R.getD 0 0 = v0 := by rw [r4 0 (by omega)]; rfl
        have hRne : R ≠ [] := by
          intro hc; rw [hc] at r3; simp at r3
        obtain ⟨X, hX⟩ : ∃ X : big_integer,
            X = skip_leading_zeros { this with value := R } := ⟨_, rfl⟩
        rw [← hX]
        have hXv : limbs_value X.value = limbs_value R := by rw [hX, skip_value]
        have hX0 : X.value.getD 0 0 = v0 := by rw [hX, skip_getD_zero]; exact hR0
        have hXne : X.value ≠ [] := by rw [hX]; exact skip_nonempty _ hRne
        have hXb : limbs_bounded X.value := by rw [hX]; exact skip_bounded _ r2
        have hXs : X.is_negative = false := by rw [hX, skip_sign]; exact hs
        obtain ⟨y, hy⟩ : ∃ y : Nat, y =
            (((v0 : Int) - (rhs : Int) + (UINT32_MAX : Nat) + 1) % 4294967296).toNat := ⟨_, rfl⟩
        rw [← hy]
        have hyv : (y : Int) = (v0 : Int) - rhs + 4294967296 := by
          simp only [UINT32_MAX] at hy
          omega
        have e1 := lv_set_zero X.value y hXne
        rw [hX0, hXv] at e1
        simp only [lv_cons, pow_one] at r1
        refine ⟨?_, fun _ _ => hXs, set_bounded _ hXb _ _ (by omega)⟩
        simp only [to_int, hXs, Bool.false_eq_true, if_false, lv_cons]
        omega
    · rw [if_neg hneg]
      obtain ⟨y, hy⟩ : ∃ y : Nat, y = (((v0 : Int) - (rhs : Int)) % 4294967296).toNat :=
        ⟨_, rfl⟩
      rw [← hy]
      refine ⟨?_, fun _ _ => hs, ?_⟩
      · simp only [to_int, hs, Bool.false_eq_true, if_false, lv_cons]
        omega
      · rw [hv] at hb
        intro z hz
        rcases List.mem_cons.mp hz with h | h
        · rw [h]; omega
        · exact hb z (List.mem_cons_of_mem _ h)

theorem add_to_short_nonneg_spec (this : big_integer) (rhs : Nat)
    (hs : this.is_negative = false) (hb : limbs_bounded this.value) (hr : rhs < 4294967296) :
    limbs_value (add_to_short this rhs).value = limbs_value this.value + rhs ∧
    (add_to_short this rhs).is_negative = false ∧
    limbs_bounded (add_to_short this rhs).value := by
  rw [add_to_short, if_neg (by rw [hs]; decide)]
  cases hv : this.value with
  | nil =>
    simp only [List.isEmpty_nil, if_true, resize, List.take_nil, List.length_nil, Nat.sub_zero,
      List.nil_append]
    refine ⟨by simp [limbs_value], hs, fun z hz => ?_⟩
    simp only [List.replicate, List.mem_singleton] at hz
    omega
  | cons v0 rest =>
    rw [hv] at hb
    have hv0 : v0 < 4294967296 := hb v0 (List.mem_cons_self _ _)
    simp only [List.isEmpty_cons, Bool.false_eq_true, if_false, List.getD_cons_zero,
      List.length_cons, Nat.add_sub_cancel, UINT32_MAX]
    have hfd : (v0 + rhs) % 18446744073709551616 = v0 + rhs := by omega
    rw [hfd]
    by_cases hc : v0 + rhs > 4294967295
    · rw [if_pos hc]
      obtain ⟨r1, r2, r3, r4⟩ := add_carry_loop_spec rest.length 1 (v0 :: rest) hb
        (by simp only [List.length_cons]; omega)
      generalize add_carry_loop rest.length 1 (v0 :: rest) = res at r1 r2 r3 r4 ⊢
      obtain ⟨V, pending⟩ := res
      simp only at r1 r2 r3 r4 ⊢
      have hV0 : V.getD 0 0 = v0 := by rw [r4 0 (by omega)]; rfl
      have hVne : V ≠ [] := by intro hcn; rw [hcn] at r3; simp at r3
      have hm : (v0 + rhs - 4294967295 - 1) % 4294967296 = v0 + rhs - 4294967296 := by omega
      rw [hm]
      simp only [lv_cons, pow_one] at r1 ⊢
      have e3 : 1 + rest.length = V.length := by rw [r3]; simp only [List.length_cons]; omega
      rw [e3] at r1
      cases pending with
      | true =>
        simp only [if_true, Nat.one_mul] at r1 ⊢
        have hne : V ++ [1] ≠ [] := by simp
        have e1 := lv_set_zero (V ++ [1]) (v0 + rhs - 4294967296) hne
        have e2 : (V ++ [1]).getD 0 0 = v0 := by
          simp only [List.getD_eq_getElem?_getD]
          rw [List.getElem?_append_left (List.length_pos.mpr hVne)]
          simpa using hV0
        rw [e2, lv_append] at e1
        simp only [lv_cons, lv_nil, Nat.mul_zero, Nat.add_zero, Nat.mul_one] at e1
        refine ⟨by omega, hs, set_bounded _ ?_ _ _ (by omega)⟩
        intro z hz
        rcases List.mem_append.mp hz with h | h
        · exact r2 z h
        · simp only [List.mem_singleton] at h; omega
      | false =>
        simp only [Bool.false_eq_true, if_false, Nat.zero_mul, Nat.add_zero] at r1 ⊢
        have e1 := lv_set_zero V (v0 + rhs - 4294967296) hVne
        rw [hV0] at e1
        exact ⟨by omega, hs, set_bounded _ r2 _ _ (by omega)⟩
    · rw [if_neg hc]
      have hm : (v0 + rhs) % 4294967296 = v0 + rhs := by omega
      rw [hm]
      simp only [List.set_cons_zero, lv_cons]
      refine ⟨by omega, hs, fun z hz => ?_⟩
      rcases List.mem_cons.mp hz with h | h
      · rw [h]; omega
      · exact hb z (List.mem_cons_of_mem _ h)

theorem add_to_short_neg_spec (this : big_integer) (rhs : Nat)
    (hs : this.is_negative = true) (hb : limbs_bounded this.value)
    (hn : normalized this.value) (hr : rhs < 4294967296)
    (h1 : 1 ≤ limbs_value this.value) (h2 : rhs ≤ limbs_value this.value) :
    to_int (add_to_short this rhs) = to_int this + rhs := by
  rw [add_to_short, if_pos hs]
  obtain ⟨s1, s2, _⟩ := sub_to_short_nonneg_spec { this with is_negative := false } rhs rfl
    hb hn hr
  have s3 := s2 h1 h2
  generalize sub_to_short { this with is_negative := false } rhs = t at s1 s3
  have hto : to_int this = -(limbs_value this.value : Int) := by simp [to_int, hs]
  show to_int (if op_ne t (of_int 0) = true then { t with is_negative := true } else t)
    = to_int this + rhs
  simp only at s1
  rw [op_ne_zero]
  by_cases h0 : op_eq_int t 0 = true
  · simp only [h0, Bool.not_true, Bool.false_eq_true, if_false]
    have := op_eq_int_zero_to_int t h0
    omega
  · simp only [h0, Bool.not_false, if_true]
    simp only [to_int, s3, Bool.false_eq_true, if_false] at s1
    simp only [to_int, if_true, s1, hs]
    omega

theorem add_to_short_one (this : big_integer) (h : well_formed this) :
    to_int (add_to_short this 1) = to_int this + 1 := by
  cases hs : this.is_negative with
  | false =>
    obtain ⟨a1, a2, _⟩ := add_to_short_nonneg_spec this 1 hs h.1 (by decide)
    simp [to_int, a1, a2, hs]
  | true =>
    have h1 : 1 ≤ limbs_value this.value := by
      by_contra hc
      have := h.2.2 (by omega)
      rw [hs] at this
      exact absurd this (by decide)
    have := add_to_short_neg_spec this 1 hs h.1 h.2.1 (by decide) h1 h1
    simpa using this

theorem op_not_to_int (this : big_integer) (h : well_formed this) :
    to_int (op_not this) = -(to_int this + 1) := by
  rw [op_not]
  show to_int (if (!op_eq_int (add_to_short this 1) 0) = true then
      { add_to_short this 1 with is_negative := !(add_to_short this 1).is_negative }
    else add_to_short this 1) = -(to_int this + 1)
  rw [← add_to_short_one this h]
  generalize add_to_short this 1 = t
  by_cases h0 : op_eq_int t 0 = true
  · simp [h0, op_eq_int_zero_to_int t h0]
  · simp [h0, to_int_flip]

theorem eq_minus_one (x : big_integer) (h : well_formed x) (hx : to_int x = -1) :
    x = ⟨[1], true⟩ := by
  cases x with
  | mk v s =>
    obtain ⟨hb, hn, _⟩ := h
    simp only at hb hn
    cases s with
    | false => simp only [to_int, Bool.false_eq_true, if_false] at hx; omega
    | true =>
      simp only [to_int, if_true] at hx
      have hv : limbs_value v = 1 := by omega
      match v, hn, hv with
      | [], _, hv => simp [limbs_value] at hv
      | [a], _, hv =>
        simp only [limbs_value, Nat.mul_zero, Nat.add_zero] at hv
        rw [hv]
      | a :: b :: rest, hn, hv =>
        exfalso
        simp only [lv_cons] at hv
        have hbr : limbs_value (b :: rest) = 0 := by rw [lv_cons]; omega
        rcases hn with h | h | h
        · simp at h
        · simp at h
        · rw [List.getLast?_cons_cons] at h
          rcases value_zero_of_normalized (b :: rest) (Or.inr (Or.inr h)) hbr with h' | h'
          · simp at h'
          · rw [h'] at h; simp at h

/-! ## Equality of values and `operator==` -/

theorem lv_inj : ∀ (xs ys : List Nat), xs.length = ys.length → limbs_bounded xs →
    limbs_bounded ys → limbs_value xs = limbs_value ys → xs = ys := by
  intro xs
  induction xs with
  | nil =>
    intro ys hl _ _ _
    cases ys with
    | nil => rfl
    | cons y ys => simp at hl
  | cons x xs ih =>
    intro ys hl hx hy hv
    cases ys with
    | nil => simp at hl
    | cons y ys =>
      have hx0 := hx x (List.mem_cons_self _ _)
      have hy0 := hy y (List.mem_cons_self _ _)
      simp only [lv_cons] at hv
      have h1 : x = y := by omega
      have h2 : limbs_value xs = limbs_value ys := by omega
      rw [h1, ih ys (by simpa using hl) (fun z hz => hx z (List.mem_cons_of_mem _ hz))
        (fun z hz => hy z (List.mem_cons_of_mem _ hz)) h2]

theorem limbs_all_equal_refl (xs : List Nat) : limbs_all_equal xs xs = true := by
  induction xs with
  | nil => rfl
  | cons x xs ih => simp [limbs_all_equal, ih]

theorem length_le_of_value_le (v w : List Nat) (hv : limbs_bounded v) (hnw : normalized w)
    (hw0 : limbs_value w ≠ 0) (h : limbs_value w ≤ limbs_value v) : w.length ≤ v.length := by
  by_contra hlt
  have h1 := lv_lt v hv
  rcases hnw with h2 | h2 | h2
  · rw [h2] at hw0; exact hw0 rfl
  · rw [h2] at hw0; exact hw0 rfl
  · have hne : w ≠ [] := by intro hc; rw [hc] at hw0; exact hw0 rfl
    have h3 := lv_ge_of_last w hne h2
    have h4 : 4294967296 ^ v.length ≤ 4294967296 ^ (w.length - 1) :=
      Nat.pow_le_pow_right (by decide) (by omega)
    omega

theorem op_eq_of_to_int_eq (a b : big_integer) (ha : well_formed a) (hb : well_formed b)
    (h : to_int a = to_int b) : op_eq a b = true := by
  rw [op_eq]
  by_cases h0 : op_eq_int a 0 = true
  · rw [if_pos h0]
    rw [op_eq_int_zero_of_wf b hb, ← h]
    exact op_eq_int_zero_to_int a h0
  · rw [if_neg h0]
    have ha0 : to_int a ≠ 0 := fun hc => h0 ((op_eq_int_zero_of_wf a ha).mpr hc)
    have hva : limbs_value a.value ≠ 0 := fun hc => ha0 ((to_int_eq_zero_iff a).mpr hc)
    have hvb : limbs_value b.value ≠ 0 := fun hc =>
      ha0 (h ▸ (to_int_eq_zero_iff b).mpr hc)
    have hsv : a.is_negative = b.is_negative ∧ limbs_value a.value = limbs_value b.value := by
      simp only [to_int] at h
      cases hsa : a.is_negative <;> cases hsb : b.is_negative <;>
        simp only [hsa, hsb, Bool.false_eq_true, if_false, if_true] at h <;>
        first
          | exact ⟨rfl, by omega⟩
          | (exfalso; omega)
    have hlen : a.value.length = b.value.length :=
      Nat.le_antisymm
        (length_le_of_value_le b.value a.value hb.1 ha.2.1 hva (by omega))
        (length_le_of_value_le a.value b.value ha.1 hb.2.1 hvb (by omega))
    have hlist := lv_inj a.value b.value hlen ha.1 hb.1 hsv.2
    rw [if_neg (by simp [hsv.1, hlen]), hlist]
    exact limbs_all_equal_refl _

theorem op_sub_assign_equal (a b : big_integer) (ha : well_formed a) (hb : well_formed b)
    (h : to_int a = to_int b) :
    to_int (op_sub_assign a b) = 0 ∧ (op_sub_assign a b).is_negative = false := by
  have he := op_eq_of_to_int_eq a b ha hb h
  rw [op_sub_assign, op_sub_assign_aux, if_pos he]
  refine ⟨op_assign_zero_to_int a, ?_⟩
  rw [op_assign_zero]
  split
  · rename_i h0
    exact ha.2.2 (op_eq_int_zero_value a h0)
  · rfl

/-! ## The fresh-buffer schoolbook product -/

theorem spec_mul_row_spec (ai : Nat) : ∀ (prod b : List Nat) (carry : Nat),
    b.length ≤ prod.length →
    limbs_value prod + ai * limbs_value b + carry < 4294967296 ^ prod.length →
    limbs_value (spec_mul_row ai b prod carry) = limbs_value prod + ai * limbs_value b + carry ∧
    (spec_mul_row ai b prod carry).length = prod.length ∧
    limbs_bounded (spec_mul_row ai b prod carry) := by
  intro prod
  induction prod with
  | nil =>
    intro b carry hl hfit
    have hb : b = [] := List.eq_nil_of_length_eq_zero (by simpa using hl)
    subst hb
    simp only [lv_nil, List.length_nil, pow_zero, Nat.mul_zero] at hfit
    refine ⟨?_, ?_, ?_⟩
    · simp only [spec_mul_row, lv_nil]; omega
    · simp [spec_mul_row]
    · intro z hz; simp [spec_mul_row] at hz
  | cons p ps ih =>
    intro b carry hl hfit
    cases b with
    | nil =>
      simp only [lv_cons, lv_nil, Nat.mul_zero, Nat.add_zero, List.length_cons, pow_succ]
        at hfit
      have hfit2 : limbs_value ps + ai * limbs_value [] + (p + carry) / 4294967296
          < 4294967296 ^ ps.length := by
        simp only [lv_nil, Nat.mul_zero, Nat.add_zero]
        apply Nat.lt_of_lt_of_le (m := (p + carry + 4294967296 * limbs_value ps) / 4294967296 + 1)
        · omega
        · have := Nat.div_lt_of_lt_mul (m := p + carry + 4294967296 * limbs_value ps)
            (n := 4294967296) (k := 4294967296 ^ ps.length) (by omega)
          omega
      obtain ⟨r1, r2, r3⟩ := ih [] ((p + carry) / 4294967296) (by simp) hfit2
      refine ⟨?_, ?_, ?_⟩
      · simp only [spec_mul_row, lv_cons, r1, lv_nil, Nat.mul_zero, Nat.add_zero]
        omega
      · simp [spec_mul_row, r2]
      · intro z hz
        simp only [spec_mul_row] at hz
        rcases List.mem_cons.mp hz with h | h
        · rw [h]; omega
        · exact r3 z h
    | cons bj bs =>
      simp only [lv_cons, List.length_cons, pow_succ] at hfit
      have e1 : ai * (bj + 4294967296 * limbs_value bs)
          = ai * bj + 4294967296 * (ai * limbs_value bs) := by ring
      rw [e1] at hfit
      have hfit2 : limbs_value ps + ai * limbs_value bs + (p + ai * bj + carry) / 4294967296
          < 4294967296 ^ ps.length := by
        have := Nat.div_lt_of_lt_mul
          (m := p + ai * bj + carry + 4294967296 * (limbs_value ps + ai * limbs_value bs))
          (n := 4294967296) (k := 4294967296 ^ ps.length) (by omega)
        omega
      obtain ⟨r1, r2, r3⟩ := ih bs ((p + ai * bj + carry) / 4294967296)
        (by simpa using hl) hfit2
      refine ⟨?_, ?_, ?_⟩
      · simp only [spec_mul_row, lv_cons, r1, e1]
        omega
      · simp [spec_mul_row, r2]
      · intro z hz
        simp only [spec_mul_row] at hz
        rcases List.mem_cons.mp hz with h | h
        · rw [h]; omega
        · exact r3 z h

theorem spec_mul_limbs_spec (b : List Nat) (hb : limbs_bounded b) :
    ∀ (a : List Nat), limbs_bounded a →
      limbs_value (spec_mul_limbs a b) = limbs_value a * limbs_value b ∧
      (spec_mul_limbs a b).length = a.length + b.length + 1 ∧
      limbs_bounded (spec_mul_limbs a b) := by
  intro a
  induction a with
  | nil =>
    intro _
    simp only [spec_mul_limbs, lv_replicate_zero, lv_nil, Nat.zero_mul, List.length_replicate,
      List.length_nil, Nat.zero_add]
    refine ⟨trivial, trivial, fun z hz => ?_⟩
    rw [(List.mem_replicate.mp hz).2]; decide
  | cons ai as ih =>
    intro ha
    have hai : ai < 4294967296 := ha ai (List.mem_cons_self _ _)
    have has : limbs_bounded as := fun z hz => ha z (List.mem_cons_of_mem _ hz)
    obtain ⟨i1, i2, i3⟩ := ih has
    have hfit : limbs_value (0 :: spec_mul_limbs as b) + ai * limbs_value b + 0
        < 4294967296 ^ (0 :: spec_mul_limbs as b).length := by
      rw [lv_cons, i1, List.length_cons, i2]
      have h1 := lv_lt (ai :: as) ha
      have h2 := lv_lt b hb
      have h3 : limbs_value (ai :: as) * limbs_value b
          < 4294967296 ^ (ai :: as).length * 4294967296 ^ b.length :=
        Nat.mul_lt_mul'' h1 h2
      rw [lv_cons, List.length_cons] at h3
      have e1 : (ai + 4294967296 * limbs_value as) * limbs_value b
          = 4294967296 * (limbs_value as * limbs_value b) + ai * limbs_value b := by ring
      have e2 : 4294967296 ^ (as.length + b.length + 1 + 1)
          = 4294967296 ^ (as.length + 1) * 4294967296 ^ b.length * 4294967296 := by
        rw [← pow_add, ← pow_succ]; congr 1; omega
      rw [e2]
      rw [e1] at h3
      have h4 : 0 < 4294967296 ^ (as.length + 1) * 4294967296 ^ b.length :=
        Nat.mul_pos (Nat.pos_pow_of_pos _ (by decide)) (Nat.pos_pow_of_pos _ (by decide))
      omega
    obtain ⟨r1, r2, r3⟩ := spec_mul_row_spec ai (0 :: spec_mul_limbs as b) b 0
      (by rw [List.length_cons, i2]; omega) hfit
    rw [spec_mul_limbs]
    refine ⟨?_, ?_, r3⟩
    · rw [r1, lv_cons, i1, lv_cons]; ring
    · rw [r2, List.length_cons, i2, List.length_cons]; omega

theorem spec_mul_to_int (a b : big_integer) (ha : limbs_bounded a.value)
    (hb : limbs_bounded b.value) : to_int (spec_mul a b) = to_int a * to_int b := by
  rw [spec_mul]
  split
  · rename_i h
    rcases h with h | h
    · rw [h]; simp [to_int, limbs_value]
    · rw [h]; simp [to_int, limbs_value]
  · rw [skip_to_int]
    simp only [to_int, (spec_mul_limbs_spec b.value hb a.value ha).1]
    cases a.is_negative <;> cases b.is_negative <;> simp

theorem spec_mul_wf (a b : big_integer) (ha : limbs_bounded a.value)
    (hb : limbs_bounded b.value) : well_formed (spec_mul a b) := by
  rw [spec_mul]
  split
  · decide
  · rename_i h
    simp only [not_or] at h
    refine ⟨skip_bounded _ (spec_mul_limbs_spec b.value hb a.value ha).2.2,
      skip_normalized _, fun h0 => ?_⟩
    exfalso
    rw [skip_value, (spec_mul_limbs_spec b.value hb a.value ha).1] at h0
    rcases Nat.mul_eq_zero.mp h0 with h1 | h1
    · exact h.1 ((to_int_eq_zero_iff a).mpr h1)
    · exact h.2 ((to_int_eq_zero_iff b).mpr h1)

theorem op_mul_assign_wf (this rhs : big_integer) (h1 : well_formed this)
    (h2 : well_formed rhs) : well_formed (op_mul_assign this rhs) := by
  obtain ⟨m1, m2, m3, m4⟩ := op_mul_assign_spec this rhs h1 h2
  refine ⟨m2, m3, fun h0 => ?_⟩
  by_cases hz : (op_eq_int this 0 || op_eq_int rhs 0) = true
  · rw [op_mul_assign, if_pos hz, op_assign_zero]
    split
    · rename_i h
      exact h1.2.2 (op_eq_int_zero_value this h)
    · rfl
  · exfalso
    simp only [Bool.or_eq_true, not_or, Bool.not_eq_true] at hz
    have hp : to_int (op_mul_assign this rhs) = 0 := (to_int_eq_zero_iff _).mpr h0
    rw [m1] at hp
    have ha := (wf_nonzero this h1 hz.1).1
    have hb := (wf_nonzero rhs h2 hz.2).1
    rcases Int.mul_eq_zero.mp hp with h | h
    · rw [to_int_eq_zero_iff] at h; omega
    · rw [to_int_eq_zero_iff] at h; omega

/-! ## Widening from host integers -/

theorem skip_length_le (a : big_integer) :
    (skip_leading_zeros a).value.length ≤ a.value.length := by
  simp only [skip_leading_zeros, List.length_reverse]
  have := (skip_rev_length a.value.reverse).1
  simpa using this

theorem of_uint64_spec (n : Nat) (hn : n < 18446744073709551616) :
    limbs_value (of_uint64 n).value = n ∧ (of_uint64 n).is_negative = false ∧
    limbs_bounded (of_uint64 n).value ∧ normalized (of_uint64 n).value ∧
    (of_uint64 n).value.length ≤ 2 := by
  have hq : n / 4294967296 < 4294967296 := by omega
  have hpush : limbs_value (push_limbs 2 n) = n ∧ limbs_bounded (push_limbs 2 n) ∧
      (push_limbs 2 n).length ≤ 2 := by
    simp only [push_limbs]
    by_cases h1 : n / 4294967296 > 0
    · rw [if_pos h1, if_neg (by omega)]
      refine ⟨by simp only [lv_cons, lv_nil]; omega, fun z hz => ?_, by simp⟩
      simp only [List.mem_cons, List.mem_singleton, List.not_mem_nil, or_false] at hz
      rcases hz with h | h <;> omega
    · rw [if_neg h1]
      refine ⟨by simp only [lv_cons, lv_nil]; omega, fun z hz => ?_, by simp⟩
      simp only [List.mem_singleton] at hz
      omega
  rw [of_uint64]
  refine ⟨by rw [skip_value]; exact hpush.1, rfl, skip_bounded _ hpush.2.1, skip_normalized _,
    Nat.le_trans (skip_length_le _) hpush.2.2⟩

theorem of_int64_spec (a : Int) (h1 : -9223372036854775808 ≤ a)
    (h2 : a ≤ 9223372036854775807) :
    to_int (of_int64 a) = a ∧ (of_int64 a).is_negative = decide (a < 0) ∧
    well_formed (of_int64 a) ∧ (of_int64 a).value.length ≤ 2 := by
  obtain ⟨n, hn⟩ : ∃ n : Nat, n =
      (if a = -9223372036854775808 then 9223372036854775807 + 1 else a.natAbs) := ⟨_, rfl⟩
  have hnv : (n : Int) = if a < 0 then -a else a := by
    rw [hn]; split <;> split <;> omega
  obtain ⟨u1, _, u3, u4, u5⟩ := of_uint64_spec n (by omega)
  rw [of_int64, ← hn]
  refine ⟨?_, rfl, ⟨u3, u4, fun h0 => ?_⟩, u5⟩
  · simp only [to_int, u1]
    by_cases hneg : a < 0
    · simp only [hneg, decide_True, if_true] at hnv ⊢; omega
    · simp only [hneg, decide_False, Bool.false_eq_true, if_false] at hnv ⊢; omega
  · simp only at h0 ⊢
    rw [u1] at h0
    simp only [decide_eq_false_iff_not]
    intro hneg
    rw [if_pos hneg] at hnv
    omega

/-! ## Short multiplication -/

theorem mul_short_loop_spec (rhs : Nat) (hr : rhs < 4294967296) :
    ∀ (xs : List Nat) (carry : Nat), limbs_bounded xs → carry < 4294967296 →
      limbs_value (mul_short_loop rhs xs carry) = limbs_value xs * rhs + carry ∧
      limbs_bounded (mul_short_loop rhs xs carry) := by
  intro xs
  induction xs with
  | nil =>
    intro carry _ hc
    simp only [mul_short_loop]
    split
    · refine ⟨by simp only [lv_cons, lv_nil]; omega, fun z hz => ?_⟩
      simp only [List.mem_singleton] at hz
      omega
    · rename_i h
      have h0 : carry = 0 := by simpa using h
      exact ⟨by simp only [lv_nil]; omega, fun z hz => by simp at hz⟩
  | cons x xs ih =>
    intro carry hb hc
    have hx : x < 4294967296 := hb x (List.mem_cons_self _ _)
    have hxs : limbs_bounded xs := fun z hz => hb z (List.mem_cons_of_mem _ hz)
    have hpr : x * rhs ≤ 4294967295 * 4294967295 := Nat.mul_le_mul (by omega) (by omega)
    simp only [mul_short_loop]
    generalize hcur : (x * rhs + carry) % 18446744073709551616 = cur
    have hcur' : cur = x * rhs + carry := by omega
    have hm : cur / 4294967296 % 4294967296 = cur / 4294967296 := by omega
    rw [hm]
    obtain ⟨r1, r2⟩ := ih (cur / 4294967296) hxs (by omega)
    refine ⟨?_, fun z hz => ?_⟩
    · rw [lv_cons, r1, lv_cons]
      have e1 : (x + 4294967296 * limbs_value xs) * rhs
          = x * rhs + 4294967296 * (limbs_value xs * rhs) := by ring
      rw [e1]
      omega
    · rcases List.mem_cons.mp hz with h | h
      · rw [h]; omega
      · exact r2 z h

theorem mul_short_loop_last (rhs : Nat) (hr0 : 0 < rhs) (hr : rhs < 4294967296) :
    ∀ (xs : List Nat) (carry : Nat), limbs_bounded xs → carry < 4294967296 → xs ≠ [] →
      xs.getLast? ≠ some 0 → (mul_short_loop rhs xs carry).getLast? ≠ some 0 := by
  intro xs
  induction xs with
  | nil => intro _ _ _ hne; exact absurd rfl hne
  | cons x xs ih =>
    intro carry hb hc _ hlast
    have hx : x < 4294967296 := hb x (List.mem_cons_self _ _)
    have hxs : limbs_bounded xs := fun z hz => hb z (List.mem_cons_of_mem _ hz)
    have hpr : x * rhs ≤ 4294967295 * 4294967295 := Nat.mul_le_mul (by omega) (by omega)
    simp only [mul_short_loop]
    generalize hcur : (x * rhs + carry) % 18446744073709551616 = cur
    have hcur' : cur = x * rhs + carry := by omega
    have hm : cur / 4294967296 % 4294967296 = cur / 4294967296 := by omega
    rw [hm]
    match xs, ih, hlast, hxs with
    | [], _, hlast, _ =>
      have hx0 : x ≠ 0 := by simpa using hlast
      have hxr : 1 ≤ x * rhs := Nat.mul_pos (Nat.pos_of_ne_zero hx0) hr0
      simp only [mul_short_loop]
      split
      · rename_i hc2
        have : cur / 4294967296 ≠ 0 := by simpa using hc2
        simp only [List.getLast?_cons_cons, List.getLast?_singleton, ne_eq, Option.some.injEq]
        exact this
      · rename_i hc2
        have : cur / 4294967296 = 0 := by simpa using hc2
        simp only [List.getLast?_singleton, ne_eq, Option.some.injEq]
        omega
    | y :: ys, ih, hlast, hxs =>
      rw [List.getLast?_cons_cons] at hlast
      have hrec := ih (cur / 4294967296) hxs (by omega) (by simp) hlast
      have hne : mul_short_loop rhs (y :: ys) (cur / 4294967296) ≠ [] := by
        simp [mul_short_loop]
      obtain ⟨z, zs, hzs⟩ := List.exists_cons_of_ne_nil hne
      rw [hzs] at hrec ⊢
      rw [List.getLast?_cons_cons]
      exact hrec

theorem mul_to_short_spec (this : big_integer) (rhs : Nat) (hw : well_formed this)
    (hs : this.is_negative = false) (hr : rhs < 4294967296) :
    limbs_value (mul_to_short this rhs).value = limbs_value this.value * rhs ∧
    (mul_to_short this rhs).is_negative = false ∧
    well_formed (mul_to_short this rhs) := by
  rw [mul_to_short]
  by_cases hz : (op_eq_int this 0 || rhs == 0) = true
  · rw [if_pos hz, op_assign_zero]
    have hv : limbs_value this.value * rhs = 0 := by
      rcases Bool.or_eq_true _ _ ▸ hz with h | h
      · rw [op_eq_int_zero_value this h]; simp
      · have : rhs = 0 := by simpa using h
        rw [this]; simp
    split
    · rename_i h0
      exact ⟨by rw [hv]; exact op_eq_int_zero_value this h0, hs, hw⟩
    · exact ⟨by rw [hv]; rfl, rfl, by decide⟩
  · rw [if_neg hz]
    simp only [Bool.or_eq_true, not_or, Bool.not_eq_true, beq_eq_false_iff_ne] at hz
    have hr0 : 0 < rhs := Nat.pos_of_ne_zero hz.2
    obtain ⟨m1, m2⟩ := mul_short_loop_spec rhs hr this.value 0 hw.1 (by decide)
    obtain ⟨hv1, hl1⟩ := wf_nonzero this hw hz.1
    have hne : this.value ≠ [] := by intro hc; rw [hc] at hl1; simp at hl1
    have hlast : this.value.getLast? ≠ some 0 := by
      rcases hw.2.1 with h | h | h
      · exact absurd h hne
      · rw [h] at hv1; simp [limbs_value] at hv1
      · exact h
    refine ⟨by simpa using m1, hs, m2, Or.inr (Or.inr ?_), fun _ => hs⟩
    exact mul_short_loop_last rhs hr0 hr this.value 0 hw.1 (by decide) hne hlast

/-! ## Well-formedness after a short addition -/

theorem normalized_of_value_ge (v : List Nat) (hb : limbs_bounded v)
    (h : 2 ≤ v.length → 4294967296 ^ (v.length - 1) ≤ limbs_value v) : normalized v := by
  match v, hb, h with
  | [], _, _ => exact Or.inl rfl
  | [x], _, _ =>
    by_cases hx : x = 0
    · right; left; rw [hx]
    · right; right; simpa using hx
  | x :: y :: rest, hb, h =>
    right; right
    intro hc
    obtain ⟨ys, hys⟩ := List.getLast?_eq_some_iff.mp hc
    have hlen : (x :: y :: rest).length = ys.length + 1 := by rw [hys]; simp
    have h1 := h (by simp)
    rw [hlen, Nat.add_sub_cancel, hys, lv_append] at h1
    have h2 := lv_lt ys (fun z hz => hb z (by rw [hys]; exact List.mem_append_left _ hz))
    simp only [lv_cons, lv_nil, Nat.mul_zero, Nat.add_zero] at h1
    omega

theorem lv_ge_head (v : List Nat) : v.getD 0 0 ≤ limbs_value v := by
  cases v with
  | nil => simp [limbs_value]
  | cons x xs => simp only [List.getD_cons_zero, lv_cons]; omega

theorem add_to_short_nonneg_length (this : big_integer) (rhs : Nat)
    (hs : this.is_negative = false) (hb : limbs_bounded this.value) (hr : rhs < 4294967296) :
    (add_to_short this rhs).value.length ≤ 1 ∨
    (add_to_short this rhs).value.length = this.value.length ∨
    ((add_to_short this rhs).value.length = this.value.length + 1 ∧
      4294967296 ^ this.value.length ≤ limbs_value (add_to_short this rhs).value) := by
  obtain ⟨a1, _, _⟩ := add_to_short_nonneg_spec this rhs hs hb hr
  rw [a1]
  rw [add_to_short, if_neg (by rw [hs]; decide)]
  cases hv : this.value with
  | nil =>
    left
    simp [resize]
  | cons v0 rest =>
    rw [hv] at hb
    have hv0 : v0 < 4294967296 := hb v0 (List.mem_cons_self _ _)
    simp only [List.isEmpty_cons, Bool.false_eq_true, if_false, List.getD_cons_zero,
      List.length_cons, Nat.add_sub_cancel, UINT32_MAX]
    have hfd : (v0 + rhs) % 18446744073709551616 = v0 + rhs := by omega
    rw [hfd]
    by_cases hc : v0 + rhs > 4294967295
    · rw [if_pos hc]
      obtain ⟨r1, _, r3, r4⟩ := add_carry_loop_spec rest.length 1 (v0 :: rest) hb
        (by simp only [List.length_cons]; omega)
      generalize add_carry_loop rest.length 1 (v0 :: rest) = res at r1 r3 r4 ⊢
      obtain ⟨V, pending⟩ := res
      simp only at r1 r3 r4 ⊢
      have hV0 : V.getD 0 0 = v0 := by rw [r4 0 (by omega)]; rfl
      have hVge := lv_ge_head V
      rw [hV0] at hVge
      simp only [List.length_cons] at r3
      cases pending with
      | true =>
        right; right
        simp only [if_true, Nat.one_mul, lv_cons, pow_one] at r1 ⊢
        have e3 : 1 + rest.length = rest.length + 1 := by omega
        rw [e3] at r1
        refine ⟨by simp [r3], ?_⟩
        omega
      | false =>
        right; left
        simp [r3]
    · rw [if_neg hc]
      right; left
      simp

theorem add_to_short_nonneg_wf (this : big_integer) (rhs : Nat)
    (hs : this.is_negative = false) (hw : well_formed this) (hr : rhs < 4294967296) :
    well_formed (add_to_short this rhs) := by
  obtain ⟨a1, a2, a3⟩ := add_to_short_nonneg_spec this rhs hs hw.1 hr
  refine ⟨a3, normalized_of_value_ge _ a3 (fun h2 => ?_), fun _ => a2⟩
  rcases add_to_short_nonneg_length this rhs hs hw.1 hr with h | h | h
  · omega
  · rw [h, a1]
    rw [h] at h2
    have hne : this.value ≠ [] := by intro hc; rw [hc] at h2; simp at h2
    have hlast : this.value.getLast? ≠ some 0 := by
      rcases hw.2.1 with h' | h' | h'
      · exact absurd h' hne
      · rw [h'] at h2; simp at h2
      · exact h'
    have := lv_ge_of_last this.value hne hlast
    omega
  · rw [h.1, Nat.add_sub_cancel]
    exact h.2

/-! ## Decimal parse -/

theorem digit_range (c : Char) (h : not_digit c = false) : 48 ≤ c.toNat ∧ c.toNat ≤ 57 := by
  simp only [not_digit, Bool.or_eq_false_iff, decide_eq_false_iff_not] at h
  omega

theorem parse_loop_spec : ∀ (cs : List Char) (cur_digit cur_radix : Nat) (this : big_integer)
    (k : Nat), (∀ c ∈ cs, not_digit c = false) → cur_radix = 10 ^ k → k < 9 →
    cur_digit < 10 ^ k → well_formed this → this.is_negative = false →
    ∃ k', (parse_loop cs cur_digit cur_radix this).2.1 = 10 ^ k' ∧ k' < 9 ∧
      (parse_loop cs cur_digit cur_radix this).1 < 10 ^ k' ∧
      well_formed (parse_loop cs cur_digit cur_radix this).2.2 ∧
      (parse_loop cs cur_digit cur_radix this).2.2.is_negative = false ∧
      limbs_value (parse_loop cs cur_digit cur_radix this).2.2.value
          * (parse_loop cs cur_digit cur_radix this).2.1
          + (parse_loop cs cur_digit cur_radix this).1
        = cs.foldl (fun n c => 10 * n + (c.toNat - 48))
            (limbs_value this.value * cur_radix + cur_digit) := by
  intro cs
  induction cs with
  | nil =>
    intro cur_digit cur_radix this k _ hr hk hcd hw hs
    exact ⟨k, hr, hk, hcd, hw, hs, rfl⟩
  | cons c cs ih =>
    intro cur_digit cur_radix this k hds hr hk hcd hw hs
    obtain ⟨hc1, hc2⟩ := digit_range c (hds c (List.mem_cons_self _ _))
    have hcs : ∀ c ∈ cs, not_digit c = false := fun z hz => hds z (List.mem_cons_of_mem _ hz)
    have hP8 : 10 ^ k ≤ 100000000 := by
      have : 10 ^ k ≤ 10 ^ 8 := Nat.pow_le_pow_right (by decide) (by omega)
      simpa using this
    have hdig : ((((cur_digit * 10 % 4294967296 : Nat) : Int) + ((c.toNat : Int) - 48))
        % 4294967296).toNat = cur_digit * 10 + (c.toNat - 48) := by omega
    have hrad : cur_radix * 10 % 4294967296 = cur_radix * 10 := by rw [hr]; omega
    simp only [parse_loop, CHAR_RADIX, STRING_RADIX, List.foldl_cons]
    rw [hdig, hrad]
    by_cases hk8 : k = 8
    · subst hk8
      have hr8 : cur_radix = 100000000 := by rw [hr]; norm_num
      rw [if_pos (by rw [hr8])]
      have hcdlt : cur_digit * 10 + (c.toNat - 48) < 4294967296 := by omega
      obtain ⟨m1, m2, m3⟩ := mul_to_short_spec this 1000000000 hw hs (by decide)
      obtain ⟨a1, a2, _⟩ := add_to_short_nonneg_spec (mul_to_short this 1000000000)
        (cur_digit * 10 + (c.toNat - 48)) m2 m3.1 hcdlt
      have a4 := add_to_short_nonneg_wf (mul_to_short this 1000000000)
        (cur_digit * 10 + (c.toNat - 48)) m2 m3 hcdlt
      obtain ⟨k', i1, i2, i3, i4, i5, i6⟩ := ih 0 1
        (add_to_short (mul_to_short this 1000000000) (cur_digit * 10 + (c.toNat - 48))) 0 hcs
        (by norm_num) (by decide) (by norm_num) a4 a2
      refine ⟨k', i1, i2, i3, i4, i5, ?_⟩
      rw [i6, a1, m1, hr8]
      congr 1
      omega
    · have hP7 : 10 ^ k ≤ 10000000 := by
        have : 10 ^ k ≤ 10 ^ 7 := Nat.pow_le_pow_right (by decide) (by omega)
        simpa using this
      rw [if_neg (by rw [hr]; omega)]
      have hlt : cur_digit * 10 + (c.toNat - 48) < 10 ^ (k + 1) := by
        rw [pow_succ]; omega
      obtain ⟨k', i1, i2, i3, i4, i5, i6⟩ := ih (cur_digit * 10 + (c.toNat - 48))
        (cur_radix * 10) this (k + 1) hcs (by rw [hr, pow_succ]) (by omega) hlt hw hs
      refine ⟨k', i1, i2, i3, i4, i5, ?_⟩
      rw [i6]
      congr 1
      have e1 : limbs_value this.value * (cur_radix * 10)
          = 10 * (limbs_value this.value * cur_radix) := by ring
      rw [e1]
      omega

/-- The part of the string constructor after the sign has been read (lines 53-71), for the
digit characters `ds` and the flag `neg` of a leading minus. -/
theorem parse_digits_spec (ds : List Char) (hd : ∀ c ∈ ds, not_digit c = false) (neg : Bool) :
    ∃ x : big_integer,
      (match parse_loop ds 0 1 ⟨[], false⟩ with
        | (cur_digit, cur_radix, this) =>
          (let this := if cur_radix ≠ 1 then add_to_short (mul_to_short this cur_radix) cur_digit
            else this
           if op_ne this (of_int 0) = true then
             (Except.ok { this with is_negative := neg } : Except invalid_argument big_integer)
           else Except.ok this)) = Except.ok x ∧
      well_formed x ∧ limbs_value x.value = decimal_value ds ∧
      x.is_negative = (neg && decide (decimal_value ds ≠ 0)) := by
  obtain ⟨k, p1, p2, p3, p4, p5, p6⟩ := parse_loop_spec ds 0 1 ⟨[], false⟩ 0 hd (by norm_num)
    (by decide) (by norm_num) (by decide) rfl
  simp only [lv_nil, Nat.zero_mul, Nat.add_zero] at p6
  generalize parse_loop ds 0 1 ⟨[], false⟩ = res at p1 p2 p3 p4 p5 p6 ⊢
  obtain ⟨cd, cr, t⟩ := res
  simp only at p1 p2 p3 p4 p5 p6 ⊢
  have hP8 : 10 ^ k ≤ 100000000 := by
    have : 10 ^ k ≤ 10 ^ 8 := Nat.pow_le_pow_right (by decide) (by omega)
    simpa using this
  -- the bignum after the last group has been flushed
  obtain ⟨u, hu⟩ : ∃ u : big_integer, u =
      (if cr ≠ 1 then add_to_short (mul_to_short t cr) cd else t) := ⟨_, rfl⟩
  have hu_spec : well_formed u ∧ u.is_negative = false ∧
      limbs_value u.value = decimal_value ds := by
    rw [hu]
    split
    · obtain ⟨m1, m2, m3⟩ := mul_to_short_spec t cr p4 p5 (by omega)
      obtain ⟨a1, a2, _⟩ := add_to_short_nonneg_spec (mul_to_short t cr) cd m2 m3.1 (by omega)
      exact ⟨add_to_short_nonneg_wf _ _ m2 m3 (by omega), a2, by rw [a1, m1, p6]; rfl⟩
    · rename_i h1
      have hcr : cr = 1 := by
        by_contra hc; exact h1 hc
      rw [hcr] at p6
      rw [← p1, hcr] at p3
      refine ⟨p4, p5, ?_⟩
      have : decimal_value ds = limbs_value t.value * 1 + cd := p6.symm
      omega
  rw [← hu]
  obtain ⟨w1, w2, w3⟩ := hu_spec
  rw [op_ne_zero]
  by_cases h0 : op_eq_int u 0 = true
  · have hv0 : limbs_value u.value = 0 := op_eq_int_zero_value u h0
    refine ⟨u, by simp [h0], w1, w3, ?_⟩
    rw [w2, ← w3, hv0]; simp
  · have hv0 : limbs_value u.value ≠ 0 := fun hc =>
      h0 ((op_eq_int_zero_of_wf u w1).mpr ((to_int_eq_zero_iff u).mpr hc))
    refine ⟨{ u with is_negative := neg }, by simp [h0], ⟨w1.1, w1.2.1, fun hc => ?_⟩, w3, ?_⟩
    · exact absurd hc hv0
    · rw [← w3]; simp [hv0]

theorem decimal_value_head (c : Char) (ds : List Char) (h : not_digit c = false) :
    (c :: ds).head? ≠ some '+' ∧ (c :: ds).head? ≠ some '-' := by
  obtain ⟨h1, h2⟩ := digit_range c h
  constructor
  · intro hc
    simp only [List.head?_cons, Option.some.injEq] at hc
    rw [hc] at h1
    exact absurd h1 (by decide)
  · intro hc
    simp only [List.head?_cons, Option.some.injEq] at hc
    rw [hc] at h1
    exact absurd h1 (by decide)

theorem of_string_spec (pre ds : List Char) (hpre : pre = [] ∨ pre = ['+'] ∨ pre = ['-'])
    (hne : ds ≠ []) (hd : ∀ c ∈ ds, not_digit c = false) :
    ∃ x, of_string (pre ++ ds) = Except.ok x ∧ well_formed x ∧
      limbs_value x.value = decimal_value ds ∧
      x.is_negative = (decide (pre = ['-']) && decide (decimal_value ds ≠ 0)) := by
  obtain ⟨c, cs, hcs⟩ := List.exists_cons_of_ne_nil hne
  have hc : not_digit c = false := hd c (by rw [hcs]; exact List.mem_cons_self _ _)
  have hany : ds.any not_digit = false := by
    rw [List.any_eq_false]
    intro z hz
    rw [hd z hz]; decide
  have hany1 : (ds.drop 1).any not_digit = false := by
    rw [List.any_eq_false]
    intro z hz
    rw [hd z (List.mem_of_mem_drop hz)]; decide
  rcases hpre with h | h | h
  · subst h
    obtain ⟨x, hx, hrest⟩ := parse_digits_spec ds hd false
    refine ⟨x, ?_, by simpa using hrest⟩
    obtain ⟨g1, g2⟩ := decimal_value_head c cs hc
    rw [← hcs] at g1 g2
    have hsign : decide (ds.head? = some '+' ∨ ds.head? = some '-') = false := by
      simp [g1, g2]
    have hminus : decide (ds.head? = some '-') = false := by simp [g2]
    simp only [of_string, List.nil_append, hany1, Bool.false_eq_true, if_false, hsign,
      false_and, List.drop_zero, hminus]
    rw [if_neg (by rw [hcs]; simp)]
    exact hx
  · subst h
    obtain ⟨x, hx, hrest⟩ := parse_digits_spec ds hd false
    refine ⟨x, ?_, by simpa using hrest⟩
    have hlen : ¬ (['+'] ++ ds).length = 1 := by rw [hcs]; simp
    simp only [of_string, List.singleton_append, List.drop_succ_cons, List.drop_zero, hany,
      Bool.false_eq_true, if_false, List.isEmpty_cons, List.head?_cons]
    simp only [List.singleton_append] at hlen
    simp only [hlen, and_false, if_false]
    simpa using hx
  · subst h
    obtain ⟨x, hx, hrest⟩ := parse_digits_spec ds hd true
    refine ⟨x, ?_, by simpa using hrest⟩
    have hlen : ¬ (['-'] ++ ds).length = 1 := by rw [hcs]; simp
    simp only [of_string, List.singleton_append, List.drop_succ_cons, List.drop_zero, hany,
      Bool.false_eq_true, if_false, List.isEmpty_cons, List.head?_cons]
    simp only [List.singleton_append] at hlen
    simp only [hlen, and_false, if_false]
    simpa using hx

/-! ## Decimal digit strings -/

theorem decimal_fold_acc (ds : List Char) (acc : Nat) :
    ds.foldl (fun n c => 10 * n + (c.toNat - 48)) acc
      = acc * 10 ^ ds.length + decimal_value ds := by
  induction ds generalizing acc with
  | nil => simp [decimal_value]
  | cons c cs ih =>
    simp only [List.foldl_cons, decimal_value, List.length_cons]
    rw [ih (10 * acc + (c.toNat - 48)), ih (10 * 0 + (c.toNat - 48)), pow_succ]
    simp only [decimal_value]
    ring

theorem decimal_value_append (a b : List Char) :
    decimal_value (a ++ b) = decimal_value a * 10 ^ b.length + decimal_value b := by
  simp only [decimal_value, List.foldl_append]
  rw [decimal_fold_acc b]
  rfl

theorem decimal_value_zeros (n : Nat) (ds : List Char) :
    decimal_value (List.replicate n '0' ++ ds) = decimal_value ds := by
  induction n with
  | zero => rfl
  | succ n ih =>
    rw [List.replicate_succ, List.cons_append]
    have : decimal_value ('0' :: (List.replicate n '0' ++ ds))
        = decimal_value (List.replicate n '0' ++ ds) := by
      simp only [decimal_value, List.foldl_cons]
      rfl
    rw [this, ih]

theorem char_of_digit (d : Nat) (h : d < 10) :
    (Char.ofNat (48 + d)).toNat = 48 + d ∧ not_digit (Char.ofNat (48 + d)) = false := by
  interval_cases d <;> exact ⟨rfl, rfl⟩

theorem uint_digits_rev_spec : ∀ (fuel n k : Nat), n < 10 ^ k → 1 ≤ k → k ≤ fuel →
    (uint_digits_rev fuel n).length ≤ k ∧
    decimal_value (uint_digits_rev fuel n).reverse = n ∧
    (∀ c ∈ uint_digits_rev fuel n, not_digit c = false) := by
  intro fuel
  induction fuel with
  | zero => intro n k _ h1 h2; omega
  | succ fuel ih =>
    intro n k hn h1 h2
    obtain ⟨c1, c2⟩ := char_of_digit (n % 10) (Nat.mod_lt _ (by decide))
    rw [uint_digits_rev]
    by_cases h0 : n / 10 = 0
    · rw [if_pos h0]
      refine ⟨by simp only [List.length_singleton]; omega, ?_, fun c hc => ?_⟩
      · simp only [List.reverse_singleton, decimal_value, List.foldl_cons, List.foldl_nil, c1]
        omega
      · rw [List.mem_singleton.mp hc]; exact c2
    · rw [if_neg h0]
      have hk2 : 2 ≤ k := by
        by_contra hc
        have hk1 : k = 1 := by omega
        rw [hk1] at hn
        simp only [pow_one] at hn
        omega
      have hdiv : n / 10 < 10 ^ (k - 1) := by
        apply Nat.div_lt_of_lt_mul
        have : 10 ^ k = 10 * 10 ^ (k - 1) := by
          rw [← pow_succ']; congr 1; omega
        omega
      obtain ⟨i1, i2, i3⟩ := ih (n / 10) (k - 1) hdiv (by omega) (by omega)
      refine ⟨by simp only [List.length_cons]; omega, ?_, fun c hc => ?_⟩
      · rw [List.reverse_cons, decimal_value_append, i2]
        simp only [List.length_singleton, pow_one, decimal_value, List.foldl_cons,
          List.foldl_nil, c1]
        omega
      · rcases List.mem_cons.mp hc with h | h
        · rw [h]; exact c2
        · exact i3 c h

theorem render_group_spec (n : Nat) (hn : n < 1000000000) :
    (resize_chars (uint_digits_rev 10 n) 9 '0').length = 9 ∧
    decimal_value (resize_chars (uint_digits_rev 10 n) 9 '0').reverse = n ∧
    (∀ c ∈ resize_chars (uint_digits_rev 10 n) 9 '0', not_digit c = false) := by
  obtain ⟨u1, u2, u3⟩ := uint_digits_rev_spec 10 n 9 (by norm_num; exact hn) (by decide)
    (by decide)
  rw [resize_chars, List.take_of_length_le u1]
  refine ⟨by simp only [List.length_append, List.length_replicate]; omega, ?_, fun c hc => ?_⟩
  · rw [List.reverse_append, List.reverse_replicate, decimal_value_zeros, u2]
  · rcases List.mem_append.mp hc with h | h
    · exact u3 c h
    · rw [(List.mem_replicate.mp h).2]; rfl

/-! ## Decimal render -/

theorem op_gt_zero (cur : big_integer) (hs : cur.is_negative = false)
    (hb : limbs_bounded cur.value) (hn : normalized cur.value) :
    op_gt cur (of_int 0) = decide (0 < limbs_value cur.value) := by
  rw [of_int_zero, op_gt, op_lt]
  simp only [hs, bne_self_eq_false, Bool.false_eq_true, if_false, List.length_singleton,
    Bool.bne_false]
  match hv : cur.value, hn, hb with
  | [], _, _ => simp [limbs_value]
  | [x], _, _ =>
    by_cases hx : x = 0
    · simp [lt_loop, limbs_value, hx]
    · have hne : (0 != x) = true := by
        simp only [bne_iff_ne, ne_eq]; omega
      simp only [List.length_singleton, bne_self_eq_false, Bool.false_eq_true, if_false,
        List.reverse_singleton, lt_loop, hne, if_true, Bool.bne_false, limbs_value]
      simp
  | x :: y :: rest, hn, hb =>
    have hlast : (x :: y :: rest).getLast? ≠ some 0 := by
      rcases hn with h | h | h
      · simp at h
      · simp at h
      · exact h
    have hge := lv_ge_of_last (x :: y :: rest) (by simp) hlast
    have hpos : 0 < 4294967296 ^ ((x :: y :: rest).length - 1) := Nat.pos_pow_of_pos _ (by decide)
    have hlen : (1 != (x :: y :: rest).length) = true := by
      simp only [List.length_cons, bne_iff_ne, ne_eq]; omega
    rw [if_pos hlen]
    have h1 : 1 < (x :: y :: rest).length := by simp only [List.length_cons]; omega
    simp only [h1, decide_True]
    symm
    rw [decide_eq_true_iff]
    omega

theorem mod_to_short_limb (cur : big_integer) (rhs : Nat) (hb : limbs_bounded cur.value)
    (h0 : 0 < rhs) (hlt : rhs < 4294967296) (hz : op_eq_int cur 0 = false) :
    (mod_to_short cur rhs).value.getD 0 0 = limbs_value cur.value % rhs := by
  obtain ⟨_, e2, _⟩ := div_short_value rhs h0 hlt cur.value hb
  rw [mod_to_short, if_neg (by rw [hz]; decide)]
  simp only [e2]
  split <;> rfl

theorem div_to_short_nonneg (cur : big_integer) (rhs : Nat) (hs : cur.is_negative = false)
    (hb : limbs_bounded cur.value) (hn : normalized cur.value) (h0 : 0 < rhs)
    (hlt : rhs < 4294967296) :
    limbs_value (div_to_short cur rhs).value = limbs_value cur.value / rhs ∧
    (div_to_short cur rhs).is_negative = false ∧
    limbs_bounded (div_to_short cur rhs).value ∧ normalized (div_to_short cur rhs).value := by
  obtain ⟨d1, d2, d3⟩ := div_to_short_spec cur rhs hb h0 hlt
  have hsign : (div_to_short cur rhs).is_negative = false := by
    rw [div_to_short]
    split
    · exact hs
    · simp only
      split
      · rfl
      · rw [skip_sign]; exact hs
  refine ⟨?_, hsign, d2, d3 hn⟩
  simp only [to_int, hsign, hs, Bool.false_eq_true, if_false] at d1
  rw [← Int.ofNat_tdiv] at d1
  exact_mod_cast d1

theorem render_loop_spec : ∀ (fuel : Nat) (cur : big_integer) (result : List Char),
    cur.is_negative = false → limbs_bounded cur.value → normalized cur.value →
    limbs_value cur.value < 1000000000 ^ fuel →
    (∀ c ∈ result, not_digit c = false) →
    decimal_value (render_loop (fuel + 1) cur result).reverse
      = limbs_value cur.value * 10 ^ result.length + decimal_value result.reverse ∧
    (∀ c ∈ render_loop (fuel + 1) cur result, not_digit c = false) := by
  intro fuel
  induction fuel with
  | zero =>
    intro cur result hs hb hn hv hd
    simp only [pow_zero, Nat.lt_one_iff] at hv
    rw [render_loop, op_gt_zero cur hs hb hn, hv]
    simp only [lt_self_iff_false, decide_False, Bool.false_eq_true, if_false, Nat.zero_mul,
      Nat.zero_add]
    exact ⟨trivial, hd⟩
  | succ fuel ih =>
    intro cur result hs hb hn hv hd
    rw [render_loop, op_gt_zero cur hs hb hn]
    by_cases hpos : 0 < limbs_value cur.value
    · simp only [hpos, decide_True, if_true]
      have hz : op_eq_int cur 0 = false := by
        cases h : op_eq_int cur 0
        · rfl
        · have := op_eq_int_zero_value cur h; omega
      rw [STRING_RADIX, mod_to_short_limb cur 1000000000 hb (by decide) (by decide) hz]
      obtain ⟨g1, g2, g3⟩ := render_group_spec (limbs_value cur.value % 1000000000)
        (Nat.mod_lt _ (by decide))
      obtain ⟨q1, q2, q3, q4⟩ := div_to_short_nonneg cur 1000000000 hs hb hn (by decide)
        (by decide)
      have hq : limbs_value (div_to_short cur 1000000000).value < 1000000000 ^ fuel := by
        rw [q1]
        apply Nat.div_lt_of_lt_mul
        rw [pow_succ] at hv
        rw [Nat.mul_comm]; exact hv
      obtain ⟨i1, i2⟩ := ih (div_to_short cur 1000000000)
        (result ++ resize_chars (uint_digits_rev 10 (limbs_value cur.value % 1000000000)) 9 '0')
        q2 q3 q4 hq
        (fun c hc => by
          rcases List.mem_append.mp hc with h | h
          · exact hd c h
          · exact g3 c h)
      refine ⟨?_, i2⟩
      rw [i1, q1, List.reverse_append, decimal_value_append, g2, List.length_append, g1,
        List.length_reverse, pow_add]
      have hdm := Nat.div_add_mod (limbs_value cur.value) 1000000000
      generalize limbs_value cur.value / 1000000000 = q at hdm ⊢
      generalize limbs_value cur.value % 1000000000 = r at hdm ⊢
      rw [← hdm]
      norm_num
      ring
    · simp only [hpos, decide_False, Bool.false_eq_true, if_false]
      have : limbs_value cur.value = 0 := by omega
      rw [this]
      simp only [Nat.zero_mul, Nat.zero_add]
      exact ⟨trivial, hd⟩

theorem pop_zero_value (l : List Char) :
    decimal_value (pop_zero_chars_rev l) = decimal_value l := by
  induction l using pop_zero_chars_rev.induct with
  | case1 => rfl
  | case2 c => rfl
  | case3 d rest ih =>
    rw [pop_zero_chars_rev, if_pos rfl, ih]
    simp only [decimal_value, List.foldl_cons]
    rfl
  | case4 c d rest hc => rw [pop_zero_chars_rev, if_neg hc]

theorem pop_zero_mem (l : List Char) : ∀ c ∈ pop_zero_chars_rev l, c ∈ l := by
  induction l using pop_zero_chars_rev.induct with
  | case1 => intro c hc; exact hc
  | case2 c => intro z hz; exact hz
  | case3 d rest ih =>
    intro z hz
    rw [pop_zero_chars_rev, if_pos rfl] at hz
    exact List.mem_cons_of_mem _ (ih z hz)
  | case4 c d rest hc =>
    intro z hz
    rw [pop_zero_chars_rev, if_neg hc] at hz
    exact hz

theorem pop_zero_ne_nil (l : List Char) (h : l ≠ []) : pop_zero_chars_rev l ≠ [] := by
  induction l using pop_zero_chars_rev.induct with
  | case1 => exact absurd rfl h
  | case2 c => simp [pop_zero_chars_rev]
  | case3 d rest ih =>
    rw [pop_zero_chars_rev, if_pos rfl]
    exact ih (by simp)
  | case4 c d rest hc =>
    rw [pop_zero_chars_rev, if_neg hc]
    simp

theorem pop_zero_head (l : List Char) (h : (pop_zero_chars_rev l).head? = some '0') :
    pop_zero_chars_rev l = ['0'] := by
  induction l using pop_zero_chars_rev.induct with
  | case1 => simp [pop_zero_chars_rev] at h
  | case2 c =>
    simp only [pop_zero_chars_rev, List.head?_cons, Option.some.injEq] at h
    rw [pop_zero_chars_rev, h]
  | case3 d rest ih =>
    rw [pop_zero_chars_rev, if_pos rfl] at h ⊢
    exact ih h
  | case4 c d rest hc =>
    rw [pop_zero_chars_rev, if_neg hc] at h
    simp only [List.head?_cons, Option.some.injEq] at h
    exact absurd h hc

theorem value_lt_render_bound (v : List Nat) (hb : limbs_bounded v) :
    limbs_value v < 1000000000 ^ (2 * v.length) := by
  have h1 := lv_lt v hb
  have h2 : 4294967296 ^ v.length ≤ (1000000000 ^ 2) ^ v.length :=
    Nat.pow_le_pow_left (by norm_num) _
  rw [← pow_mul] at h2
  omega

theorem to_string_spec (x : big_integer) (hw : well_formed x) :
    ∃ ds, to_string x = (if x.is_negative then ['-'] else []) ++ ds ∧ ds ≠ [] ∧
      (∀ c ∈ ds, not_digit c = false) ∧ decimal_value ds = limbs_value x.value ∧
      (limbs_value x.value = 0 → ds = ['0']) ∧
      (limbs_value x.value ≠ 0 → ds.head? ≠ some '0') := by
  rw [to_string]
  by_cases hz : op_eq_int x 0 = true
  · have hv := op_eq_int_zero_value x hz
    rw [if_pos hz, hw.2.2 hv, hv]
    exact ⟨['0'], rfl, by simp, fun c hc => by rw [List.mem_singleton.mp hc]; rfl, rfl,
      fun _ => rfl, fun h => absurd rfl h⟩
  · rw [if_neg hz]
    have hv : limbs_value x.value ≠ 0 := fun hc =>
      hz ((op_eq_int_zero_of_wf x hw).mpr ((to_int_eq_zero_iff x).mpr hc))
    obtain ⟨r1, r2⟩ := render_loop_spec (2 * x.value.length) { x with is_negative := false } []
      rfl hw.1 hw.2.1 (value_lt_render_bound x.value hw.1) (fun c hc => by simp at hc)
    simp only [List.length_nil, pow_zero, Nat.mul_one, List.reverse_nil, decimal_value,
      List.foldl_nil, Nat.add_zero] at r1
    dsimp only
    generalize render_loop (2 * x.value.length + 1) { x with is_negative := false } [] = raw
      at r1 r2 ⊢
    have hrawne : raw.reverse ≠ [] := by
      intro hc
      rw [hc] at r1
      simp only [List.foldl_nil] at r1
      exact hv r1.symm
    refine ⟨pop_zero_chars_rev raw.reverse, ?_, pop_zero_ne_nil _ hrawne, ?_, ?_, ?_, ?_⟩
    · cases x.is_negative <;> simp
    · intro c hc
      exact r2 c (by simpa using pop_zero_mem _ c hc)
    · rw [pop_zero_value]; exact r1
    · intro h0; exact absurd h0 hv
    · intro _ hc
      have h1 := pop_zero_head _ hc
      have h2 := pop_zero_value raw.reverse
      rw [h1] at h2
      have h3 : decimal_value raw.reverse = limbs_value x.value := r1
      rw [← h2] at h3
      exact hv h3.symm

/-! ## Memory safety of long multiplication -/

theorem mul_inner_checked_eq (p cd : Nat) (b : List Nat) (hb : limbs_bounded b)
    (hcd : cd < 4294967296) :
    ∀ (k j c : Nat) (V : List Nat), 1 ≤ j → c < 4294967296 → limbs_bounded V →
      p + b.length < V.length → V.length + 1 ≤ k + p + j →
      limbs_value V + c * 4294967296 ^ (p + j)
          + cd * limbs_value (b.drop j) * 4294967296 ^ (p + j) < 4294967296 ^ (V.length - 1) →
      mul_inner_loop_checked (p + 1) cd b k j c V = some (mul_inner_loop (p + 1) cd b k j c V) := by
  intro k
  induction k with
  | zero =>
    intro j c V hj _ hV hpl hk hT
    have hj2 : b.length ≤ j := by omega
    have hc0 : c = 0 := by
      by_contra hne
      have h1 : 4294967296 ^ (V.length - 1) ≤ 4294967296 ^ (p + j) :=
        Nat.pow_le_pow_right (by decide) (by omega)
      have h2 : 4294967296 ^ (p + j) ≤ c * 4294967296 ^ (p + j) :=
        Nat.le_mul_of_pos_left _ (by omega)
      omega
    rw [mul_inner_loop_checked, mul_inner_loop, if_neg (by omega)]
  | succ k ih =>
    intro j c V hj hc hV hpl hk hT
    have hidx : p + 1 + j - 1 = p + j := by omega
    simp only [mul_inner_loop, mul_inner_loop_checked, hidx]
    by_cases hcond : j < b.length ∨ c > 0
    · rw [if_pos hcond, if_pos hcond]
      have hq : p + j < V.length := by
        rcases hcond with h | h
        · omega
        · by_contra hge
          have h1 : 4294967296 ^ (V.length - 1) ≤ 4294967296 ^ (p + j) :=
            Nat.pow_le_pow_right (by decide) (by omega)
          have h2 : 4294967296 ^ (p + j) ≤ c * 4294967296 ^ (p + j) :=
            Nat.le_mul_of_pos_left _ h
          omega
      have hvq := getD_lt V hV (p + j)
      have hbj := getD_lt b hb j
      have hpr : cd * b.getD j 0 ≤ 4294967295 * 4294967295 :=
        Nat.mul_le_mul (by omega) (by omega)
      have hmask : (if j < b.length then
          (c + cd * b.getD j 0 % 18446744073709551616) % 18446744073709551616 else c)
          = c + cd * b.getD j 0 := by
        split
        · omega
        · rw [List.getD_eq_default b 0 (by omega)]; simp
      have hexact : (if j < b.length then c + cd * b.getD j 0 else c)
          = c + cd * b.getD j 0 := by
        split
        · rfl
        · rw [List.getD_eq_default b 0 (by omega)]; simp
      rw [hmask, hexact, if_pos (by omega : j > 0), if_pos (by omega : j > 0)]
      have hfit : c + cd * b.getD j 0 + V.getD (p + j) 0 < 18446744073709551616 := by omega
      rw [if_pos ⟨by omega, hq, hfit⟩, Nat.mod_eq_of_lt hfit]
      generalize hcur : c + cd * b.getD j 0 + V.getD (p + j) 0 = cur at hfit ⊢
      obtain ⟨limb, hlimb⟩ : ∃ limb : Nat, limb = cur % 4294967296 := ⟨_, rfl⟩
      obtain ⟨c2, hc2⟩ : ∃ c2 : Nat, c2 = cur / 4294967296 % 4294967296 := ⟨_, rfl⟩
      rw [← hlimb, ← hc2]
      have hlimblt : limb < 4294967296 := by omega
      have hc2lt : c2 < 4294967296 := by omega
      have hstep : limb + c2 * 4294967296 = c + cd * b.getD j 0 + V.getD (p + j) 0 := by omega
      have e1 := lv_set V (p + j) limb hq
      have e2 := lv_drop_succ b j
      have e3 : limb * 4294967296 ^ (p + j) + c2 * 4294967296 ^ (p + (j + 1))
          = (c + cd * b.getD j 0 + V.getD (p + j) 0) * 4294967296 ^ (p + j) := by
        rw [← hstep, ← Nat.add_assoc, pow_succ]; ring
      have hT' : limbs_value (V.set (p + j) limb) + c2 * 4294967296 ^ (p + (j + 1))
          + cd * limbs_value (b.drop (j + 1)) * 4294967296 ^ (p + (j + 1))
          = limbs_value V + c * 4294967296 ^ (p + j)
            + cd * limbs_value (b.drop j) * 4294967296 ^ (p + j) := by
        rw [e2]
        have e4 : 4294967296 ^ (p + (j + 1)) = 4294967296 ^ (p + j) * 4294967296 := by
          rw [← Nat.add_assoc, pow_succ]
        rw [e4] at e3 ⊢
        generalize 4294967296 ^ (p + j) = X at e1 e3 ⊢
        generalize limbs_value (b.drop (j + 1)) = D
        generalize limbs_value (V.set (p + j) limb) = W at e1 ⊢
        have e5 : cd * (b.getD j 0 + 4294967296 * D) * X
            = cd * b.getD j 0 * X + cd * D * (X * 4294967296) := by ring
        have e6 : (c + cd * b.getD j 0 + V.getD (p + j) 0) * X
            = c * X + cd * b.getD j 0 * X + V.getD (p + j) 0 * X := by ring
        rw [e5]
        rw [e6] at e3
        omega
      exact ih (j + 1) c2 (V.set (p + j) limb) (by omega) hc2lt
        (set_bounded V hV _ _ hlimblt) (by rw [List.length_set]; exact hpl)
        (by rw [List.length_set]; omega) (by rw [List.length_set, hT']; exact hT)
    · rw [if_neg hcond, if_neg hcond]
theorem mul_outer_checked_eq (a b : List Nat) (ha : limbs_bounded a) (hb : limbs_bounded b)
    (hb1 : 1 ≤ b.length) (hbv : 1 ≤ limbs_value b) :
    ∀ (i : Nat) (V : List Nat), i ≤ a.length → V.length = a.length + b.length + 1 →
      limbs_bounded V → (∀ idx, idx < i → V.getD idx 0 = a.getD idx 0) →
      limbs_value V + limbs_value (a.take i) * limbs_value b
        = limbs_value (a.take i) + limbs_value a * limbs_value b →
      mul_outer_loop_checked b i V = some (mul_outer_loop b i V) := by
  intro i
  induction i with
  | zero =>
    intro V _ _ _ _ _
    rfl
  | succ p ih =>
    intro V hp hL hV hlow hinv
    have hcd : V.getD p 0 = a.getD p 0 := hlow p (by omega)
    have hap := getD_lt a ha p
    have hb0 := getD_lt b hb 0
    have hpr : a.getD p 0 * b.getD 0 0 ≤ 4294967295 * 4294967295 :=
      Nat.mul_le_mul (by omega) (by omega)
    have hpV : p < V.length := by omega
    rw [mul_outer_loop_checked, if_pos hpV, mul_outer_loop, hcd, mul_inner_loop,
      mul_inner_loop_checked, if_pos (Or.inl (by omega)), if_pos (Or.inl (by omega))]
    simp only [if_pos (show 0 < b.length by omega), lt_self_iff_false, if_false, Nat.zero_add,
      Nat.add_zero, Nat.add_sub_cancel, gt_iff_lt]
    have hfit : a.getD p 0 * b.getD 0 0 < 18446744073709551616 := by omega
    rw [if_pos ⟨by omega, hpV, hfit⟩, Nat.mod_eq_of_lt hfit, Nat.mod_eq_of_lt hfit]
    generalize hcur : a.getD p 0 * b.getD 0 0 = cur at hfit ⊢
    obtain ⟨limb, hlimb⟩ : ∃ limb : Nat, limb = cur % 4294967296 := ⟨_, rfl⟩
    obtain ⟨c1, hc1⟩ : ∃ c1 : Nat, c1 = cur / 4294967296 % 4294967296 := ⟨_, rfl⟩
    rw [← hlimb, ← hc1]
    have hlimblt : limb < 4294967296 := by omega
    have hc1lt : c1 < 4294967296 := by omega
    have hstep : limb + c1 * 4294967296 = a.getD p 0 * b.getD 0 0 := by omega
    have e1 := lv_set V p limb hpV
    rw [hcd] at e1
    have e3 : limbs_value b = b.getD 0 0 + 4294967296 * limbs_value (b.drop 1) := by
      have := lv_drop_succ b 0
      simpa using this
    have e4 := lv_take_succ a p
    rw [e4] at hinv
    have hab : limbs_value a * limbs_value b
        < 4294967296 ^ ((V.set p limb).length - 1) := by
      rw [List.length_set, hL, Nat.add_sub_cancel, pow_add]
      exact Nat.mul_lt_mul'' (lv_lt a ha) (lv_lt b hb)
    have hT : limbs_value (V.set p limb) + c1 * 4294967296 ^ (p + 1)
          + a.getD p 0 * limbs_value (b.drop 1) * 4294967296 ^ (p + 1)
          + limbs_value (a.take p) * limbs_value b
        = limbs_value (a.take p) + limbs_value a * limbs_value b := by
      rw [pow_succ]
      generalize 4294967296 ^ p = X at e1 hinv ⊢
      generalize limbs_value (V.set p limb) = W at e1 ⊢
      generalize limbs_value (b.drop 1) = D at e3 ⊢
      generalize limbs_value (a.take p) = A at hinv ⊢
      generalize limbs_value a = va at hinv ⊢
      generalize limbs_value V = VV at e1 hinv
      generalize a.getD p 0 = ap at hstep e1 hinv ⊢
      generalize b.getD 0 0 = b0 at hstep e3
      have h1 : limb * X + c1 * (X * 4294967296) = ap * b0 * X := by rw [← hstep]; ring
      have h2 : (A + ap * X) * limbs_value b = A * limbs_value b + ap * b0 * X
          + ap * D * (X * 4294967296) := by rw [e3]; ring
      rw [h2] at hinv
      omega
    have hle : limbs_value (a.take p) ≤ limbs_value (a.take p) * limbs_value b :=
      Nat.le_mul_of_pos_right _ hbv
    have hsafe := mul_inner_checked_eq p (a.getD p 0) b hb hap V.length 1 c1
      (V.set p limb) (le_refl _) hc1lt (set_bounded V hV _ _ hlimblt)
      (by rw [List.length_set]; omega) (by rw [List.length_set]; omega) (by omega)
    obtain ⟨r1, r2, r3, r4⟩ := mul_inner_spec p (a.getD p 0) b hb hap V.length 1 c1
      (V.set p limb) (le_refl _) hc1lt (set_bounded V hV _ _ hlimblt)
      (by rw [List.length_set]; omega) (by rw [List.length_set]; omega) (by omega)
    rw [List.length_set] at r1
    rw [hsafe]
    apply ih _ (by omega) (by rw [r1, hL]) r2
    · intro idx hidx
      rw [r3 idx (by omega), getD_set_ne V p idx limb (by omega)]
      exact hlow idx (by omega)
    · rw [r4]; exact hT

theorem op_mul_assign_checked_eq (this rhs : big_integer) (h1 : well_formed this)
    (h2 : well_formed rhs) :
    op_mul_assign_checked this rhs = some (op_mul_assign this rhs) := by
  rw [op_mul_assign_checked, op_mul_assign]
  by_cases hz : (op_eq_int this 0 || op_eq_int rhs 0) = true
  · rw [if_pos hz, if_pos hz]
  · rw [if_neg hz, if_neg hz]
    simp only [Bool.or_eq_true, not_or, Bool.not_eq_true] at hz
    obtain ⟨hbv, hbl⟩ := wf_nonzero rhs h2 hz.2
    have r := mul_outer_checked_eq this.value rhs.value h1.1 h2.1 hbl hbv
      this.value.length (resize this.value (this.value.length + rhs.value.length + 1) 0)
      (le_refl _) (resize_length _ _ _) (resize_bounded _ _ _ h1.1 (by decide))
      (fun idx hidx => resize_getD_low _ _ _ _ hidx (by omega))
      (by rw [resize_value _ _ (by omega), List.take_of_length_le (le_refl _)])
    simp only [r]

/-! ## Normalisation of the divisor -/

theorem getLastD_eq_getD (v : List Nat) : v.getLastD 0 = v.getD (v.length - 1) 0 := by
  induction v with
  | nil => rfl
  | cons x xs ih =>
    match xs, ih with
    | [], _ => rfl
    | y :: ys, ih =>
      simp only [List.getLastD_cons, List.length_cons, Nat.add_sub_cancel,
        List.getD_cons_succ] at ih ⊢
      exact ih

theorem lv_top_bounds (v : List Nat) (hb : limbs_bounded v) (hne : v ≠ []) :
    v.getD (v.length - 1) 0 * 4294967296 ^ (v.length - 1) ≤ limbs_value v ∧
    limbs_value v < (v.getD (v.length - 1) 0 + 1) * 4294967296 ^ (v.length - 1) := by
  obtain ⟨n, hn⟩ : ∃ n, v.length = n + 1 := by
    cases v with
    | nil => exact absurd rfl hne
    | cons x xs => exact ⟨xs.length, rfl⟩
  have e1 := lv_take_succ v n
  rw [lv_take_all v (n + 1) (by omega)] at e1
  have e2 : limbs_value (v.take n) < 4294967296 ^ n := by
    have := lv_lt (v.take n) (fun x hx => hb x (List.mem_of_mem_take hx))
    rwa [List.length_take, Nat.min_eq_left (by omega)] at this
  rw [hn, Nat.add_sub_cancel, e1, Nat.add_mul]
  omega

theorem trial_factor_bound (t : Nat) (h1 : 1 ≤ t) (h2 : t < 4294967295) :
    1 ≤ 4294967296 / (t + 1) ∧ 4294967296 / (t + 1) ≤ 2147483648 ∧
    (t + 1) * (4294967296 / (t + 1)) ≤ 4294967296 ∧
    2147483648 ≤ t * (4294967296 / (t + 1)) := by
  have hdm := Nat.div_add_mod 4294967296 (t + 1)
  have hmod : 4294967296 % (t + 1) < t + 1 := Nat.mod_lt _ (by omega)
  generalize 4294967296 / (t + 1) = f at hdm ⊢
  generalize 4294967296 % (t + 1) = r at hdm hmod
  have hexp : (t + 1) * f = t * f + f := by ring
  rw [hexp] at hdm ⊢
  have hf1 : 1 ≤ f := by
    by_contra hc
    have : f = 0 := by omega
    rw [this] at hdm
    simp at hdm
    omega
  have htf : t ≤ t * f := Nat.le_mul_of_pos_right t hf1
  have hf2 : f ≤ 2147483648 := by
    have : f ≤ t * f := Nat.le_mul_of_pos_left f h1
    omega
  refine ⟨hf1, hf2, by omega, ?_⟩
  by_cases hbig : 2147483648 ≤ t
  · omega
  · by_contra hc
    obtain ⟨s, hs⟩ : ∃ s, 2147483648 = t + s := ⟨2147483648 - t, by omega⟩
    have hf3 : s + 1 ≤ f := by omega
    have h3 : t * (s + 1) ≤ t * f := Nat.mul_le_mul_left t hf3
    have h4 : s ≤ t * s := Nat.le_mul_of_pos_left s h1
    have h5 : t * (s + 1) = t * s + t := by ring
    omega
theorem natAbs_to_int (a : big_integer) : (to_int a).natAbs = limbs_value a.value := by
  simp only [to_int]
  split <;> simp

theorem normalization_spec (b : big_integer) (hw : well_formed b) (hl : 2 ≤ b.value.length)
    (ht : b.value.getLastD 0 ≠ 4294967295) :
    (b.value.getLastD 0 + 1) % 4294967296 ≠ 0 ∧
    ∀ f, f = (RADIX / ((b.value.getLastD 0 + 1) % 4294967296)) % 4294967296 →
      (op_mul b (of_uint32 f)).value.length = b.value.length ∧
      2147483648 ≤ (op_mul b (of_uint32 f)).value.getD (b.value.length - 1) 0 := by
  rw [getLastD_eq_getD] at ht ⊢
  have ht0 := getD_last_ne_zero b.value hw.2.1 hl
  have htlt := getD_lt b.value hw.1 (b.value.length - 1)
  have hbne : b.value ≠ [] := by
    intro hc; rw [hc] at hl; simp at hl
  obtain ⟨hlo, hhi⟩ := lv_top_bounds b.value hw.1 hbne
  generalize b.value.getD (b.value.length - 1) 0 = t at ht ht0 htlt hlo hhi ⊢
  have hden : (t + 1) % 4294967296 = t + 1 := Nat.mod_eq_of_lt (by omega)
  rw [hden]
  refine ⟨by omega, ?_⟩
  intro f hf
  simp only [RADIX] at hf
  obtain ⟨f1, f2, f3, f4⟩ := trial_factor_bound t (by omega) (by omega)
  rw [Nat.mod_eq_of_lt (by omega)] at hf
  rw [← hf] at f1 f2 f3 f4
  obtain ⟨u1, u2, u3, u4, _⟩ := of_uint64_spec f (by omega)
  have hwf : well_formed (of_uint32 f) := ⟨u3, u4, fun _ => u2⟩
  obtain ⟨m1, m2, m3, _⟩ := op_mul_assign_spec b (of_uint32 f) hw hwf
  have hval : limbs_value (op_mul b (of_uint32 f)).value = limbs_value b.value * f := by
    have h := congrArg Int.natAbs m1
    rw [Int.natAbs_mul, natAbs_to_int, natAbs_to_int, natAbs_to_int] at h
    rw [op_mul, h]
    congr 1
  rw [op_mul] at hval ⊢
  generalize op_mul_assign b (of_uint32 f) = d at m2 m3 hval ⊢
  obtain ⟨n, hn⟩ : ∃ n, b.value.length = n + 1 := ⟨b.value.length - 1, by omega⟩
  rw [hn, Nat.add_sub_cancel] at hlo hhi ⊢
  obtain ⟨P, hP⟩ : ∃ P, P = 4294967296 ^ n := ⟨_, rfl⟩
  have hPpos : 0 < P := by rw [hP]; exact Nat.pos_pow_of_pos _ (by decide)
  rw [← hP] at hlo hhi
  -- the magnitude of d lies in [2^31 * P, 2^32 * P)
  have hdlo : 2147483648 * P ≤ limbs_value d.value := by
    rw [hval]
    calc 2147483648 * P ≤ (t * f) * P := Nat.mul_le_mul_right P f4
      _ = (t * P) * f := by ring
      _ ≤ limbs_value b.value * f := Nat.mul_le_mul_right f hlo
  have hdhi : limbs_value d.value < 4294967296 * P := by
    rw [hval]
    calc limbs_value b.value * f < ((t + 1) * P) * f := Nat.mul_lt_mul_of_pos_right hhi f1
      _ = ((t + 1) * f) * P := by ring
      _ ≤ 4294967296 * P := Nat.mul_le_mul_right P f3
  have hd0 : limbs_value d.value ≠ 0 := by omega
  have hdne : d.value ≠ [] := by
    intro hc; rw [hc] at hd0; exact hd0 rfl
  have hdlast : d.value.getLast? ≠ some 0 := by
    rcases m3 with h | h | h
    · exact absurd h hdne
    · rw [h] at hd0; exact absurd rfl hd0
    · exact h
  have hge := lv_ge_of_last d.value hdne hdlast
  have hlt := lv_lt d.value m2
  have hlen : d.value.length = n + 1 := by
    have hup : d.value.length - 1 < n + 1 := by
      by_contra hc
      have : 4294967296 ^ (n + 1) ≤ 4294967296 ^ (d.value.length - 1) :=
        Nat.pow_le_pow_right (by decide) (by omega)
      rw [pow_succ, ← hP] at this
      omega
    have hdn : n < d.value.length := by
      by_contra hc
      have : 4294967296 ^ d.value.length ≤ 4294967296 ^ n :=
        Nat.pow_le_pow_right (by decide) (by omega)
      rw [← hP] at this
      omega
    omega
  refine ⟨hlen, ?_⟩
  obtain ⟨_, hdtop⟩ := lv_top_bounds d.value m2 hdne
  rw [hlen, Nat.add_sub_cancel, ← hP] at hdtop
  have : 2147483648 * P < (d.value.getD n 0 + 1) * P := by omega
  have := Nat.lt_of_mul_lt_mul_right this
  omega

/-- The checks are effective: on a one-limb buffer that was not resized, the carry of
`0xFFFFFFFF * 0xFFFFFFFF` is written at index 1, outside the buffer, and the checked loop
reports it. -/
theorem mul_outer_loop_checked_detects :
    mul_outer_loop_checked [4294967295] 1 [4294967295] = none ∧
    mul_inner_loop_checked 1 4294967295 [4294967295] 0 0 0 [4294967295, 0, 0] = none := by
  decide

/-! ## Round trip on well-formed values -/

/-- Round trip on the data-model invariant: for every well-formed bignum `x`, parsing the
string produced by `to_string(x)` succeeds and yields a bignum that compares equal
(`operator==`) to `x`. -/
theorem round_trip_well_formed (x : big_integer) (hx : well_formed x) :
    ∃ y, parse (render x) = Except.ok y ∧ op_eq y x = true := by
  obtain ⟨ds, h1, h2, h3, h4, _, _⟩ := to_string_spec x hx
  obtain ⟨y, p1, p2, p3, p4⟩ := of_string_spec (if x.is_negative then ['-'] else []) ds
    (by cases x.is_negative <;> simp) h2 h3
  refine ⟨y, ?_, op_eq_of_to_int_eq y x p2 hx ?_⟩
  · show of_string (to_string x) = Except.ok y
    rw [h1]; exact p1
  · simp only [to_int, p3, p4, h4]
    cases hs : x.is_negative
    · simp
    · have hv : limbs_value x.value ≠ 0 := fun hc => by
        have := hx.2.2 hc
        rw [hs] at this
        exact absurd this (by decide)
      simp [hv]

/-- The round trip of `-(5 + 3 * 2^32 + 2^64)`. -/
theorem round_trip_well_formed_example :
    well_formed ⟨[5, 3, 1], true⟩ ∧
    ∃ y, parse (render ⟨[5, 3, 1], true⟩) = Except.ok y ∧ op_eq y ⟨[5, 3, 1], true⟩ = true :=
  ⟨by decide, round_trip_well_formed ⟨[5, 3, 1], true⟩ (by decide)⟩

/-! # The claims -/

/-- C1 (code defect): the division identity fails on the multi-limb path.  For the
well-formed dividend `a = (2^30 + 1) * 2^64` and divisor `b = 2^63 + 2^32 - 1` (top limb
`2^31`, so the normalisation factor is 1) the trial quotient `2^31 + 2` exceeds the true
digit `2^31` by two, the single correction leaves `2^31 + 1`, and `a / b`, `a % b` come out
as `2^31 + 1` and `2^31 - 1`, for which `q * b + r ≠ a` (the truncated quotient is `2^31`).
On the well-formed divisor `[0, 0xFFFFFFFF]` the denominator `b.value.back() + 1` wraps to
zero. -/
theorem division_identity_fails :
    well_formed ⟨[0, 0, 1073741825], false⟩ ∧ well_formed ⟨[4294967295, 2147483648], false⟩ ∧
    op_div ⟨[0, 0, 1073741825], false⟩ ⟨[4294967295, 2147483648], false⟩
      = some ⟨[2147483649], false⟩ ∧
    op_mod ⟨[0, 0, 1073741825], false⟩ ⟨[4294967295, 2147483648], false⟩
      = some ⟨[2147483647], false⟩ ∧
    to_int ⟨[2147483649], false⟩ * to_int ⟨[4294967295, 2147483648], false⟩
      + to_int ⟨[2147483647], false⟩ ≠ to_int ⟨[0, 0, 1073741825], false⟩ ∧
    Int.tdiv (to_int ⟨[0, 0, 1073741825], false⟩) (to_int ⟨[4294967295, 2147483648], false⟩)
      = 2147483648 ∧
    well_formed ⟨[0, 1], false⟩ ∧ well_formed ⟨[0, 4294967295], false⟩ ∧
    op_div ⟨[0, 1], false⟩ ⟨[0, 4294967295], false⟩ = none := by
  decide

/-- C2: addition is exact.  For well-formed `a` and `b` (any signs, any limb counts, zero
stored as the empty magnitude or as the single limb 0) the value of `a + b` is the sum of
the values; and `parse("123456789012345678901234567890") + parse("1")` renders as
`"123456789012345678901234567891"`. -/
theorem add_exact (a b : big_integer) (ha : well_formed a) (hb : well_formed b) :
    to_int (op_add a b) = to_int a + to_int b ∧
    ∃ x y, parse "123456789012345678901234567890" = Except.ok x ∧ parse "1" = Except.ok y ∧
      render (op_add x y) = "123456789012345678901234567891" :=
  ⟨op_add_assign_to_int a b ha.1 hb.1 ha.2.1, _, _, rfl, rfl, by decide⟩

/-- Witness for C2: a negative two-limb number plus the zero stored with no limbs. -/
theorem add_exact_witness :
    (well_formed ⟨[4294967295, 7], true⟩ ∧ well_formed ⟨[], false⟩) ∧
    to_int (op_add ⟨[4294967295, 7], true⟩ ⟨[], false⟩)
      = to_int ⟨[4294967295, 7], true⟩ + to_int ⟨[], false⟩ :=
  ⟨by decide, (add_exact ⟨[4294967295, 7], true⟩ ⟨[], false⟩ (by decide) (by decide)).1⟩

/-- C3: subtraction is exact.  For well-formed `a` and `b` the value of `a - b` is the
difference of the values, and when the values are equal the result is zero with the sign
flag false. -/
theorem sub_exact (a b : big_integer) (ha : well_formed a) (hb : well_formed b) :
    to_int (op_sub a b) = to_int a - to_int b ∧
    (to_int a = to_int b → to_int (op_sub a b) = 0 ∧ (op_sub a b).is_negative = false) :=
  ⟨op_sub_assign_to_int a b ha.1 hb.1 ha.2.1, op_sub_assign_equal a b ha hb⟩

/-- Witness for C3: two equal negative numbers. -/
theorem sub_exact_witness :
    (well_formed ⟨[5, 9], true⟩ ∧ well_formed ⟨[5, 9], true⟩) ∧
    to_int (op_sub ⟨[5, 9], true⟩ ⟨[5, 9], true⟩)
      = to_int ⟨[5, 9], true⟩ - to_int ⟨[5, 9], true⟩ ∧
    (op_sub ⟨[5, 9], true⟩ ⟨[5, 9], true⟩).is_negative = false :=
  ⟨by decide, (sub_exact ⟨[5, 9], true⟩ ⟨[5, 9], true⟩ (by decide) (by decide)).1,
    ((sub_exact ⟨[5, 9], true⟩ ⟨[5, 9], true⟩ (by decide) (by decide)).2 rfl).2⟩

/-- C4: multiplication is exact.  For well-formed `a` and `b` the in-place high-to-low
schoolbook loop of `operator*=` yields the product of the values; the result compares equal
(`operator==`) to the schoolbook product written into a fresh buffer; it is zero if either
operand is zero and otherwise its sign is the XOR of the operand signs. -/
theorem mul_exact (a b : big_integer) (ha : well_formed a) (hb : well_formed b) :
    to_int (op_mul a b) = to_int a * to_int b ∧
    op_eq (op_mul a b) (spec_mul a b) = true ∧
    (to_int a = 0 ∨ to_int b = 0 → to_int (op_mul a b) = 0) ∧
    (to_int a ≠ 0 → to_int b ≠ 0 →
      (op_mul a b).is_negative = (a.is_negative != b.is_negative)) := by
  obtain ⟨m1, _, _, m4⟩ := op_mul_assign_spec a b ha hb
  refine ⟨m1, ?_, ?_, ?_⟩
  · apply op_eq_of_to_int_eq _ _ (op_mul_assign_wf a b ha hb) (spec_mul_wf a b ha.1 hb.1)
    rw [spec_mul_to_int a b ha.1 hb.1]
    exact m1
  · intro h
    show to_int (op_mul_assign a b) = 0
    rw [m1]
    rcases h with h | h
    · rw [h]; ring
    · rw [h]; ring
  · intro h1 h2
    apply m4
    have e1 : op_eq_int a 0 = false := by
      cases h : op_eq_int a 0
      · rfl
      · exact absurd (op_eq_int_zero_to_int a h) h1
    have e2 : op_eq_int b 0 = false := by
      cases h : op_eq_int b 0
      · rfl
      · exact absurd (op_eq_int_zero_to_int b h) h2
    rw [e1, e2]; rfl

/-- Witness for C4: `(-(2^32 - 1) - 7 * 2^32) * (1 + 5 * 2^32)`. -/
theorem mul_exact_witness :
    (well_formed ⟨[4294967295, 7], true⟩ ∧ well_formed ⟨[1, 5], false⟩) ∧
    to_int (op_mul ⟨[4294967295, 7], true⟩ ⟨[1, 5], false⟩)
      = to_int ⟨[4294967295, 7], true⟩ * to_int ⟨[1, 5], false⟩ :=
  ⟨by decide, (mul_exact ⟨[4294967295, 7], true⟩ ⟨[1, 5], false⟩ (by decide) (by decide)).1⟩

/-- C5: division by a single-limb divisor truncates toward zero.  For well-formed `a` and a
non-zero `b` of exactly one limb, `a / b` is the quotient of the values truncated toward
zero, `a % b` is `value(a) - trunc(value(a) / value(b)) * value(b)`, and the remainder is
zero or carries the sign flag of the dividend; `(-7)/2 = -3`, `(-7)%2 = -1`, `7/(-2) = -3`,
`7%(-2) = 1`. -/
theorem div_single_limb_truncates (a b : big_integer) (ha : well_formed a)
    (hb : well_formed b) (h1 : b.value.length = 1) (hnz : to_int b ≠ 0) :
    (∃ q r, op_div a b = some q ∧ op_mod a b = some r ∧
      to_int q = Int.tdiv (to_int a) (to_int b) ∧
      to_int r = to_int a - Int.tdiv (to_int a) (to_int b) * to_int b ∧
      (to_int r = 0 ∨ r.is_negative = a.is_negative)) ∧
    (op_div (of_int (-7)) (of_int 2) = some (of_int (-3)) ∧
      op_mod (of_int (-7)) (of_int 2) = some (of_int (-1)) ∧
      op_div (of_int 7) (of_int (-2)) = some (of_int (-3)) ∧
      op_mod (of_int 7) (of_int (-2)) = some (of_int 1)) := by
  obtain ⟨q, hq1, hq2⟩ := op_div_assign_single a b ha.1 hb.1 h1 hnz
  obtain ⟨r, hr1, hr2, hr3⟩ := op_mod_assign_single a b ha.1 hb.1 h1 hnz
  refine ⟨⟨q, r, hq1, hr1, hq2, ?_, hr3⟩, by decide⟩
  rw [hr2, Int.tmod_def]; ring

/-- Witness for C5: `-(2^32 + 5)` divided by `-3`. -/
theorem div_single_limb_truncates_witness :
    (well_formed ⟨[5, 1], true⟩ ∧ well_formed ⟨[3], true⟩ ∧
      (⟨[3], true⟩ : big_integer).value.length = 1 ∧ to_int ⟨[3], true⟩ ≠ 0) ∧
    ∃ q r, op_div ⟨[5, 1], true⟩ ⟨[3], true⟩ = some q ∧
      op_mod ⟨[5, 1], true⟩ ⟨[3], true⟩ = some r ∧
      to_int q = Int.tdiv (to_int ⟨[5, 1], true⟩) (to_int ⟨[3], true⟩) ∧
      to_int r = to_int ⟨[5, 1], true⟩
        - Int.tdiv (to_int ⟨[5, 1], true⟩) (to_int ⟨[3], true⟩) * to_int ⟨[3], true⟩ ∧
      (to_int r = 0 ∨ r.is_negative = (⟨[5, 1], true⟩ : big_integer).is_negative) :=
  ⟨by decide,
    (div_single_limb_truncates ⟨[5, 1], true⟩ ⟨[3], true⟩ (by decide) (by decide) (by decide)
      (by decide)).1⟩
/-- C6 (code defect): with the receiver `-1` the bitwise operators do not act as on
two's-complement integers.  `++*this` turns `-1` into zero and clears its sign flag, so the
receiver is then padded and combined as a non-negative number: `(-1) & 2^32` is `0` instead
of `2^32`, `(-1) | 1` is `2^32 - 1` instead of `-1`, `(-1) ^ 1` is `2^32 - 2` instead of
`-2`. -/
theorem bitwise_receiver_minus_one_wrong :
    well_formed ⟨[1], true⟩ ∧ to_int ⟨[1], true⟩ = -1 ∧
    well_formed ⟨[0, 1], false⟩ ∧ to_int ⟨[0, 1], false⟩ = 4294967296 ∧
    to_int (op_and ⟨[1], true⟩ ⟨[0, 1], false⟩) = 0 ∧ Int.land (-1) 4294967296 = 4294967296 ∧
    to_int (op_or ⟨[1], true⟩ ⟨[1], false⟩) = 4294967295 ∧ Int.lor (-1) 1 = -1 ∧
    to_int (op_xor ⟨[1], true⟩ ⟨[1], false⟩) = 4294967294 ∧ Int.xor (-1) 1 = -2 := by
  decide!

/-- C7 (code defect): the right shift of a negative number is not always the floor.  The
decrement after the magnitude shift is applied also when no bit was shifted out, so
`(-2) >> 1` is `-2` instead of `floor(-2 / 2) = -1`; and when all limbs are shifted out the
early `return *this = 0` skips the decrement, so `(-1) >> 32` is `0` instead of `-1`. -/
theorem shr_negative_not_floor :
    well_formed ⟨[2], true⟩ ∧ to_int ⟨[2], true⟩ = -2 ∧
    to_int (op_shr ⟨[2], true⟩ 1) = -2 ∧ Int.fdiv (-2) (2 ^ 1) = -1 ∧
    well_formed ⟨[1], true⟩ ∧ to_int ⟨[1], true⟩ = -1 ∧
    to_int (op_shr ⟨[1], true⟩ 32) = 0 ∧ Int.fdiv (-1) (2 ^ 32) = -1 := by
  decide

/-- C8: left shift is multiplication by a power of two.  For well-formed `x` and a shift
count `k` of type `int`, `k ≥ 0`, the value of `x << k` is `value(x) * 2^k` and the sign
flag is kept; a zero shift and a zero operand leave `x` unchanged; and `parse("1") << 100`
renders as `"1267650600228229401496703205376"`. -/
theorem shl_exact (x : big_integer) (k : Nat) (hx : well_formed x) (hk : k < 2147483648) :
    to_int (op_shl x k) = to_int x * 2 ^ k ∧
    (op_shl x k).is_negative = x.is_negative ∧
    (k = 0 ∨ to_int x = 0 → op_shl x k = x) ∧
    ∃ one, parse "1" = Except.ok one ∧
      render (op_shl one 100) = "1267650600228229401496703205376" := by
  obtain ⟨s1, s2, _⟩ := op_shl_assign_spec x k hx.1 hk
  refine ⟨?_, s2, ?_, _, rfl, by decide⟩
  · simp only [to_int, op_shl, s1, s2]
    split
    · push_cast; ring
    · push_cast; ring
  · intro h
    rw [op_shl, op_shl_assign, if_pos]
    rcases h with h | h
    · exact Or.inl h
    · exact Or.inr ((op_eq_int_zero_of_wf x hx).mpr h)

/-- Witness for C8: `-(2^32 - 1 + 7 * 2^32) << 37`. -/
theorem shl_exact_witness :
    (well_formed ⟨[4294967295, 7], true⟩ ∧ 37 < 2147483648) ∧
    to_int (op_shl ⟨[4294967295, 7], true⟩ 37) = to_int ⟨[4294967295, 7], true⟩ * 2 ^ 37 :=
  ⟨by decide, (shl_exact ⟨[4294967295, 7], true⟩ 37 (by decide) (by decide)).1⟩

/-- C9: bitwise NOT is the two's-complement identity.  For well-formed `x` the value of
`~x` is `-(value(x) + 1)`, and `~x` is the non-negative zero when `x = -1`. -/
theorem not_exact (x : big_integer) (hx : well_formed x) :
    to_int (op_not x) = -(to_int x + 1) ∧
    (to_int x = -1 → op_not x = ⟨[0], false⟩) := by
  refine ⟨op_not_to_int x hx, fun h => ?_⟩
  rw [eq_minus_one x hx h]
  decide

/-- Witness for C9: `~(-1)` and its value. -/
theorem not_exact_witness :
    well_formed ⟨[1], true⟩ ∧ to_int (op_not ⟨[1], true⟩) = -(to_int ⟨[1], true⟩ + 1) ∧
    op_not ⟨[1], true⟩ = ⟨[0], false⟩ :=
  ⟨by decide, (not_exact ⟨[1], true⟩ (by decide)).1,
    (not_exact ⟨[1], true⟩ (by decide)).2 (by decide)⟩

/-- C10 (code defect): the string constructor does not throw on a non-digit, non-sign first
character.  The validation loop starts at index 1 and the sign branch only looks for `+`
and `-`, so `"a"` is accepted (as the limb `'a' - '0' = 49`) and so is `"x1"`, although
neither is an optional sign followed by decimal digits; the empty string, a lone sign and a
non-digit at a later position do throw. -/
theorem parse_accepts_bad_first_char :
    throws (of_string ['a']) = false ∧ of_string ['a'] = Except.ok ⟨[49], false⟩ ∧
    throws (of_string ['x', '1']) = false ∧
    throws (of_string []) = true ∧ throws (of_string ['-']) = true ∧
    throws (of_string ['1', 'a']) = true :=
  ⟨rfl, rfl, rfl, rfl, rfl, rfl⟩

/-- C11: decimal parse computes the denoted integer.  For a string made of an optional `+`
or `-` followed by one or more decimal digits (any length, leading zeros allowed) the
constructor returns a bignum whose value is the base-10 value of the digits, negated when
the sign is `-`, and whose sign flag is false when the digits denote zero; `"-0"` and `"+0"`
both give the non-negative zero. -/
theorem parse_value (pre ds : List Char) (hpre : pre = [] ∨ pre = ['+'] ∨ pre = ['-'])
    (hne : ds ≠ []) (hd : ∀ c ∈ ds, not_digit c = false) :
    (∃ x, of_string (pre ++ ds) = Except.ok x ∧
      to_int x = (if pre = ['-'] then -(decimal_value ds : Int) else (decimal_value ds : Int)) ∧
      (decimal_value ds = 0 → x.is_negative = false)) ∧
    parse "-0" = Except.ok ⟨[0], false⟩ ∧ parse "+0" = Except.ok ⟨[0], false⟩ := by
  obtain ⟨x, h1, _, h3, h4⟩ := of_string_spec pre ds hpre hne hd
  refine ⟨⟨x, h1, ?_, fun h0 => by rw [h4, h0]; simp⟩, rfl, rfl⟩
  simp only [to_int, h3, h4]
  by_cases hp : pre = ['-']
  · by_cases h0 : decimal_value ds = 0
    · simp [hp, h0]
    · simp [hp, h0]
  · simp [hp]

/-- Witness for C11: the string `"-000123456789012345678901234567890"`. -/
theorem parse_value_witness :
    ((['-'] : List Char) = [] ∨ (['-'] : List Char) = ['+'] ∨ (['-'] : List Char) = ['-']) ∧
    "000123456789012345678901234567890".toList ≠ [] ∧
    (∀ c ∈ "000123456789012345678901234567890".toList, not_digit c = false) ∧
    ∃ x, of_string (['-'] ++ "000123456789012345678901234567890".toList) = Except.ok x ∧
      to_int x = (if (['-'] : List Char) = ['-'] then
          -(decimal_value "000123456789012345678901234567890".toList : Int)
        else (decimal_value "000123456789012345678901234567890".toList : Int)) ∧
      (decimal_value "000123456789012345678901234567890".toList = 0 → x.is_negative = false) :=
  ⟨by decide, by decide, by decide,
    (parse_value ['-'] "000123456789012345678901234567890".toList (by decide) (by decide)
      (by decide)).1⟩

/-- C12: decimal render is canonical.  For well-formed `x`, `to_string(x)` is a `-` exactly
when the value is negative, followed by a non-empty string of characters `0`..`9` whose
base-10 value is `|value(x)|`, which is `"0"` for zero and has no leading `0` otherwise;
there are no other characters. -/
theorem render_canonical (x : big_integer) (hx : well_formed x) :
    ∃ ds, to_string x = (if to_int x < 0 then ['-'] else []) ++ ds ∧ ds ≠ [] ∧
      (∀ c ∈ ds, not_digit c = false) ∧ decimal_value ds = (to_int x).natAbs ∧
      (to_int x = 0 → ds = ['0']) ∧ (to_int x ≠ 0 → ds.head? ≠ some '0') := by
  obtain ⟨ds, h1, h2, h3, h4, h5, h6⟩ := to_string_spec x hx
  have hsign : (to_int x < 0) ↔ x.is_negative = true := by
    simp only [to_int]
    cases hs : x.is_negative
    · simp
    · have hv : limbs_value x.value ≠ 0 := fun hc => by
        have := hx.2.2 hc
        rw [hs] at this
        exact absurd this (by decide)
      simp only [if_true, iff_true]
      omega
  have habs : (to_int x).natAbs = limbs_value x.value := by
    simp only [to_int]
    split <;> simp
  refine ⟨ds, ?_, h2, h3, by rw [habs]; exact h4,
    fun h0 => h5 ((to_int_eq_zero_iff x).mp h0),
    fun h0 => h6 (fun hc => h0 ((to_int_eq_zero_iff x).mpr hc))⟩
  rw [h1]
  by_cases hn : x.is_negative = true
  · rw [if_pos hn, if_pos (hsign.mpr hn)]
  · rw [if_neg hn, if_neg (fun hc => hn (hsign.mp hc))]

/-- Witness for C12: the rendering of `-(5 + 3 * 2^32 + 2^64)`. -/
theorem render_canonical_witness :
    well_formed ⟨[5, 3, 1], true⟩ ∧ render ⟨[5, 3, 1], true⟩ = "-18446744086594453509" ∧
    ∃ ds, to_string ⟨[5, 3, 1], true⟩
        = (if to_int ⟨[5, 3, 1], true⟩ < 0 then ['-'] else []) ++ ds ∧ ds ≠ [] ∧
      (∀ c ∈ ds, not_digit c = false) ∧
      decimal_value ds = (to_int ⟨[5, 3, 1], true⟩).natAbs ∧
      (to_int ⟨[5, 3, 1], true⟩ = 0 → ds = ['0']) ∧
      (to_int ⟨[5, 3, 1], true⟩ ≠ 0 → ds.head? ≠ some '0') :=
  ⟨by decide, by decide, render_canonical ⟨[5, 3, 1], true⟩ (by decide)⟩

/-- C13 (code defect): the round trip fails on a bignum the program can hold.  For the
well-formed operands `2^32` and `-2^33`, `operator/` returns the single limb 0 with the sign
flag set; `to_string` does not take its `a == 0` exit on it (the fast equality compares the
signs), runs no round of the digit loop and appends the sign, giving "-"; the string
constructor throws on a lone sign, so parsing the rendering yields no bignum at all. -/
theorem round_trip_fails_on_negative_zero :
    well_formed (of_int64 4294967296) ∧ well_formed (of_int64 (-8589934592)) ∧
    op_div (of_int64 4294967296) (of_int64 (-8589934592)) = some ⟨[0], true⟩ ∧
    render ⟨[0], true⟩ = "-" ∧
    throws (parse (render ⟨[0], true⟩)) = true ∧
    ¬ ∃ y, parse (render ⟨[0], true⟩) = Except.ok y ∧ op_eq y ⟨[0], true⟩ = true := by
  refine ⟨by decide, by decide, by decide, by decide, by decide, ?_⟩
  rintro ⟨y, hy, _⟩
  have ht : throws (parse (render ⟨[0], true⟩)) = true := by decide
  rw [hy] at ht
  simp [throws] at ht

/-- C14 (code defect): the comparison is not a total order across the two stored zeros.  For
the default-constructed bignum (no limbs) and the bignum widened from the host integer 0 (the
single limb 0), both well-formed, `operator<` compares the limb counts and answers true while
`operator==` also answers true; symmetrically `>` and `==` both hold the other way round. -/
theorem zeros_less_and_equal :
    well_formed of_default ∧ well_formed (of_int 0) ∧
    op_lt of_default (of_int 0) = true ∧ op_eq of_default (of_int 0) = true ∧
    op_gt of_default (of_int 0) = false ∧
    op_gt (of_int 0) of_default = true ∧ op_eq (of_int 0) of_default = true := by
  decide

/-- C15 (code defect): the multi-limb division path returns a negative zero.  `division`
sets the quotient's sign to the XOR of the operand signs and the remainder's sign to the
dividend's sign without a zero test, so for the well-formed operands `2^32` and `-2^33` the
quotient `2^32 / (-2^33)` is the single limb 0 with the sign flag set, and so is the
remainder `(-2^33) % 2^32`; neither is well-formed. -/
theorem division_returns_negative_zero :
    well_formed (of_int64 4294967296) ∧ well_formed (of_int64 (-8589934592)) ∧
    op_div (of_int64 4294967296) (of_int64 (-8589934592)) = some ⟨[0], true⟩ ∧
    op_mod (of_int64 (-8589934592)) (of_int64 4294967296) = some ⟨[0], true⟩ ∧
    ¬ well_formed ⟨[0], true⟩ := by
  decide

/-- C16 (code defect): `x & (-1) == x` fails for `x = -1`.  The receiver `-1` loses its sign
flag in `++*this`, so `(-1) & (-1)` is the non-negative `2^32 - 1`, which does not compare
equal to `-1`. -/
theorem and_minus_one_not_identity :
    well_formed ⟨[1], true⟩ ∧ to_int ⟨[1], true⟩ = -1 ∧
    op_and ⟨[1], true⟩ ⟨[1], true⟩ = ⟨[4294967295], false⟩ ∧
    op_eq (op_and ⟨[1], true⟩ ⟨[1], true⟩) ⟨[1], true⟩ = false := by
  decide

/-- C17 (code defect): the bitwise operators are not commutative when one operand is `-1`.
As the receiver `-1` loses its sign, as the right operand it does not: `(-1) & 2^32` is `0`
but `2^32 & (-1)` is `2^32`; `(-1) | 1` is `2^32 - 1` but `1 | (-1)` is `-1`; `(-1) ^ 1` is
`2^32 - 2` but `1 ^ (-1)` is `-2`. -/
theorem bitwise_not_commutative :
    well_formed ⟨[1], true⟩ ∧ well_formed ⟨[0, 1], false⟩ ∧ well_formed ⟨[1], false⟩ ∧
    to_int (op_and ⟨[1], true⟩ ⟨[0, 1], false⟩) = 0 ∧
    to_int (op_and ⟨[0, 1], false⟩ ⟨[1], true⟩) = 4294967296 ∧
    op_eq (op_and ⟨[1], true⟩ ⟨[0, 1], false⟩) (op_and ⟨[0, 1], false⟩ ⟨[1], true⟩) = false ∧
    to_int (op_or ⟨[1], true⟩ ⟨[1], false⟩) = 4294967295 ∧
    to_int (op_or ⟨[1], false⟩ ⟨[1], true⟩) = -1 ∧
    op_eq (op_or ⟨[1], true⟩ ⟨[1], false⟩) (op_or ⟨[1], false⟩ ⟨[1], true⟩) = false ∧
    to_int (op_xor ⟨[1], true⟩ ⟨[1], false⟩) = 4294967294 ∧
    to_int (op_xor ⟨[1], false⟩ ⟨[1], true⟩) = -2 ∧
    op_eq (op_xor ⟨[1], true⟩ ⟨[1], false⟩) (op_xor ⟨[1], false⟩ ⟨[1], true⟩) = false := by
  decide

/-- C18 (code defect): the self-identities fail for `x = -1`.  `(-1) & (-1)` is `2^32 - 1`,
not `-1`, and `(-1) ^ (-1)` is `-2^32`, not `0`; only `(-1) | (-1) == -1` holds. -/
theorem self_identities_fail_at_minus_one :
    well_formed ⟨[1], true⟩ ∧ to_int ⟨[1], true⟩ = -1 ∧
    to_int (op_and ⟨[1], true⟩ ⟨[1], true⟩) = 4294967295 ∧
    op_eq (op_and ⟨[1], true⟩ ⟨[1], true⟩) ⟨[1], true⟩ = false ∧
    to_int (op_xor ⟨[1], true⟩ ⟨[1], true⟩) = -4294967296 ∧
    op_eq (op_xor ⟨[1], true⟩ ⟨[1], true⟩) (of_int 0) = false ∧
    op_eq (op_or ⟨[1], true⟩ ⟨[1], true⟩) ⟨[1], true⟩ = true := by
  decide

/-- C19: widening from a host signed 64-bit integer is exact.  For `a` between `INT64_MIN`
and `INT64_MAX` the bignum constructed from `a` has value `a`, sign flag `a < 0`, and a
well-formed (32-bit limbs, normalized, no negative zero) magnitude of at most two limbs;
`INT64_MIN` widens to `-9223372036854775808`. -/
theorem widening_exact (a : Int) (h1 : -9223372036854775808 ≤ a)
    (h2 : a ≤ 9223372036854775807) :
    to_int (of_int64 a) = a ∧ (of_int64 a).is_negative = decide (a < 0) ∧
    normalized (of_int64 a).value ∧ well_formed (of_int64 a) ∧
    (of_int64 a).value.length ≤ 2 ∧
    to_int (of_int64 (-9223372036854775808)) = -9223372036854775808 := by
  obtain ⟨w1, w2, w3, w4⟩ := of_int64_spec a h1 h2
  exact ⟨w1, w2, w3.2.1, w3, w4, by decide⟩

/-- Witness for C19: `INT64_MIN`. -/
theorem widening_exact_witness :
    ((-9223372036854775808 : Int) ≤ -9223372036854775808 ∧
      (-9223372036854775808 : Int) ≤ 9223372036854775807) ∧
    to_int (of_int64 (-9223372036854775808)) = -9223372036854775808 ∧
    (of_int64 (-9223372036854775808)).is_negative = decide ((-9223372036854775808 : Int) < 0) :=
  ⟨by decide, (widening_exact (-9223372036854775808) (by decide) (by decide)).1,
    (widening_exact (-9223372036854775808) (by decide) (by decide)).2.1⟩

/-- C20 (code defect): one correction of the trial quotient is not enough.  For the
well-formed operands `a = (2^30 + 1) * 2^64` and `b = 2^63 + 2^32 - 1` the normalisation
factor is 1, so `r = a` and `d = b` enter the main loop with `i = 1`.  The trial quotient is
`r3 / d2 = 2^31 + 2`; `r < dq` holds, `trial` becomes `2^31 + 1`, and for the recomputed `dq`
still `r < dq`: the subtraction makes `r` negative (`-(2^31 - 1)`) and the stored limb
`2^31 + 1` is not the true digit `2^31`. -/
theorem one_correction_not_enough :
    well_formed ⟨[0, 0, 1073741825], false⟩ ∧ well_formed ⟨[4294967295, 2147483648], false⟩ ∧
    op_mul ⟨[0, 0, 1073741825], false⟩ (of_uint32 1) = ⟨[0, 0, 1073741825], false⟩ ∧
    op_mul ⟨[4294967295, 2147483648], false⟩ (of_uint32 1)
      = ⟨[4294967295, 2147483648], false⟩ ∧
    (1073741825 * 4294967296 + 0) / 2147483648 = 2147483650 ∧
    op_lt ⟨[0, 0, 1073741825], false⟩
      (op_shl (mul_to_short_copy ⟨[4294967295, 2147483648], false⟩ 2147483650) 0) = true ∧
    op_lt ⟨[0, 0, 1073741825], false⟩
      (op_shl (mul_to_short_copy ⟨[4294967295, 2147483648], false⟩ 2147483649) 0) = true ∧
    division_loop ⟨[4294967295, 2147483648], false⟩ 2 1 ⟨[0, 0, 1073741825], false⟩ [0, 0]
      = (⟨[2147483647], true⟩, [2147483649, 0]) ∧
    Int.tdiv (to_int ⟨[0, 0, 1073741825], false⟩) (to_int ⟨[4294967295, 2147483648], false⟩)
      = 2147483648 := by
  decide

/-- C21. The normalisation denominator can be zero: the divisor `[0, 0xFFFFFFFF]` is
well-formed with two limbs, yet `b.value.back() + 1` in 32-bit unsigned arithmetic is 0, so
`division` has no result for any dividend, and neither does `operator/` on a dividend that
reaches the multi-limb path. -/
theorem normalization_denominator_wraps :
    well_formed ⟨[0, 4294967295], false⟩ ∧
    (⟨[0, 4294967295], false⟩ : big_integer).value.length = 2 ∧
    ((⟨[0, 4294967295], false⟩ : big_integer).value.getLastD 0 + 1) % 4294967296 = 0 ∧
    (∀ a, division a ⟨[0, 4294967295], false⟩ = none) ∧
    op_div ⟨[0, 0, 1], false⟩ ⟨[0, 4294967295], false⟩ = none := by
  refine ⟨by decide, by decide, by decide, fun a => ?_, by decide⟩
  simp [division]

/-- C22. The fast comparison with a host `int` agrees with the general comparison: for every
well-formed bignum `a` (either zero representation included) and every 32-bit signed `b`
(`INT_MIN` and 0 included), `operator==(a, b)` returns the same as `operator==(a, big_integer(b))`,
and it returns true exactly when the value of `a` is `b`. -/
theorem fast_int_equality (a : big_integer) (b : Int) (ha : well_formed a)
    (h1 : -2147483648 ≤ b) (h2 : b ≤ 2147483647) :
    op_eq_int a b = op_eq a (of_int b) ∧ (op_eq_int a b = true ↔ to_int a = b) := by
  obtain ⟨hv, _, hw, _⟩ := of_int64_spec b (by omega) (by omega)
  have hgen : op_eq a (of_int b) = true ↔ to_int a = b := by
    constructor
    · intro h
      have := op_eq_to_int a (of_int b) h
      rw [this]; exact hv
    · intro h
      exact op_eq_of_to_int_eq a (of_int b) ha hw (by rw [h]; exact hv.symm)
  have hfast : op_eq_int a b = true ↔ to_int a = b := by
    obtain ⟨hb, hn, hz⟩ := ha
    cases a with
    | mk v s =>
      match v, hb, hn, hz with
      | [], _, _, _ =>
        simp only [op_eq_int, List.isEmpty_nil, if_true, decide_eq_true_eq, to_int, lv_nil]
        constructor
        · intro h; rw [h]; split <;> rfl
        · intro h; split at h <;> omega
      | [x], hb, _, hz =>
        have hx : x < 4294967296 := hb x (List.mem_cons_self _ _)
        simp only [lv_cons, lv_nil] at hz
        cases s with
        | false =>
          simp [op_eq_int, to_int, limbs_value]
          omega
        | true =>
          have hx0 : x ≠ 0 := fun hc => by simpa using hz (by omega)
          simp [op_eq_int, to_int, limbs_value]
          omega
      | x :: y :: rest, hb, hn, _ =>
        have hlast : (x :: y :: rest).getLast? ≠ some 0 := by
          rcases hn with h | h | h
          · exact absurd h (by simp)
          · exact absurd h (by simp)
          · exact h
        have hge := lv_ge_of_last (x :: y :: rest) (by simp) hlast
        have hp : 4294967296 ^ 1 ≤ 4294967296 ^ ((x :: y :: rest).length - 1) :=
          Nat.pow_le_pow_right (by decide) (by simp)
        have hbig : 4294967296 ≤ limbs_value (x :: y :: rest) := by omega
        have hf : op_eq_int ⟨x :: y :: rest, s⟩ b = false := by
          simp [op_eq_int]
        rw [hf]
        simp only [to_int]
        constructor
        · intro h; exact absurd h (by decide)
        · intro h; split at h <;> omega
  refine ⟨?_, hfast⟩
  rw [Bool.eq_iff_iff, hfast, hgen]

/-- Fast equality at `a = -2147483648` stored as one limb and `b = INT_MIN`. -/
theorem fast_int_equality_witness :
    well_formed ⟨[2147483648], true⟩ ∧
    (op_eq_int ⟨[2147483648], true⟩ (-2147483648)
        = op_eq ⟨[2147483648], true⟩ (of_int (-2147483648)) ∧
      (op_eq_int ⟨[2147483648], true⟩ (-2147483648) = true
        ↔ to_int ⟨[2147483648], true⟩ = -2147483648)) :=
  ⟨by decide, fast_int_equality ⟨[2147483648], true⟩ (-2147483648) (by decide) (by decide)
    (by decide)⟩

/-- C23. In-place multiplication stays inside its buffer: for well-formed `a` and well-formed
non-zero `b` (a zero `a` returns before the loops), the loops of `operator*=` with every index
`i + j - 1` checked against the size `n + m + 1` of the resized buffer, every 64-bit
accumulator checked against 2^64 and the inner loop limited to `value.size() + 1` rounds run to
completion, and `operator*=` over the checked loops returns the result of the unchecked ones. -/
theorem mul_stays_in_buffer (a b : big_integer) (ha : well_formed a) (hb : well_formed b)
    (hb0 : to_int b ≠ 0) :
    (resize a.value (a.value.length + b.value.length + 1) 0).length
      = a.value.length + b.value.length + 1 ∧
    (∃ value, mul_outer_loop_checked b.value a.value.length
        (resize a.value (a.value.length + b.value.length + 1) 0) = some value ∧
      value.length = a.value.length + b.value.length + 1) ∧
    op_mul_assign_checked a b = some (op_mul_assign a b) := by
  have hbz : op_eq_int b 0 = false := by
    rw [← Bool.not_eq_true, op_eq_int_zero_of_wf b hb]; exact hb0
  obtain ⟨hbv, hbl⟩ := wf_nonzero b hb hbz
  have hs := mul_outer_checked_eq a.value b.value ha.1 hb.1 hbl hbv
    a.value.length (resize a.value (a.value.length + b.value.length + 1) 0)
    (le_refl _) (resize_length _ _ _) (resize_bounded _ _ _ ha.1 (by decide))
    (fun idx hidx => resize_getD_low _ _ _ _ hidx (by omega))
    (by rw [resize_value _ _ (by omega), List.take_of_length_le (le_refl _)])
  obtain ⟨_, _, r3⟩ := mul_outer_spec a.value b.value ha.1 hb.1 hbl hbv
    a.value.length (resize a.value (a.value.length + b.value.length + 1) 0)
    (le_refl _) (resize_length _ _ _) (resize_bounded _ _ _ ha.1 (by decide))
    (fun idx hidx => resize_getD_low _ _ _ _ hidx (by omega))
    (by rw [resize_value _ _ (by omega), List.take_of_length_le (le_refl _)])
  exact ⟨resize_length _ _ _, ⟨_, hs, r3⟩, op_mul_assign_checked_eq a b ha hb⟩

/-- Multiplication of 2^64 - 1 by itself, where a carry runs past the last limb of the right
operand. -/
theorem mul_stays_in_buffer_witness :
    well_formed ⟨[4294967295, 4294967295], false⟩ ∧
    to_int ⟨[4294967295, 4294967295], false⟩ ≠ 0 ∧
    op_mul_assign ⟨[4294967295, 4294967295], false⟩ ⟨[4294967295, 4294967295], false⟩
      = ⟨[1, 0, 4294967294, 4294967295], false⟩ ∧
    op_mul_assign_checked ⟨[4294967295, 4294967295], false⟩ ⟨[4294967295, 4294967295], false⟩
      = some (op_mul_assign ⟨[4294967295, 4294967295], false⟩
          ⟨[4294967295, 4294967295], false⟩) :=
  ⟨by decide, by decide, by decide,
    (mul_stays_in_buffer ⟨[4294967295, 4294967295], false⟩ ⟨[4294967295, 4294967295], false⟩
      (by decide) (by decide) (by decide)).2.2⟩

end BigInteger
